import Mathlib

/-!
# PcmAudioBuffer (source/core/sr/audio_buffer.cpp)

A shallow embedding of the streaming PCM audio buffer and proofs about it.

Modelling conventions.

* The byte counters are 64 bits wide, as every byte count that the source
  names (`uint64_t`): `m_totalSizeInBytes`, both offsets and the sums that the
  source accumulates are natural numbers reduced modulo 2^64 where the source
  adds to them.  The subtractions of the source are guarded (by a check or by
  the loop condition) and never wrap.  The signed difference of
  `DiscardTillUnlocked` and `ToAbsolute` is an `int64_t`: the conversions are
  spelled out (`wrapInt64`, `wrapUInt64`).
* The product in `DurationToBytes` is exact: the members it multiplies are
  declared in audio_buffer.h, which is not among the sources.
* `m_currentChunk` is an unsigned index (`size_t`): decrementing it at zero
  wraps to `SIZE_MAX`.
* A call can return normally, raise `SPXERR_RUNTIME_ERROR` (the object keeps
  the state it had at the `throw`), or index the deque out of range
  (undefined behaviour).  A sequence of calls is followed up to the first
  runtime fault: the specification treats the fault as unrecoverable.
* The mutex is not modelled: every public operation is atomic.
-/

namespace AudioBuffer

/-- Modelled from the spec: the constant is declared in audio_buffer.h, which
is not among the sources; the constructor requires the rate to be "a whole
multiple of 1000". -/
def MillisecondsInSecond : Nat := 1000

/-- Modelled from the spec: the constant is declared in audio_buffer.h, which
is not among the sources; a tick is 100 nanoseconds, so a millisecond has
10000 ticks. -/
def TicksInMillisecond : Nat := 10000

/-- The largest value of `size_t` on a 64-bit target. -/
def SIZE_MAX : Nat := 18446744073709551615

/-- The fields of `WAVEFORMATEX` that the buffer reads. -/
structure WAVEFORMATEX where
  nChannels : Nat
  nSamplesPerSec : Nat
  wBitsPerSample : Nat
deriving DecidableEq, Repr

/-- A `std::shared_ptr<uint8_t>`: the allocation it keeps alive and the
position inside that allocation at which the view starts. -/
structure SharedBytes where
  block : Nat
  offset : Nat
deriving DecidableEq, Repr

/-- A `DataChunk` object.  `data` and `size` are the fields of the source.
`createdBy` is a ghost field: the ordinal of the `Add` call whose
`make_shared<DataChunk>` created the object.  No operation reads it. -/
structure DataChunk where
  data : SharedBytes
  size : Nat
  createdBy : Nat
deriving DecidableEq, Repr

/-- The members of `PcmAudioBuffer`.  `addCalls` is a ghost counter of the
`Add` calls made on the object so far; no operation branches on it. -/
structure PcmAudioBuffer where
  m_header : WAVEFORMATEX
  m_audioBuffers : List DataChunk
  m_totalSizeInBytes : Nat
  m_currentChunk : Nat
  m_bufferStartOffsetInBytesTurnRelative : Nat
  m_bufferStartOffsetInBytesAbsolute : Nat
  m_bytesPerSample : Nat
  m_samplesPerMillisecond : Nat
  addCalls : Nat
deriving DecidableEq, Repr

/-- The two `std::runtime_error`s of the constructor. -/
inductive FormatError where
  | sampleRateNotSupported
  | bitsPerSampleNotSupported
deriving DecidableEq, Repr

/-- How a call on the buffer ends. -/
inductive Outcome where
  | done (s : PcmAudioBuffer)
  | thrown (s : PcmAudioBuffer)
  | undefined
deriving DecidableEq, Repr

/-- The value of an `int64_t` initialised from the integer `i` reduced to 64
bits (two's complement). -/
def wrapInt64 (i : Int) : Int :=
  if i % 18446744073709551616 < 9223372036854775808 then
    i % 18446744073709551616
  else
    i % 18446744073709551616 - 18446744073709551616

/-- The value of a `uint64_t` initialised from the integer `i`. -/
def wrapUInt64 (i : Int) : Nat :=
  (i % 18446744073709551616).toNat

namespace PcmAudioBuffer

/-- The member initialisers of `PcmAudioBuffer::PcmAudioBuffer`. -/
def initial (header : WAVEFORMATEX) : PcmAudioBuffer where
  m_header := header
  m_audioBuffers := []
  m_totalSizeInBytes := 0
  m_currentChunk := 0
  m_bufferStartOffsetInBytesTurnRelative := 0
  m_bufferStartOffsetInBytesAbsolute := 0
  m_bytesPerSample := header.wBitsPerSample / 8
  m_samplesPerMillisecond := header.nSamplesPerSec / MillisecondsInSecond
  addCalls := 0

/-- `PcmAudioBuffer::PcmAudioBuffer(const WAVEFORMATEX&)`. -/
def construct (header : WAVEFORMATEX) : Except FormatError PcmAudioBuffer :=
  if header.nSamplesPerSec % MillisecondsInSecond ≠ 0 then
    .error .sampleRateNotSupported
  else if header.wBitsPerSample % 8 ≠ 0 then
    .error .bitsPerSampleNotSupported
  else
    .ok (initial header)

/-- `PcmAudioBuffer::Add`.  The 64-bit total wraps. -/
def Add (s : PcmAudioBuffer) (data : SharedBytes) (dataSize : Nat) : PcmAudioBuffer :=
  { s with
    m_audioBuffers := s.m_audioBuffers ++ [⟨data, dataSize, s.addCalls⟩]
    m_totalSizeInBytes := (s.m_totalSizeInBytes + dataSize) % 18446744073709551616
    addCalls := s.addCalls + 1 }

/-- `PcmAudioBuffer::GetNextUnlocked`; `none` is the null `DataChunkPtr`.
The increment cannot overflow: it happens only below the size of the deque. -/
def GetNextUnlocked (s : PcmAudioBuffer) : Option DataChunk × PcmAudioBuffer :=
  if s.m_currentChunk ≥ s.m_audioBuffers.length then
    (none, s)
  else
    (s.m_audioBuffers[s.m_currentChunk]?, { s with m_currentChunk := s.m_currentChunk + 1 })

/-- `PcmAudioBuffer::GetNext`. -/
def GetNext (s : PcmAudioBuffer) : Option DataChunk × PcmAudioBuffer :=
  GetNextUnlocked s

/-- `PcmAudioBuffer::NewTurn`. -/
def NewTurn (s : PcmAudioBuffer) : PcmAudioBuffer :=
  { s with
    m_bufferStartOffsetInBytesTurnRelative := 0
    m_currentChunk := 0 }

/-- The statement `m_currentChunk--` on the unsigned index. -/
def decrementIndex (i : Nat) : Nat :=
  if i = 0 then SIZE_MAX else i - 1

/-- The `while` loop of `DiscardBytesUnlocked`.  The first argument is the
deque of the state; the result is the state and the value of `bytes` at loop
exit, or the state at the `throw`.  The 64-bit offsets wrap; the total is
only lowered after the check that it covers the chunk. -/
def discardWhole : List DataChunk → Nat → PcmAudioBuffer → Except PcmAudioBuffer (PcmAudioBuffer × Nat)
  | [], bytes, s => .ok (s, bytes)
  | c :: rest, bytes, s =>
    if bytes ≠ 0 ∧ c.size ≤ bytes then
      let s1 := { s with
        m_audioBuffers := rest
        m_currentChunk := decrementIndex s.m_currentChunk }
      if s1.m_totalSizeInBytes < c.size then
        .error s1
      else
        discardWhole rest (bytes - c.size)
          { s1 with
            m_totalSizeInBytes := s1.m_totalSizeInBytes - c.size
            m_bufferStartOffsetInBytesTurnRelative :=
              (s1.m_bufferStartOffsetInBytesTurnRelative + c.size) % 18446744073709551616
            m_bufferStartOffsetInBytesAbsolute :=
              (s1.m_bufferStartOffsetInBytesAbsolute + c.size) % 18446744073709551616 }
    else
      .ok (s, bytes)

/-- The part of `DiscardBytesUnlocked` after the loop.  The 64-bit offsets
wrap. -/
def discardRest (s : PcmAudioBuffer) (bytes : Nat) : Outcome :=
  match s.m_audioBuffers with
  | [] =>
    if s.m_totalSizeInBytes ≠ 0 then
      .thrown s
    else
      .done { s with m_currentChunk := 0 }
  | c :: rest =>
    if bytes > 0 then
      let s1 := { s with
        m_audioBuffers := { c with size := c.size - bytes, data := ⟨c.data.block, c.data.offset + bytes⟩ } :: rest
        m_bufferStartOffsetInBytesTurnRelative :=
          (s.m_bufferStartOffsetInBytesTurnRelative + bytes) % 18446744073709551616
        m_bufferStartOffsetInBytesAbsolute :=
          (s.m_bufferStartOffsetInBytesAbsolute + bytes) % 18446744073709551616 }
      if s1.m_totalSizeInBytes < bytes then
        .thrown s1
      else
        .done { s1 with m_totalSizeInBytes := s1.m_totalSizeInBytes - bytes }
    else
      .done s

/-- `PcmAudioBuffer::DiscardBytesUnlocked`. -/
def DiscardBytesUnlocked (s : PcmAudioBuffer) (bytes : Nat) : Outcome :=
  match discardWhole s.m_audioBuffers bytes s with
  | .error s1 => .thrown s1
  | .ok (s1, bytes1) => discardRest s1 bytes1

/-- `PcmAudioBuffer::DiscardBytes`. -/
def DiscardBytes (s : PcmAudioBuffer) (bytes : Nat) : Outcome :=
  DiscardBytesUnlocked s bytes

/-- `PcmAudioBuffer::DurationToBytes`. -/
def DurationToBytes (s : PcmAudioBuffer) (durationInTicks : Nat) : Nat :=
  s.m_header.nChannels * s.m_bytesPerSample * s.m_samplesPerMillisecond *
    (durationInTicks / TicksInMillisecond)

/-- `PcmAudioBuffer::BytesToDurationInTicks`; `none` when the divisor is zero
(the integer division is then undefined). -/
def BytesToDurationInTicks (s : PcmAudioBuffer) (bytes : Nat) : Option Nat :=
  if s.m_header.nChannels * s.m_bytesPerSample * s.m_samplesPerMillisecond = 0 then
    none
  else
    some ((bytes * TicksInMillisecond) /
      (s.m_header.nChannels * s.m_bytesPerSample * s.m_samplesPerMillisecond))

/-- `PcmAudioBuffer::DiscardTillUnlocked`.  `bytes` is the `int64_t` that the
source initialises from the unsigned difference. -/
def DiscardTillUnlocked (s : PcmAudioBuffer) (offsetInTicks : Nat) : Outcome :=
  let bytes : Int := wrapInt64
    ((DurationToBytes s offsetInTicks : Int) - (s.m_bufferStartOffsetInBytesTurnRelative : Int))
  if bytes < 0 then
    .done s
  else
    DiscardBytesUnlocked s bytes.toNat

/-- `PcmAudioBuffer::DiscardTill`. -/
def DiscardTill (s : PcmAudioBuffer) (offsetInTicks : Nat) : Outcome :=
  DiscardTillUnlocked s offsetInTicks

/-- `PcmAudioBuffer::StashedSizeInBytes`: the sizes at the indices from
`m_currentChunk` up to the size of the deque, accumulated in a `uint64_t`. -/
def StashedSizeInBytes (s : PcmAudioBuffer) : Nat :=
  ((s.m_audioBuffers.drop s.m_currentChunk).map DataChunk.size).sum % 18446744073709551616

/-- The second loop of `Drop`, for at most `fuel` iterations; `none` when the
iterations are used up before `GetNextUnlocked` returns null. -/
def dropRemaining : Nat → PcmAudioBuffer → Option Outcome
  | 0, _ => none
  | fuel + 1, s =>
    match GetNextUnlocked s with
    | (none, s1) => some (.done s1)
    | (some chunk, s1) =>
      match DiscardBytesUnlocked s1 chunk.size with
      | .done s2 => dropRemaining fuel s2
      | .thrown s2 => some (.thrown s2)
      | .undefined => some .undefined

/-- `PcmAudioBuffer::Drop` with a bound on the iterations of its second loop.
The first loop reads `m_audioBuffers[i]` for every `i < m_currentChunk`, which
is out of range when `m_currentChunk` exceeds the size of the deque; it
accumulates the sizes in a `uint64_t`. -/
def DropWithFuel (fuel : Nat) (s : PcmAudioBuffer) : Option Outcome :=
  if s.m_currentChunk ≤ s.m_audioBuffers.length then
    let unconfirmedBytes :=
      ((s.m_audioBuffers.take s.m_currentChunk).map DataChunk.size).sum % 18446744073709551616
    match DiscardBytesUnlocked s unconfirmedBytes with
    | .done s1 => dropRemaining fuel s1
    | .thrown s1 => some (.thrown s1)
    | .undefined => some .undefined
  else
    some .undefined

/-- `PcmAudioBuffer::Drop`.  One iteration per chunk and one more for the
null result is enough in every state (`Drop_terminates`). -/
def Drop (s : PcmAudioBuffer) : Option Outcome :=
  DropWithFuel (s.m_audioBuffers.length + 1) s

/-- `PcmAudioBuffer::CopyNonAcknowledgedDataTo`, seen from the target: the
new state of `buffer`.  `bufferIsThis` is the test `buffer.get() == this`. -/
def CopyNonAcknowledgedDataTo (this : PcmAudioBuffer) (buffer : PcmAudioBuffer)
    (bufferIsThis : Bool) : PcmAudioBuffer :=
  if bufferIsThis then
    buffer
  else
    this.m_audioBuffers.foldl (fun target c => Add target c.data c.size) buffer

end PcmAudioBuffer

/-- The state after a call that returned normally.  There is none after a
runtime fault (the specification treats it as unrecoverable, so a sequence of
calls is not followed beyond it) nor after undefined behaviour. -/
def Outcome.state? : Outcome → Option PcmAudioBuffer
  | .done s => some s
  | .thrown _ => none
  | .undefined => none

/-- One call of a public operation on a buffer.  `copyTo` is
`CopyNonAcknowledgedDataTo` called on this buffer (any target);
`copyFrom source` is `source.CopyNonAcknowledgedDataTo(this buffer)` for a
distinct buffer `source`. -/
inductive Op where
  | add (data : SharedBytes) (dataSize : Nat)
  | getNext
  | newTurn
  | discardBytes (bytes : Nat)
  | discardTill (offsetInTicks : Nat)
  | drop
  | copyTo
  | copyFrom (source : PcmAudioBuffer)
deriving DecidableEq, Repr

/-- The six operations that act on one buffer alone. -/
def Op.isCore : Op → Bool
  | .copyTo => false
  | .copyFrom _ => false
  | _ => true

/-- The effect of one call that returns normally: the state afterwards and
the chunk handed out when the call is a `GetNext` that returns one.  `none`
when the call raises the runtime fault or has undefined behaviour. -/
def step (s : PcmAudioBuffer) : Op → Option (PcmAudioBuffer × Option DataChunk)
  | .add data dataSize => some (s.Add data dataSize, none)
  | .getNext => some ((s.GetNext).2, (s.GetNext).1)
  | .newTurn => some (s.NewTurn, none)
  | .discardBytes bytes => (s.DiscardBytes bytes).state?.map (fun s1 => (s1, none))
  | .discardTill offsetInTicks => (s.DiscardTill offsetInTicks).state?.map (fun s1 => (s1, none))
  | .drop => (s.Drop.bind Outcome.state?).map (fun s1 => (s1, none))
  | .copyTo => some (s, none)
  | .copyFrom source => some (source.CopyNonAcknowledgedDataTo s false, none)

/-- A sequence of calls, each of which returns normally: the final state and
the chunks that the `GetNext` calls returned, in order. -/
def run : List Op → PcmAudioBuffer → Option (PcmAudioBuffer × List DataChunk)
  | [], s => some (s, [])
  | op :: ops, s =>
    match step s op with
    | none => none
    | some (s1, r) =>
      match run ops s1 with
      | none => none
      | some (s2, rs) => some (s2, r.toList ++ rs)

/-- The data-model invariants of the buffer state. -/
def DataModelInvariant (s : PcmAudioBuffer) : Prop :=
  s.m_totalSizeInBytes = (s.m_audioBuffers.map DataChunk.size).sum ∧
    s.m_currentChunk ≤ s.m_audioBuffers.length

instance (s : PcmAudioBuffer) : Decidable (DataModelInvariant s) := by
  unfold DataModelInvariant; infer_instance

/-- The sum of the `size` fields of the chunks in the deque. -/
def sizeSum (l : List DataChunk) : Nat :=
  (l.map DataChunk.size).sum

/-- The state after one iteration of the loop of `DiscardBytesUnlocked` that
popped the front chunk `c` and did not throw. -/
def popFront (s : PcmAudioBuffer) (c : DataChunk) (rest : List DataChunk) : PcmAudioBuffer :=
  { s with
    m_audioBuffers := rest
    m_currentChunk := PcmAudioBuffer.decrementIndex s.m_currentChunk
    m_totalSizeInBytes := s.m_totalSizeInBytes - c.size
    m_bufferStartOffsetInBytesTurnRelative :=
      (s.m_bufferStartOffsetInBytesTurnRelative + c.size) % 18446744073709551616
    m_bufferStartOffsetInBytesAbsolute :=
      (s.m_bufferStartOffsetInBytesAbsolute + c.size) % 18446744073709551616 }

/-- The state after the last branch of `DiscardBytesUnlocked` trimmed `bytes`
from the front chunk `c` and did not throw. -/
def trimFront (s : PcmAudioBuffer) (c : DataChunk) (rest : List DataChunk) (bytes : Nat) :
    PcmAudioBuffer :=
  { s with
    m_audioBuffers :=
      { c with size := c.size - bytes, data := ⟨c.data.block, c.data.offset + bytes⟩ } :: rest
    m_bufferStartOffsetInBytesTurnRelative :=
      (s.m_bufferStartOffsetInBytesTurnRelative + bytes) % 18446744073709551616
    m_bufferStartOffsetInBytesAbsolute :=
      (s.m_bufferStartOffsetInBytesAbsolute + bytes) % 18446744073709551616
    m_totalSizeInBytes := s.m_totalSizeInBytes - bytes }

/-- The state after `m_currentChunk = 0`. -/
def resetIndex (s : PcmAudioBuffer) : PcmAudioBuffer :=
  { s with m_currentChunk := 0 }

/-- The state after `m_currentChunk++`. -/
def advanceIndex (s : PcmAudioBuffer) : PcmAudioBuffer :=
  { s with m_currentChunk := s.m_currentChunk + 1 }

/-- The total is the sum of the chunk sizes. -/
def TotalIsSum (s : PcmAudioBuffer) : Prop :=
  s.m_totalSizeInBytes = sizeSum s.m_audioBuffers

/-- The total is the sum of the chunk sizes as a 64-bit counter holds it:
modulo 2^64. -/
def TotalIsSumMod (s : PcmAudioBuffer) : Prop :=
  s.m_totalSizeInBytes = sizeSum s.m_audioBuffers % 18446744073709551616

/-- A property of states that every elementary state change of
`DiscardBytesUnlocked` keeps when it passes the checks of the source: popping
the front chunk (the total covers it), trimming the front chunk (the total
covers the bytes), and resetting the index of an empty buffer (the total is
zero). -/
structure StableUnderDiscard (P : PcmAudioBuffer → Prop) : Prop where
  pop : ∀ s c rest, P s → s.m_audioBuffers = c :: rest → c.size ≤ s.m_totalSizeInBytes →
    P (popFront s c rest)
  trim : ∀ s c rest bytes, P s → s.m_audioBuffers = c :: rest → 0 < bytes → bytes < c.size →
    bytes ≤ s.m_totalSizeInBytes → P (trimFront s c rest bytes)
  reset : ∀ s, P s → s.m_audioBuffers = [] → s.m_totalSizeInBytes = 0 → P (resetIndex s)

/-- A property of states that every elementary state change of the buffer
keeps: those of `DiscardBytesUnlocked`, appending a chunk, and advancing the
index. -/
structure Stable (P : PcmAudioBuffer → Prop) extends StableUnderDiscard P : Prop where
  add : ∀ s data dataSize, P s → P (s.Add data dataSize)
  advance : ∀ s, P s → s.m_currentChunk < s.m_audioBuffers.length → P (advanceIndex s)

/-- The format of the scenario of the specification, section 8: one channel,
16 bits per sample, 16000 Hz. -/
def scenarioHeader : WAVEFORMATEX := ⟨1, 16000, 16⟩

/-- Two payloads used in the examples. -/
def payloadA : SharedBytes := ⟨1, 0⟩

/-- The second payload used in the examples. -/
def payloadB : SharedBytes := ⟨2, 0⟩

/-- The calls of the scenario of the specification, section 8, with a
self-copy at the end. -/
def scenarioOps : List Op :=
  [.add payloadA 1000, .add payloadB 1000, .getNext, .discardBytes 500, .copyTo]

/-- The state at the end of `scenarioOps`. -/
def scenarioState : PcmAudioBuffer where
  m_header := scenarioHeader
  m_audioBuffers := [⟨⟨1, 500⟩, 500, 0⟩, ⟨payloadB, 1000, 1⟩]
  m_totalSizeInBytes := 1500
  m_currentChunk := 1
  m_bufferStartOffsetInBytesTurnRelative := 500
  m_bufferStartOffsetInBytesAbsolute := 500
  m_bytesPerSample := 2
  m_samplesPerMillisecond := 16
  addCalls := 2

/-- The chunk objects that successive `Add` calls create from a list of
(payload, size) pairs, the first call being call number `n` on the buffer. -/
def chunksOf : List (SharedBytes × Nat) → Nat → List DataChunk
  | [], _ => []
  | p :: l, n => ⟨p.1, p.2, n⟩ :: chunksOf l (n + 1)

/-- One `Add` call for each (payload, size) pair. -/
def addOps (l : List (SharedBytes × Nat)) : List Op :=
  l.map (fun p => Op.add p.1 p.2)

/-- A buffer of the scenario format after `Add(payloadA, 0)`: one chunk of
size zero, nothing handed out. -/
def zeroChunkState : PcmAudioBuffer where
  m_header := scenarioHeader
  m_audioBuffers := [⟨payloadA, 0, 0⟩]
  m_totalSizeInBytes := 0
  m_currentChunk := 0
  m_bufferStartOffsetInBytesTurnRelative := 0
  m_bufferStartOffsetInBytesAbsolute := 0
  m_bytesPerSample := 2
  m_samplesPerMillisecond := 16
  addCalls := 1

/-- A buffer of the scenario format with three chunks, the first of which has
been handed out (the Drop scenario of the specification, section 8). -/
def threeChunkState : PcmAudioBuffer where
  m_header := scenarioHeader
  m_audioBuffers := [⟨payloadA, 1000, 0⟩, ⟨payloadB, 1000, 1⟩, ⟨payloadA, 7, 2⟩]
  m_totalSizeInBytes := 2007
  m_currentChunk := 1
  m_bufferStartOffsetInBytesTurnRelative := 0
  m_bufferStartOffsetInBytesAbsolute := 0
  m_bytesPerSample := 2
  m_samplesPerMillisecond := 16
  addCalls := 3


/-- A format with no channels; the constructor accepts it. -/
def zeroChannelHeader : WAVEFORMATEX := ⟨0, 16000, 16⟩

/-- The state after `Add(payloadA, 10)`, `Add(payloadB, 10)`,
`DiscardBytes(10)` on a fresh buffer of the scenario format: the first chunk
was popped while the index was zero. -/
def wrappedIndexState : PcmAudioBuffer where
  m_header := scenarioHeader
  m_audioBuffers := [⟨payloadB, 10, 1⟩]
  m_totalSizeInBytes := 10
  m_currentChunk := SIZE_MAX
  m_bufferStartOffsetInBytesTurnRelative := 10
  m_bufferStartOffsetInBytesAbsolute := 10
  m_bytesPerSample := 2
  m_samplesPerMillisecond := 16
  addCalls := 2


/-- The creating `Add` calls of the chunks in the deque, in deque order. -/
def chunkIds (s : PcmAudioBuffer) : List Nat :=
  s.m_audioBuffers.map DataChunk.createdBy

/-- The chunks in the deque are in the order of their creation, and each was
created by one of the `Add` calls counted so far. -/
def CreationOrdered (s : PcmAudioBuffer) : Prop :=
  (chunkIds s).Pairwise (· < ·) ∧ ∀ i ∈ chunkIds s, i < s.addCalls

/-- The `Add` call `i` made a chunk that stands at or behind the index, or
`i` is an `Add` call yet to come. -/
def NotYetOffered (s : PcmAudioBuffer) (i : Nat) : Prop :=
  i ∈ (s.m_audioBuffers.drop s.m_currentChunk).map DataChunk.createdBy ∨ s.addCalls ≤ i


/-- Two chunks added, the first handed out and discarded, then GetNext
called twice more. -/
def twoReadsOps : List Op :=
  [.add payloadA 1000, .add payloadB 1000, .getNext, .discardBytes 1000, .getNext, .getNext]

/-- The state at the end of `twoReadsOps`. -/
def twoReadsState : PcmAudioBuffer where
  m_header := scenarioHeader
  m_audioBuffers := [⟨payloadB, 1000, 1⟩]
  m_totalSizeInBytes := 1000
  m_currentChunk := 1
  m_bufferStartOffsetInBytesTurnRelative := 1000
  m_bufferStartOffsetInBytesAbsolute := 1000
  m_bytesPerSample := 2
  m_samplesPerMillisecond := 16
  addCalls := 2


namespace PcmAudioBuffer

/-- `PcmAudioBuffer::ToAbsolute`, with the 64-bit conversions of the source
spelled out: the unsigned difference is stored in an `int64_t`, and the sum
of the unsigned absolute offset and that signed value is passed as a
`uint64_t`. -/
def ToAbsolute (s : PcmAudioBuffer) (offsetInTicksTurnRelative : Nat) : Option Nat :=
  let bytes : Int := wrapInt64
    ((s.DurationToBytes offsetInTicksTurnRelative : Int) -
      (s.m_bufferStartOffsetInBytesTurnRelative : Int))
  s.BytesToDurationInTicks (wrapUInt64 ((s.m_bufferStartOffsetInBytesAbsolute : Int) + bytes))

end PcmAudioBuffer


/-- The front chunk `c` after `bytes` were trimmed from it: the size is
reduced and the payload view starts `bytes` further. -/
def trimmedChunk (c : DataChunk) (bytes : Nat) : DataChunk :=
  { c with size := c.size - bytes, data := ⟨c.data.block, c.data.offset + bytes⟩ }

/-- The state after `Add(payloadA, 1000)`, `Add(payloadB, 1000)` and one
`GetNext` on a fresh buffer of the scenario format. -/
def afterFirstReadState : PcmAudioBuffer where
  m_header := scenarioHeader
  m_audioBuffers := [⟨payloadA, 1000, 0⟩, ⟨payloadB, 1000, 1⟩]
  m_totalSizeInBytes := 2000
  m_currentChunk := 1
  m_bufferStartOffsetInBytesTurnRelative := 0
  m_bufferStartOffsetInBytesAbsolute := 0
  m_bytesPerSample := 2
  m_samplesPerMillisecond := 16
  addCalls := 2


/-- Step 1 of the DiscardBytes algorithm of the specification (section 4.1),
written from its words: while there are chunks and the front chunk's size is
at most the bytes still to discard, pop the chunk, subtract its size from
the total and from the bytes to discard, decrement the index by one and
advance both offsets by its size.  The result is the state and the bytes
still to discard.  (The index of the specification is never negative; the
decrement is only meaningful while it is positive.) -/
def specPopWhole : List DataChunk → Nat → PcmAudioBuffer → PcmAudioBuffer × Nat
  | [], remaining, s => (s, remaining)
  | c :: rest, remaining, s =>
    if c.size ≤ remaining then
      specPopWhole rest (remaining - c.size)
        { s with
          m_audioBuffers := rest
          m_totalSizeInBytes := s.m_totalSizeInBytes - c.size
          m_currentChunk := s.m_currentChunk - 1
          m_bufferStartOffsetInBytesTurnRelative := s.m_bufferStartOffsetInBytesTurnRelative + c.size
          m_bufferStartOffsetInBytesAbsolute := s.m_bufferStartOffsetInBytesAbsolute + c.size }
    else
      (s, remaining)

/-- The three-step DiscardBytes algorithm of the specification (section 4.1),
written from its words: step 1 (`specPopWhole`); step 2, if the sequence is
now empty, reset the index to 0; step 3, otherwise, if bytes remain, trim the
front chunk by them (size reduced, view starting that much later), advance
both offsets by them and subtract them from the total. -/
def specDiscardBytes (s : PcmAudioBuffer) (n : Nat) : PcmAudioBuffer :=
  match (specPopWhole s.m_audioBuffers n s).1.m_audioBuffers with
  | [] => { (specPopWhole s.m_audioBuffers n s).1 with m_currentChunk := 0 }
  | c :: rest =>
    if (specPopWhole s.m_audioBuffers n s).2 > 0 then
      { (specPopWhole s.m_audioBuffers n s).1 with
        m_audioBuffers :=
          { c with
            size := c.size - (specPopWhole s.m_audioBuffers n s).2
            data := ⟨c.data.block, c.data.offset + (specPopWhole s.m_audioBuffers n s).2⟩ } :: rest
        m_bufferStartOffsetInBytesTurnRelative :=
          (specPopWhole s.m_audioBuffers n s).1.m_bufferStartOffsetInBytesTurnRelative +
            (specPopWhole s.m_audioBuffers n s).2
        m_bufferStartOffsetInBytesAbsolute :=
          (specPopWhole s.m_audioBuffers n s).1.m_bufferStartOffsetInBytesAbsolute +
            (specPopWhole s.m_audioBuffers n s).2
        m_totalSizeInBytes :=
          (specPopWhole s.m_audioBuffers n s).1.m_totalSizeInBytes -
            (specPopWhole s.m_audioBuffers n s).2 }
    else
      (specPopWhole s.m_audioBuffers n s).1

/-- The state with its index replaced by `k`. -/
def withIndex (s : PcmAudioBuffer) (k : Nat) : PcmAudioBuffer :=
  { s with m_currentChunk := k }

/-- A state that no buffer can be in: one chunk of 5 bytes and a total size
of zero. -/
def inconsistentState : PcmAudioBuffer where
  m_header := scenarioHeader
  m_audioBuffers := [⟨payloadA, 5, 0⟩]
  m_totalSizeInBytes := 0
  m_currentChunk := 0
  m_bufferStartOffsetInBytesTurnRelative := 0
  m_bufferStartOffsetInBytesAbsolute := 0
  m_bytesPerSample := 2
  m_samplesPerMillisecond := 16
  addCalls := 1


/-- The sum of `dataSize` over the `Add` calls that a sequence of calls makes
on the buffer: the direct ones, and one for each chunk of the source when the
buffer is the target of `CopyNonAcknowledgedDataTo`. -/
def addedBytes : List Op → Nat
  | [] => 0
  | .add _ dataSize :: ops => dataSize + addedBytes ops
  | .copyFrom source :: ops => sizeSum source.m_audioBuffers + addedBytes ops
  | _ :: ops => addedBytes ops

/-- The calls `Add(payloadA, 2^64 - 1)`, `Add(payloadB, 2)`: the sizes sum to
2^64 + 1. -/
def overflowOps : List Op :=
  [.add payloadA 18446744073709551615, .add payloadB 2]

/-- The state at the end of `overflowOps` on a fresh buffer of the scenario
format: the 64-bit total has wrapped to 1. -/
def overflowedState : PcmAudioBuffer where
  m_header := scenarioHeader
  m_audioBuffers := [⟨payloadA, 18446744073709551615, 0⟩, ⟨payloadB, 2, 1⟩]
  m_totalSizeInBytes := 1
  m_currentChunk := 0
  m_bufferStartOffsetInBytesTurnRelative := 0
  m_bufferStartOffsetInBytesAbsolute := 0
  m_bytesPerSample := 2
  m_samplesPerMillisecond := 16
  addCalls := 2

/-- The calls that lead to `farTurnState`: 13 * 10^18 bytes are added, handed
out and discarded in one turn while a second chunk waits. -/
def farTurnOps : List Op :=
  [.add payloadA 13000000000000000000, .add payloadB 10, .getNext,
    .discardBytes 13000000000000000000]

/-- The state at the end of `farTurnOps` on a fresh buffer of the scenario
format: the turn-relative offset is 13 * 10^18, above 2^63. -/
def farTurnState : PcmAudioBuffer where
  m_header := scenarioHeader
  m_audioBuffers := [⟨payloadB, 10, 1⟩]
  m_totalSizeInBytes := 10
  m_currentChunk := 0
  m_bufferStartOffsetInBytesTurnRelative := 13000000000000000000
  m_bufferStartOffsetInBytesAbsolute := 13000000000000000000
  m_bytesPerSample := 2
  m_samplesPerMillisecond := 16
  addCalls := 2

/-- What `DiscardTill(0)` leaves of `farTurnState`. -/
def farTurnEmptiedState : PcmAudioBuffer where
  m_header := scenarioHeader
  m_audioBuffers := []
  m_totalSizeInBytes := 0
  m_currentChunk := 0
  m_bufferStartOffsetInBytesTurnRelative := 13000000000000000010
  m_bufferStartOffsetInBytesAbsolute := 13000000000000000010
  m_bytesPerSample := 2
  m_samplesPerMillisecond := 16
  addCalls := 2

/-- A format with eight channels of 32-bit samples at 384 kHz: 12288 bytes
per millisecond. -/
def wideHeader : WAVEFORMATEX := ⟨8, 384000, 32⟩

/-- The state after one Add of 13 * 10^18 bytes to a fresh buffer of the
format `wideHeader`. -/
def wideFormatState : PcmAudioBuffer where
  m_header := wideHeader
  m_audioBuffers := [⟨payloadA, 13000000000000000000, 0⟩]
  m_totalSizeInBytes := 13000000000000000000
  m_currentChunk := 0
  m_bufferStartOffsetInBytesTurnRelative := 0
  m_bufferStartOffsetInBytesAbsolute := 0
  m_bytesPerSample := 4
  m_samplesPerMillisecond := 384
  addCalls := 1

/-- The calls that lead to `halfAddedState`: 2^63 bytes are added, handed out
and discarded, and 2^63 more are added and handed out. -/
def halfAddedOps : List Op :=
  [.add payloadA 9223372036854775808, .getNext, .discardBytes 9223372036854775808,
    .add payloadB 9223372036854775808, .getNext]

/-- The state at the end of `halfAddedOps` on a fresh buffer of the scenario
format: both offsets are 2^63, and 2^63 bytes are buffered. -/
def halfAddedState : PcmAudioBuffer where
  m_header := scenarioHeader
  m_audioBuffers := [⟨payloadB, 9223372036854775808, 1⟩]
  m_totalSizeInBytes := 9223372036854775808
  m_currentChunk := 1
  m_bufferStartOffsetInBytesTurnRelative := 9223372036854775808
  m_bufferStartOffsetInBytesAbsolute := 9223372036854775808
  m_bytesPerSample := 2
  m_samplesPerMillisecond := 16
  addCalls := 2

/-- What `DiscardBytes(2^63)` leaves of `halfAddedState`: both offsets have
wrapped to zero. -/
def halfAddedDiscardedState : PcmAudioBuffer where
  m_header := scenarioHeader
  m_audioBuffers := []
  m_totalSizeInBytes := 0
  m_currentChunk := 0
  m_bufferStartOffsetInBytesTurnRelative := 0
  m_bufferStartOffsetInBytesAbsolute := 0
  m_bytesPerSample := 2
  m_samplesPerMillisecond := 16
  addCalls := 2

/-- The calls that lead to `wrappedAbsoluteState`: three times 2^62 bytes are
added and discarded, a new turn starts, and 2^62 + 5 bytes are added and
discarded, 2^64 + 5 bytes in all. -/
def wrappedAbsoluteOps : List Op :=
  [.add payloadA 4611686018427387904, .discardBytes 4611686018427387904,
    .add payloadA 4611686018427387904, .discardBytes 4611686018427387904,
    .add payloadA 4611686018427387904, .discardBytes 4611686018427387904,
    .newTurn,
    .add payloadA 4611686018427387909, .discardBytes 4611686018427387909]

/-- The state at the end of `wrappedAbsoluteOps` on a fresh buffer of the
scenario format: the absolute offset has wrapped to 5, below the
turn-relative offset 2^62 + 5. -/
def wrappedAbsoluteState : PcmAudioBuffer where
  m_header := scenarioHeader
  m_audioBuffers := []
  m_totalSizeInBytes := 0
  m_currentChunk := 0
  m_bufferStartOffsetInBytesTurnRelative := 4611686018427387909
  m_bufferStartOffsetInBytesAbsolute := 5
  m_bytesPerSample := 2
  m_samplesPerMillisecond := 16
  addCalls := 4

/-- A state with a chunk of size zero between two chunks of 5 bytes, all
three handed out. -/
def zeroMiddleState : PcmAudioBuffer where
  m_header := scenarioHeader
  m_audioBuffers := [⟨payloadA, 5, 0⟩, ⟨payloadB, 0, 1⟩, ⟨payloadA, 5, 2⟩]
  m_totalSizeInBytes := 10
  m_currentChunk := 3
  m_bufferStartOffsetInBytesTurnRelative := 0
  m_bufferStartOffsetInBytesAbsolute := 0
  m_bytesPerSample := 2
  m_samplesPerMillisecond := 16
  addCalls := 3

/-- A state with one chunk of 10 bytes, handed out, whose offsets are 5 below
2^64. -/
def nearWrapState : PcmAudioBuffer where
  m_header := scenarioHeader
  m_audioBuffers := [⟨payloadA, 10, 0⟩]
  m_totalSizeInBytes := 10
  m_currentChunk := 1
  m_bufferStartOffsetInBytesTurnRelative := 18446744073709551611
  m_bufferStartOffsetInBytesAbsolute := 18446744073709551611
  m_bytesPerSample := 2
  m_samplesPerMillisecond := 16
  addCalls := 1

/-! ## The loop of `DiscardBytesUnlocked` -/

open PcmAudioBuffer

theorem wrapInt64_of_bounds (i : Int) (hlo : -9223372036854775808 ≤ i)
    (hhi : i < 9223372036854775808) : wrapInt64 i = i := by
  unfold wrapInt64
  split_ifs <;> omega

theorem wrapInt64_emod (i : Int) :
    wrapInt64 i % 18446744073709551616 = i % 18446744073709551616 := by
  unfold wrapInt64
  split_ifs <;> omega

theorem wrapUInt64_of_bounds (i : Int) (hlo : 0 ≤ i) (hhi : i < 18446744073709551616) :
    wrapUInt64 i = i.toNat := by
  unfold wrapUInt64
  congr 1
  omega

theorem sizeSum_cons (c : DataChunk) (l : List DataChunk) :
    sizeSum (c :: l) = c.size + sizeSum l := by
  simp [sizeSum]

theorem sizeSum_append (l₁ l₂ : List DataChunk) :
    sizeSum (l₁ ++ l₂) = sizeSum l₁ + sizeSum l₂ := by
  simp [sizeSum]

theorem totalIsSum_popFront (s : PcmAudioBuffer) (c : DataChunk) (rest : List DataChunk)
    (h : TotalIsSum s) (hl : s.m_audioBuffers = c :: rest) : TotalIsSum (popFront s c rest) := by
  unfold TotalIsSum at *
  simp only [popFront]
  rw [h, hl, sizeSum_cons]
  omega

theorem totalIsSum_trimFront (s : PcmAudioBuffer) (c : DataChunk) (rest : List DataChunk)
    (bytes : Nat) (h : TotalIsSum s) (hl : s.m_audioBuffers = c :: rest) (hb : bytes < c.size) :
    TotalIsSum (trimFront s c rest bytes) := by
  unfold TotalIsSum at *
  simp only [trimFront]
  rw [h, hl, sizeSum_cons, sizeSum_cons]
  simp only
  omega

/-- One iteration of the loop, when its condition holds and the total covers
the front chunk. -/
theorem discardWhole_cons_pop (c : DataChunk) (rest : List DataChunk) (bytes : Nat)
    (s : PcmAudioBuffer) (hb : bytes ≠ 0) (hc : c.size ≤ bytes)
    (ht : c.size ≤ s.m_totalSizeInBytes) :
    discardWhole (c :: rest) bytes s = discardWhole rest (bytes - c.size) (popFront s c rest) := by
  have h1 : ¬ s.m_totalSizeInBytes < c.size := by omega
  simp [discardWhole, popFront, hb, hc, h1]

/-- One iteration of the loop, when its condition holds and the total does
not cover the front chunk: the first underflow check fires. -/
theorem discardWhole_cons_throw (c : DataChunk) (rest : List DataChunk) (bytes : Nat)
    (s : PcmAudioBuffer) (hb : bytes ≠ 0) (hc : c.size ≤ bytes)
    (ht : s.m_totalSizeInBytes < c.size) :
    ∃ s1, discardWhole (c :: rest) bytes s = .error s1 := by
  simp [discardWhole, hb, hc, ht]

/-- The loop stops at once when its condition fails. -/
theorem discardWhole_cons_stop (c : DataChunk) (rest : List DataChunk) (bytes : Nat)
    (s : PcmAudioBuffer) (h : bytes = 0 ∨ bytes < c.size) :
    discardWhole (c :: rest) bytes s = .ok (s, bytes) := by
  have h1 : ¬ (bytes ≠ 0 ∧ c.size ≤ bytes) := by omega
  simp only [discardWhole, h1, if_false]

/-- When the loop ends without a throw it has kept every property that is
stable under discards, and at exit either nothing is left to discard or the
front chunk is larger than what is left. -/
theorem discardWhole_keeps (P : PcmAudioBuffer → Prop) (hP : StableUnderDiscard P) :
    ∀ (l : List DataChunk) (bytes : Nat) (s s1 : PcmAudioBuffer) (b1 : Nat),
      s.m_audioBuffers = l → P s → discardWhole l bytes s = .ok (s1, b1) →
      P s1 ∧ (∀ c rest, s1.m_audioBuffers = c :: rest → b1 = 0 ∨ b1 < c.size) := by
  intro l
  induction l with
  | nil =>
    intro bytes s s1 b1 hl hp h
    simp only [discardWhole, Except.ok.injEq, Prod.mk.injEq] at h
    obtain ⟨rfl, rfl⟩ := h
    exact ⟨hp, fun c rest h => by rw [hl] at h; cases h⟩
  | cons c rest ih =>
    intro bytes s s1 b1 hl hp h
    by_cases hcond : bytes ≠ 0 ∧ c.size ≤ bytes
    · by_cases hthrow : s.m_totalSizeInBytes < c.size
      · obtain ⟨s2, h2⟩ := discardWhole_cons_throw c rest bytes s hcond.1 hcond.2 hthrow
        rw [h2] at h
        cases h
      · rw [discardWhole_cons_pop c rest bytes s hcond.1 hcond.2 (by omega)] at h
        exact ih (bytes - c.size) (popFront s c rest) s1 b1 rfl (hP.pop s c rest hp hl (by omega)) h
    · rw [discardWhole_cons_stop c rest bytes s (by omega)] at h
      simp only [Except.ok.injEq, Prod.mk.injEq] at h
      obtain ⟨rfl, rfl⟩ := h
      refine ⟨hp, ?_⟩
      intro c1 rest1 h
      rw [hl] at h
      cases h
      omega

/-- When the total is the sum of the sizes the loop never throws; it keeps
every property that is stable under discards, and at exit either nothing is
left to discard or the front chunk is larger than what is left. -/
theorem discardWhole_stable (P : PcmAudioBuffer → Prop) (hP : StableUnderDiscard P) :
    ∀ (l : List DataChunk) (bytes : Nat) (s : PcmAudioBuffer),
      s.m_audioBuffers = l → TotalIsSum s → P s →
      ∃ s1 b1, discardWhole l bytes s = .ok (s1, b1) ∧ TotalIsSum s1 ∧ P s1 ∧
        (∀ c rest, s1.m_audioBuffers = c :: rest → b1 = 0 ∨ b1 < c.size) := by
  intro l
  induction l with
  | nil =>
    intro bytes s hl ht hp
    exact ⟨s, bytes, rfl, ht, hp, fun c rest h => by rw [hl] at h; cases h⟩
  | cons c rest ih =>
    intro bytes s hl ht hp
    have hle : c.size ≤ s.m_totalSizeInBytes := by
      rw [ht, hl, sizeSum_cons]; omega
    by_cases hcond : bytes ≠ 0 ∧ c.size ≤ bytes
    · rw [discardWhole_cons_pop c rest bytes s hcond.1 hcond.2 hle]
      exact ih (bytes - c.size) (popFront s c rest) rfl (totalIsSum_popFront s c rest ht hl)
        (hP.pop s c rest hp hl hle)
    · rw [discardWhole_cons_stop c rest bytes s (by omega)]
      refine ⟨s, bytes, rfl, ht, hp, ?_⟩
      intro c1 rest1 h
      rw [hl] at h
      cases h
      omega

/-! ## Stable properties along the operations -/

theorem discardRest_nil (s : PcmAudioBuffer) (bytes : Nat) (hl : s.m_audioBuffers = [])
    (ht : s.m_totalSizeInBytes = 0) : discardRest s bytes = .done (resetIndex s) := by
  simp [discardRest, hl, ht, resetIndex]

theorem discardRest_nil_throw (s : PcmAudioBuffer) (bytes : Nat) (hl : s.m_audioBuffers = [])
    (ht : s.m_totalSizeInBytes ≠ 0) : discardRest s bytes = .thrown s := by
  simp [discardRest, hl, ht]

theorem discardRest_cons_zero (s : PcmAudioBuffer) (c : DataChunk) (rest : List DataChunk)
    (hl : s.m_audioBuffers = c :: rest) : discardRest s 0 = .done s := by
  simp [discardRest, hl]

theorem discardRest_cons_trim (s : PcmAudioBuffer) (c : DataChunk) (rest : List DataChunk)
    (bytes : Nat) (hl : s.m_audioBuffers = c :: rest) (hb : 0 < bytes)
    (ht : bytes ≤ s.m_totalSizeInBytes) :
    discardRest s bytes = .done (trimFront s c rest bytes) := by
  have h1 : ¬ s.m_totalSizeInBytes < bytes := by omega
  simp [discardRest, hl, hb, h1, trimFront]

theorem discardRest_cons_throw (s : PcmAudioBuffer) (c : DataChunk) (rest : List DataChunk)
    (bytes : Nat) (hl : s.m_audioBuffers = c :: rest) (hb : 0 < bytes)
    (ht : s.m_totalSizeInBytes < bytes) :
    ∃ s1, discardRest s bytes = .thrown s1 := by
  simp [discardRest, hl, hb, ht]

/-- The part after the loop, entered as the loop leaves it: when it returns
normally it has kept every property that is stable under discards. -/
theorem discardRest_keeps (P : PcmAudioBuffer → Prop) (hP : StableUnderDiscard P)
    (s s1 : PcmAudioBuffer) (bytes : Nat) (hp : P s)
    (hexit : ∀ c rest, s.m_audioBuffers = c :: rest → bytes = 0 ∨ bytes < c.size)
    (h : discardRest s bytes = .done s1) : P s1 := by
  cases hl : s.m_audioBuffers with
  | nil =>
    by_cases ht : s.m_totalSizeInBytes = 0
    · rw [discardRest_nil s bytes hl ht] at h
      simp only [Outcome.done.injEq] at h
      rw [← h]
      exact hP.reset s hp hl ht
    · rw [discardRest_nil_throw s bytes hl ht] at h
      cases h
  | cons c rest =>
    rcases Nat.eq_zero_or_pos bytes with hb | hb
    · subst hb
      rw [discardRest_cons_zero s c rest hl] at h
      simp only [Outcome.done.injEq] at h
      rw [← h]
      exact hp
    · have hlt : bytes < c.size := by
        rcases hexit c rest hl with h0 | h0
        · omega
        · exact h0
      by_cases ht : s.m_totalSizeInBytes < bytes
      · obtain ⟨s2, h2⟩ := discardRest_cons_throw s c rest bytes hl hb ht
        rw [h2] at h
        cases h
      · rw [discardRest_cons_trim s c rest bytes hl hb (by omega)] at h
        simp only [Outcome.done.injEq] at h
        rw [← h]
        exact hP.trim s c rest bytes hp hl hb hlt (by omega)

/-- When `DiscardBytesUnlocked` returns normally it has kept every property
that is stable under discards. -/
theorem DiscardBytesUnlocked_keeps (P : PcmAudioBuffer → Prop) (hP : StableUnderDiscard P)
    (s s1 : PcmAudioBuffer) (bytes : Nat) (hp : P s)
    (h : DiscardBytesUnlocked s bytes = .done s1) : P s1 := by
  unfold DiscardBytesUnlocked at h
  cases hloop : discardWhole s.m_audioBuffers bytes s with
  | error e => simp [hloop] at h
  | ok x =>
    obtain ⟨s2, b2⟩ := x
    simp only [hloop] at h
    obtain ⟨hp2, hexit⟩ := discardWhole_keeps P hP s.m_audioBuffers bytes s s2 b2 rfl hp hloop
    exact discardRest_keeps P hP s2 s1 b2 hp2 hexit h

/-- When the total is the sum of the sizes, `DiscardBytesUnlocked` returns
normally and keeps every property that is stable under discards. -/
theorem DiscardBytesUnlocked_stable (P : PcmAudioBuffer → Prop) (hP : StableUnderDiscard P)
    (s : PcmAudioBuffer) (bytes : Nat) (ht : TotalIsSum s) (hp : P s) :
    ∃ s2, DiscardBytesUnlocked s bytes = .done s2 ∧ TotalIsSum s2 ∧ P s2 := by
  obtain ⟨s1, b1, hloop, ht1, hp1, hexit⟩ :=
    discardWhole_stable P hP s.m_audioBuffers bytes s rfl ht hp
  unfold DiscardBytesUnlocked
  rw [hloop]
  simp only
  cases hl : s1.m_audioBuffers with
  | nil =>
    have h0 : s1.m_totalSizeInBytes = 0 := by rw [ht1, hl]; rfl
    rw [discardRest_nil s1 b1 hl h0]
    refine ⟨resetIndex s1, rfl, ?_, hP.reset s1 hp1 hl h0⟩
    unfold TotalIsSum at *
    simpa [resetIndex] using ht1
  | cons c rest =>
    rcases Nat.eq_zero_or_pos b1 with hb | hb
    · subst hb
      rw [discardRest_cons_zero s1 c rest hl]
      exact ⟨s1, rfl, ht1, hp1⟩
    · have hlt : b1 < c.size := by
        rcases hexit c rest hl with h | h
        · omega
        · exact h
      have hle : b1 ≤ s1.m_totalSizeInBytes := by
        rw [ht1, hl, sizeSum_cons]; omega
      rw [discardRest_cons_trim s1 c rest b1 hl hb hle]
      exact ⟨trimFront s1 c rest b1, rfl, totalIsSum_trimFront s1 c rest b1 ht1 hl hlt,
        hP.trim s1 c rest b1 hp1 hl hb hlt hle⟩

theorem totalIsSum_advanceIndex (s : PcmAudioBuffer) (h : TotalIsSum s) :
    TotalIsSum (advanceIndex s) := by
  unfold TotalIsSum at *
  simpa [advanceIndex] using h

theorem GetNextUnlocked_none (s : PcmAudioBuffer) (h : s.m_audioBuffers.length ≤ s.m_currentChunk) :
    GetNextUnlocked s = (none, s) := by
  simp [GetNextUnlocked, h]

theorem GetNextUnlocked_some (s : PcmAudioBuffer) (h : s.m_currentChunk < s.m_audioBuffers.length) :
    GetNextUnlocked s = (some (s.m_audioBuffers.get ⟨s.m_currentChunk, h⟩), advanceIndex s) := by
  have h1 : ¬ s.m_currentChunk ≥ s.m_audioBuffers.length := by omega
  simp [GetNextUnlocked, h1, advanceIndex, List.getElem?_eq_getElem h]

/-- The state after `GetNextUnlocked` keeps every property that advancing
the index keeps. -/
theorem GetNextUnlocked_keeps (P : PcmAudioBuffer → Prop)
    (hadv : ∀ s, P s → s.m_currentChunk < s.m_audioBuffers.length → P (advanceIndex s))
    (s : PcmAudioBuffer) (hp : P s) : P (GetNextUnlocked s).2 := by
  by_cases h : s.m_currentChunk < s.m_audioBuffers.length
  · rw [GetNextUnlocked_some s h]
    exact hadv s hp h
  · rw [GetNextUnlocked_none s (by omega)]
    exact hp

/-- When the second loop of `Drop` returns normally it has kept every
property that discards and advancing the index keep. -/
theorem dropRemaining_keeps (P : PcmAudioBuffer → Prop) (hP : StableUnderDiscard P)
    (hadv : ∀ s, P s → s.m_currentChunk < s.m_audioBuffers.length → P (advanceIndex s)) :
    ∀ (fuel : Nat) (s s1 : PcmAudioBuffer), P s →
      dropRemaining fuel s = some (.done s1) → P s1 := by
  intro fuel
  induction fuel with
  | zero => intro s s1 _ h; simp [dropRemaining] at h
  | succ fuel ih =>
    intro s s1 hp h
    have hg := GetNextUnlocked_keeps P hadv s hp
    unfold dropRemaining at h
    cases hget : GetNextUnlocked s with
    | mk r s2 =>
      rw [hget] at h hg
      cases r with
      | none =>
        simp only [Option.some.injEq, Outcome.done.injEq] at h
        rw [← h]
        exact hg
      | some chunk =>
        simp only at h
        cases hd : DiscardBytesUnlocked s2 chunk.size with
        | done s3 =>
          simp only [hd] at h
          exact ih s3 s1 (DiscardBytesUnlocked_keeps P hP s2 s3 chunk.size hg hd) h
        | thrown s3 => simp [hd] at h
        | undefined => simp [hd] at h

/-- The body of `Drop` when the index is within the deque. -/
theorem DropWithFuel_eq (fuel : Nat) (s : PcmAudioBuffer)
    (hc : s.m_currentChunk ≤ s.m_audioBuffers.length) :
    DropWithFuel fuel s =
      match DiscardBytesUnlocked s
        (sizeSum (s.m_audioBuffers.take s.m_currentChunk) % 18446744073709551616) with
      | .done s1 => dropRemaining fuel s1
      | .thrown s1 => some (.thrown s1)
      | .undefined => some .undefined := by
  unfold DropWithFuel
  rw [if_pos hc]
  rfl

/-- The body of `Drop` when the index is beyond the deque. -/
theorem DropWithFuel_undefined (fuel : Nat) (s : PcmAudioBuffer)
    (hc : ¬ s.m_currentChunk ≤ s.m_audioBuffers.length) :
    DropWithFuel fuel s = some .undefined := by
  unfold DropWithFuel
  rw [if_neg hc]

/-- When `Drop` returns normally it has kept every property that discards
and advancing the index keep. -/
theorem DropWithFuel_keeps (P : PcmAudioBuffer → Prop) (hP : StableUnderDiscard P)
    (hadv : ∀ s, P s → s.m_currentChunk < s.m_audioBuffers.length → P (advanceIndex s))
    (fuel : Nat) (s s1 : PcmAudioBuffer) (hp : P s)
    (h : DropWithFuel fuel s = some (.done s1)) : P s1 := by
  by_cases hc : s.m_currentChunk ≤ s.m_audioBuffers.length
  · rw [DropWithFuel_eq fuel s hc] at h
    cases hd : DiscardBytesUnlocked s
        (sizeSum (s.m_audioBuffers.take s.m_currentChunk) % 18446744073709551616) with
    | done s2 =>
      rw [hd] at h
      exact dropRemaining_keeps P hP hadv fuel s2 s1
        (DiscardBytesUnlocked_keeps P hP s s2 _ hp hd) h
    | thrown s2 => rw [hd] at h; simp at h
    | undefined => rw [hd] at h; simp at h
  · rw [DropWithFuel_undefined fuel s hc] at h
    simp at h

theorem copy_stable (P : PcmAudioBuffer → Prop) (hP : Stable P) :
    ∀ (l : List DataChunk) (t : PcmAudioBuffer), P t →
      P (l.foldl (fun target c => PcmAudioBuffer.Add target c.data c.size) t) := by
  intro l
  induction l with
  | nil => intro t hp; exact hp
  | cons c rest ih =>
    intro t hp
    simp only [List.foldl_cons]
    exact ih _ (hP.add t c.data c.size hp)

/-- A call that returns normally leaves the state that its outcome names. -/
theorem state?_map_eq_some (o : Outcome) (s1 : PcmAudioBuffer) (r : Option DataChunk)
    (h : o.state?.map (fun s2 => (s2, (none : Option DataChunk))) = some (s1, r)) :
    o = .done s1 := by
  cases o with
  | done s2 =>
    simp only [Outcome.state?, Option.map_some', Option.some.injEq, Prod.mk.injEq] at h
    rw [h.1]
  | thrown s2 => simp [Outcome.state?] at h
  | undefined => simp [Outcome.state?] at h

/-- A `Drop` that returns normally, as a step of a sequence of calls. -/
theorem step_drop_eq_some (s s1 : PcmAudioBuffer) (r : Option DataChunk)
    (h : step s .drop = some (s1, r)) :
    DropWithFuel (s.m_audioBuffers.length + 1) s = some (.done s1) := by
  simp only [step, Drop] at h
  cases hdrop : DropWithFuel (s.m_audioBuffers.length + 1) s with
  | none => simp [hdrop] at h
  | some o =>
    simp only [hdrop, Option.some_bind] at h
    rw [state?_map_eq_some o s1 r h]

/-- One call that returns normally keeps every stable property, provided
`NewTurn` keeps it when the call is `NewTurn`. -/
theorem step_stable (P : PcmAudioBuffer → Prop) (hP : Stable P) (s s1 : PcmAudioBuffer)
    (op : Op) (r : Option DataChunk) (hp : P s)
    (hnew : op = .newTurn → P s.NewTurn) (h : step s op = some (s1, r)) : P s1 := by
  cases op with
  | add data dataSize =>
    simp only [step, Option.some.injEq, Prod.mk.injEq] at h
    rw [← h.1]
    exact hP.add s data dataSize hp
  | getNext =>
    simp only [step, Option.some.injEq, Prod.mk.injEq] at h
    rw [← h.1]
    exact GetNextUnlocked_keeps P hP.advance s hp
  | newTurn =>
    simp only [step, Option.some.injEq, Prod.mk.injEq] at h
    rw [← h.1]
    exact hnew rfl
  | discardBytes bytes =>
    simp only [step] at h
    exact DiscardBytesUnlocked_keeps P hP.toStableUnderDiscard s s1 bytes hp
      (state?_map_eq_some _ s1 r h)
  | discardTill offsetInTicks =>
    simp only [step] at h
    have hd := state?_map_eq_some _ s1 r h
    simp only [DiscardTill, DiscardTillUnlocked] at hd
    split_ifs at hd with hneg
    · simp only [Outcome.done.injEq] at hd
      rw [← hd]
      exact hp
    · exact DiscardBytesUnlocked_keeps P hP.toStableUnderDiscard s s1 _ hp hd
  | drop =>
    exact DropWithFuel_keeps P hP.toStableUnderDiscard hP.advance _ s s1 hp
      (step_drop_eq_some s s1 r h)
  | copyTo =>
    simp only [step, Option.some.injEq, Prod.mk.injEq] at h
    rw [← h.1]
    exact hp
  | copyFrom source =>
    simp only [step, CopyNonAcknowledgedDataTo, Bool.false_eq_true, if_false, Option.some.injEq,
      Prod.mk.injEq] at h
    rw [← h.1]
    exact copy_stable P hP source.m_audioBuffers s hp

/-- A sequence of calls that return normally keeps every stable property
that `NewTurn` keeps. -/
theorem run_stable (P : PcmAudioBuffer → Prop) (hP : Stable P)
    (hnew : ∀ s, P s → P s.NewTurn) :
    ∀ (ops : List Op) (s s1 : PcmAudioBuffer) (rs : List DataChunk), P s →
      run ops s = some (s1, rs) → P s1 := by
  intro ops
  induction ops with
  | nil =>
    intro s s1 rs hp h
    simp only [run, Option.some.injEq, Prod.mk.injEq] at h
    rw [← h.1]
    exact hp
  | cons op ops ih =>
    intro s s1 rs hp h
    unfold run at h
    cases hstep : step s op with
    | none => simp [hstep] at h
    | some x =>
      obtain ⟨s2, r⟩ := x
      have h2 := step_stable P hP s s2 op r hp (fun _ => hnew s hp) hstep
      simp only [hstep] at h
      cases hrun : run ops s2 with
      | none => simp [hrun] at h
      | some y =>
        obtain ⟨s3, rs3⟩ := y
        simp only [hrun, Option.some.injEq, Prod.mk.injEq] at h
        rw [← h.1]
        exact ih s2 s3 rs3 h2 hrun

theorem totalIsSum_initial (header : WAVEFORMATEX) : TotalIsSum (initial header) := rfl

theorem construct_eq_initial (header : WAVEFORMATEX) (b : PcmAudioBuffer)
    (h : construct header = .ok b) : b = initial header := by
  unfold construct at h
  split_ifs at h
  simp only [Except.ok.injEq] at h
  exact h.symm

/-- In every state that a sequence of normally returning calls reaches, the
total is the sum of the chunk sizes modulo 2^64. -/
theorem stable_totalIsSumMod : Stable TotalIsSumMod where
  pop := fun s c rest h hl hle => by
    unfold TotalIsSumMod at *
    simp only [popFront]
    rw [hl, sizeSum_cons] at h
    omega
  trim := fun s c rest bytes h hl hb hlt hle => by
    unfold TotalIsSumMod at *
    simp only [trimFront]
    rw [hl, sizeSum_cons] at h
    rw [sizeSum_cons]
    simp only
    omega
  reset := fun s h _ _ => by
    unfold TotalIsSumMod at *
    simpa [resetIndex] using h
  add := fun s data dataSize h => by
    unfold TotalIsSumMod at *
    simp only [PcmAudioBuffer.Add]
    rw [sizeSum_append, sizeSum_cons]
    have h0 : sizeSum ([] : List DataChunk) = 0 := rfl
    rw [h0]
    simp only
    omega
  advance := fun s h _ => by
    unfold TotalIsSumMod at *
    simpa [advanceIndex] using h

theorem totalIsSum_newTurn (s : PcmAudioBuffer) (h : TotalIsSum s) : TotalIsSum s.NewTurn := by
  unfold TotalIsSum at *
  simpa [NewTurn] using h

theorem totalIsSumMod_newTurn (s : PcmAudioBuffer) (h : TotalIsSumMod s) :
    TotalIsSumMod s.NewTurn := by
  unfold TotalIsSumMod at *
  simpa [NewTurn] using h

theorem totalIsSumMod_initial (header : WAVEFORMATEX) : TotalIsSumMod (initial header) := rfl

/-- The state at the end of a sequence of normally returning calls on the
initial state: its total is the sum of its chunk sizes modulo 2^64. -/
theorem run_totalIsSumMod (header : WAVEFORMATEX) (ops : List Op) (s : PcmAudioBuffer)
    (rs : List DataChunk) (hrun : run ops (initial header) = some (s, rs)) : TotalIsSumMod s :=
  run_stable TotalIsSumMod stable_totalIsSumMod totalIsSumMod_newTurn ops (initial header) s rs
    (totalIsSumMod_initial header) hrun

/-- The trivial property is stable under discards. -/
theorem stableUnderDiscard_true : StableUnderDiscard (fun _ => True) :=
  ⟨fun _ _ _ _ _ _ => trivial, fun _ _ _ _ _ _ _ _ _ => trivial, fun _ _ _ _ => trivial⟩

/-! ## The total size is the sum of the chunk sizes -/

/-- C1 (as amended): in every state reached from a freshly constructed
buffer by a finite sequence of Add, GetNext, NewTurn, DiscardBytes,
DiscardTill, Drop and CopyNonAcknowledgedDataTo calls (the buffer being the
source or the target) that return normally, `m_totalSizeInBytes` is the sum
of the `size` fields of the chunks in the deque modulo 2^64; it is that sum
whenever the sum is below 2^64. -/
theorem totalSize_eq_sum_of_sizes_mod (header : WAVEFORMATEX) (b : PcmAudioBuffer)
    (ops : List Op) (s : PcmAudioBuffer) (rs : List DataChunk) (hb : construct header = .ok b)
    (hrun : run ops b = some (s, rs)) :
    s.m_totalSizeInBytes = (s.m_audioBuffers.map DataChunk.size).sum % 18446744073709551616 ∧
      ((s.m_audioBuffers.map DataChunk.size).sum < 18446744073709551616 →
        s.m_totalSizeInBytes = (s.m_audioBuffers.map DataChunk.size).sum) := by
  have hinit := construct_eq_initial header b hb
  subst hinit
  have h : s.m_totalSizeInBytes =
      (s.m_audioBuffers.map DataChunk.size).sum % 18446744073709551616 :=
    run_totalIsSumMod header ops s rs hrun
  exact ⟨h, fun hlt => by rw [h, Nat.mod_eq_of_lt hlt]⟩

/-- The scenario of the specification is an instance of
`totalSize_eq_sum_of_sizes_mod`. -/
theorem totalSize_eq_sum_of_sizes_mod_witness :
    construct scenarioHeader = .ok (initial scenarioHeader) ∧
      run scenarioOps (initial scenarioHeader) =
        some (scenarioState, [⟨payloadA, 1000, 0⟩]) ∧
      scenarioState.m_totalSizeInBytes = (scenarioState.m_audioBuffers.map DataChunk.size).sum :=
  ⟨rfl, by decide,
    (totalSize_eq_sum_of_sizes_mod scenarioHeader (initial scenarioHeader) scenarioOps
      scenarioState [⟨payloadA, 1000, 0⟩] rfl (by decide)).2 (by decide)⟩

/-- C1 fails as stated: after Add(payloadA, 2^64 - 1) and Add(payloadB, 2) on
a fresh buffer the 64-bit total has wrapped to 1, while the sizes of the two
chunks in the deque sum to 2^64 + 1. -/
theorem totalSize_differs_from_sum_after_overflow :
    construct scenarioHeader = .ok (initial scenarioHeader) ∧
      run overflowOps (initial scenarioHeader) = some (overflowedState, []) ∧
      overflowedState.m_totalSizeInBytes = 1 ∧
      (overflowedState.m_audioBuffers.map DataChunk.size).sum = 18446744073709551617 ∧
      overflowedState.m_totalSizeInBytes ≠
        (overflowedState.m_audioBuffers.map DataChunk.size).sum :=
  ⟨rfl, by decide, rfl, by decide, by decide⟩

/-! ## Add followed by GetNext -/

theorem run_append (ops₁ ops₂ : List Op) :
    ∀ (s s1 s2 : PcmAudioBuffer) (r1 r2 : List DataChunk), run ops₁ s = some (s1, r1) →
      run ops₂ s1 = some (s2, r2) → run (ops₁ ++ ops₂) s = some (s2, r1 ++ r2) := by
  induction ops₁ with
  | nil =>
    intro s s1 s2 r1 r2 h1 h2
    simp only [run, Option.some.injEq, Prod.mk.injEq] at h1
    obtain ⟨rfl, rfl⟩ := h1
    simpa using h2
  | cons op ops ih =>
    intro s s1 s2 r1 r2 h1 h2
    simp only [List.cons_append]
    unfold run at h1 ⊢
    cases hstep : step s op with
    | none => simp [hstep] at h1
    | some x =>
      obtain ⟨sa, r⟩ := x
      simp only [hstep] at h1 ⊢
      cases hrun : run ops sa with
      | none => simp [hrun] at h1
      | some y =>
        obtain ⟨sb, rb⟩ := y
        simp only [hrun, Option.some.injEq, Prod.mk.injEq] at h1
        obtain ⟨rfl, rfl⟩ := h1
        rw [ih sa sb s2 rb r2 hrun h2]
        simp

theorem run_addOps (l : List (SharedBytes × Nat)) :
    ∀ s : PcmAudioBuffer, ∃ s1, run (addOps l) s = some (s1, []) ∧
      s1.m_audioBuffers = s.m_audioBuffers ++ chunksOf l s.addCalls ∧
      s1.m_currentChunk = s.m_currentChunk := by
  induction l with
  | nil => intro s; exact ⟨s, rfl, by simp [chunksOf], rfl⟩
  | cons p l ih =>
    intro s
    obtain ⟨s1, hrun, hl, hc⟩ := ih (s.Add p.1 p.2)
    refine ⟨s1, ?_, ?_, ?_⟩
    · simp only [addOps, List.map_cons] at hrun ⊢
      unfold run
      simp only [step]
      rw [hrun]
      rfl
    · rw [hl]
      simp [PcmAudioBuffer.Add, chunksOf]
    · rw [hc]
      rfl

theorem run_getNext_some (n : Nat) :
    ∀ s : PcmAudioBuffer, s.m_currentChunk + n ≤ s.m_audioBuffers.length →
      ∃ s1, run (List.replicate n Op.getNext) s =
          some (s1, (s.m_audioBuffers.drop s.m_currentChunk).take n) ∧
        s1.m_audioBuffers = s.m_audioBuffers ∧ s1.m_currentChunk = s.m_currentChunk + n := by
  induction n with
  | zero => intro s _; exact ⟨s, by simp [run], rfl, rfl⟩
  | succ n ih =>
    intro s hle
    have hlt : s.m_currentChunk < s.m_audioBuffers.length := by omega
    obtain ⟨s1, hrun, hl, hc⟩ := ih (advanceIndex s) (by simp only [advanceIndex]; omega)
    refine ⟨s1, ?_, by rw [hl]; rfl, by rw [hc]; simp only [advanceIndex]; omega⟩
    simp only [List.replicate_succ]
    unfold run
    simp only [step, GetNext, GetNextUnlocked_some s hlt]
    rw [hrun]
    simp only [advanceIndex, Option.toList, List.singleton_append, Option.some.injEq,
      Prod.mk.injEq, true_and]
    rw [List.drop_eq_getElem_cons hlt, List.take_succ_cons]
    rfl

theorem run_getNext_none (n : Nat) (s : PcmAudioBuffer)
    (h : s.m_audioBuffers.length ≤ s.m_currentChunk) :
    run (List.replicate n Op.getNext) s = some (s, []) := by
  induction n with
  | zero => rfl
  | succ n ih =>
    simp only [List.replicate_succ]
    unfold run
    simp only [step, GetNext, GetNextUnlocked_none s h]
    rw [ih]
    rfl

theorem chunksOf_length (l : List (SharedBytes × Nat)) : ∀ n, (chunksOf l n).length = l.length := by
  induction l with
  | nil => intro n; rfl
  | cons p l ih => intro n; simp [chunksOf, ih]

theorem chunksOf_map (l : List (SharedBytes × Nat)) :
    ∀ n, (chunksOf l n).map (fun c => (c.data, c.size)) = l := by
  induction l with
  | nil => intro n; rfl
  | cons p l ih => intro n; simp [chunksOf, ih]

/-- C2: on a freshly constructed buffer, after one Add for each of k
(payload, size) pairs, the next k GetNext calls return exactly those chunks
in the order added, with the same payload and size (k calls, k chunks
returned), and every further GetNext returns no data and changes nothing. -/
theorem getNext_returns_added_chunks_in_order (header : WAVEFORMATEX) (b : PcmAudioBuffer)
    (l : List (SharedBytes × Nat)) (extra : Nat) (hb : construct header = .ok b) :
    ∃ s rs, run (addOps l ++ List.replicate l.length Op.getNext) b = some (s, rs) ∧
      rs.map (fun c => (c.data, c.size)) = l ∧
      run (List.replicate extra Op.getNext) s = some (s, []) ∧
      (GetNext s).1 = none := by
  have hinit := construct_eq_initial header b hb
  subst hinit
  obtain ⟨s1, hadd, hl1, hc1⟩ := run_addOps l (initial header)
  have hl1 : s1.m_audioBuffers = chunksOf l 0 := by rw [hl1]; rfl
  have hc1 : s1.m_currentChunk = 0 := by rw [hc1]; rfl
  have hlen : s1.m_audioBuffers.length = l.length := by rw [hl1, chunksOf_length]
  obtain ⟨s2, hget, hl2, hc2⟩ := run_getNext_some l.length s1 (by omega)
  have hfull : s2.m_audioBuffers.length ≤ s2.m_currentChunk := by rw [hl2, hc2]; omega
  refine ⟨s2, _, run_append _ _ _ s1 s2 _ _ hadd hget, ?_, run_getNext_none extra s2 hfull, ?_⟩
  · rw [hc1, List.nil_append, List.drop_zero, ← hlen, List.take_length, hl1, chunksOf_map]
  · simp [GetNext, GetNextUnlocked_none s2 hfull]

/-- Two chunks added to a buffer of the scenario format are an instance of
`getNext_returns_added_chunks_in_order`. -/
theorem getNext_returns_added_chunks_in_order_witness :
    construct scenarioHeader = .ok (initial scenarioHeader) ∧
      ∃ s rs,
        run (addOps [(payloadA, 1000), (payloadB, 1000)] ++
            List.replicate [(payloadA, 1000), (payloadB, 1000)].length Op.getNext)
          (initial scenarioHeader) = some (s, rs) ∧
        rs.map (fun c => (c.data, c.size)) = [(payloadA, 1000), (payloadB, 1000)] ∧
        run (List.replicate 3 Op.getNext) s = some (s, []) ∧
        (GetNext s).1 = none :=
  ⟨rfl, getNext_returns_added_chunks_in_order scenarioHeader (initial scenarioHeader)
    [(payloadA, 1000), (payloadB, 1000)] 3 rfl⟩

/-! ## Additivity of DiscardBytes -/

theorem DiscardBytesUnlocked_cons_pop (s : PcmAudioBuffer) (c : DataChunk) (rest : List DataChunk)
    (bytes : Nat) (hl : s.m_audioBuffers = c :: rest) (hb : bytes ≠ 0) (hc : c.size ≤ bytes)
    (ht : c.size ≤ s.m_totalSizeInBytes) :
    DiscardBytesUnlocked s bytes = DiscardBytesUnlocked (popFront s c rest) (bytes - c.size) := by
  unfold DiscardBytesUnlocked
  rw [hl, discardWhole_cons_pop c rest bytes s hb hc ht]
  rfl

theorem DiscardBytesUnlocked_cons_stop (s : PcmAudioBuffer) (c : DataChunk) (rest : List DataChunk)
    (bytes : Nat) (hl : s.m_audioBuffers = c :: rest) (h : bytes = 0 ∨ bytes < c.size) :
    DiscardBytesUnlocked s bytes = discardRest s bytes := by
  unfold DiscardBytesUnlocked
  rw [hl, discardWhole_cons_stop c rest bytes s h]

theorem DiscardBytesUnlocked_nil (s : PcmAudioBuffer) (bytes : Nat) (hl : s.m_audioBuffers = []) :
    DiscardBytesUnlocked s bytes = discardRest s bytes := by
  unfold DiscardBytesUnlocked
  rw [hl]
  rfl

/-- Trimming `n` bytes and then popping the rest of the front chunk is popping
the front chunk. -/
theorem popFront_trimFront (s : PcmAudioBuffer) (c : DataChunk) (rest : List DataChunk) (n : Nat)
    (hn : n < c.size) (ht : c.size ≤ s.m_totalSizeInBytes) :
    popFront (trimFront s c rest n)
      { c with size := c.size - n, data := ⟨c.data.block, c.data.offset + n⟩ } rest =
      popFront s c rest := by
  simp only [popFront, trimFront]
  congr 1 <;> omega

/-- Trimming `n` bytes and then `m` bytes is trimming `n + m` bytes. -/
theorem trimFront_trimFront (s : PcmAudioBuffer) (c : DataChunk) (rest : List DataChunk)
    (n m : Nat) :
    trimFront (trimFront s c rest n)
      { c with size := c.size - n, data := ⟨c.data.block, c.data.offset + n⟩ } rest m =
      trimFront s c rest (n + m) := by
  simp only [trimFront]
  congr 1
  · congr 1
    congr 1
    · congr 1; omega
    · omega
  · omega
  · omega
  · omega

/-- Two successive discards within the total size leave the state that one
discard of the sum leaves. -/
theorem DiscardBytesUnlocked_add (m : Nat) :
    ∀ (l : List DataChunk) (s : PcmAudioBuffer) (n : Nat), s.m_audioBuffers = l → TotalIsSum s →
      n + m ≤ s.m_totalSizeInBytes →
      ∃ s1 s2, DiscardBytesUnlocked s n = .done s1 ∧ DiscardBytesUnlocked s1 m = .done s2 ∧
        DiscardBytesUnlocked s (n + m) = .done s2 := by
  intro l
  induction l with
  | nil =>
    intro s n hl ht hnm
    have h0 : s.m_totalSizeInBytes = 0 := by rw [ht, hl]; rfl
    have hn : n = 0 := by omega
    have hm : m = 0 := by omega
    subst hn hm
    refine ⟨resetIndex s, resetIndex s, ?_, ?_, ?_⟩
    · rw [DiscardBytesUnlocked_nil s 0 hl, discardRest_nil s 0 hl h0]
    · rw [DiscardBytesUnlocked_nil (resetIndex s) 0 hl, discardRest_nil (resetIndex s) 0 hl h0]
      rfl
    · rw [DiscardBytesUnlocked_nil s (0 + 0) hl, discardRest_nil s (0 + 0) hl h0]
  | cons c rest ih =>
    intro s n hl ht hnm
    have hsum : s.m_totalSizeInBytes = c.size + sizeSum rest := by rw [ht, hl, sizeSum_cons]
    by_cases hcond : n ≠ 0 ∧ c.size ≤ n
    · -- the first discard pops the front chunk, and so does the joint one
      have hle : c.size ≤ s.m_totalSizeInBytes := by omega
      obtain ⟨s1, s2, h1, h2, h3⟩ := ih (popFront s c rest) (n - c.size) rfl
        (totalIsSum_popFront s c rest ht hl) (by simp only [popFront]; omega)
      refine ⟨s1, s2, ?_, h2, ?_⟩
      · rw [DiscardBytesUnlocked_cons_pop s c rest n hl hcond.1 hcond.2 hle, h1]
      · rw [DiscardBytesUnlocked_cons_pop s c rest (n + m) hl (by omega) (by omega) hle]
        have : n + m - c.size = n - c.size + m := by omega
        rw [this, h3]
    · rcases Nat.eq_zero_or_pos n with hn | hn
      · -- the first discard is empty
        subst hn
        obtain ⟨s2, h2, _, _⟩ := DiscardBytesUnlocked_stable (fun _ => True) stableUnderDiscard_true s m ht trivial
        refine ⟨s, s2, ?_, h2, ?_⟩
        · rw [DiscardBytesUnlocked_cons_stop s c rest 0 hl (Or.inl rfl),
            discardRest_cons_zero s c rest hl]
        · rw [Nat.zero_add, h2]
      · -- the first discard trims the front chunk
        have hlt : n < c.size := by omega
        have h1 : DiscardBytesUnlocked s n = .done (trimFront s c rest n) := by
          rw [DiscardBytesUnlocked_cons_stop s c rest n hl (Or.inr hlt),
            discardRest_cons_trim s c rest n hl hn (by omega)]
        have ht1 : TotalIsSum (trimFront s c rest n) := totalIsSum_trimFront s c rest n ht hl hlt
        have hl1 : (trimFront s c rest n).m_audioBuffers =
            { c with size := c.size - n, data := ⟨c.data.block, c.data.offset + n⟩ } :: rest := rfl
        have htot1 : (trimFront s c rest n).m_totalSizeInBytes = s.m_totalSizeInBytes - n := rfl
        rcases Nat.eq_zero_or_pos m with hm | hm
        · subst hm
          refine ⟨_, trimFront s c rest n, h1, ?_, by rw [Nat.add_zero, h1]⟩
          rw [DiscardBytesUnlocked_cons_stop _ _ rest 0 hl1 (Or.inl rfl),
            discardRest_cons_zero _ _ rest hl1]
        · by_cases hpop : c.size - n ≤ m
          · -- the second discard pops what is left of the front chunk
            obtain ⟨s2, h2, _, _⟩ := DiscardBytesUnlocked_stable (fun _ => True) stableUnderDiscard_true
              (popFront s c rest) (n + m - c.size) (totalIsSum_popFront s c rest ht hl) trivial
            refine ⟨_, s2, h1, ?_, ?_⟩
            · rw [DiscardBytesUnlocked_cons_pop _ _ rest m hl1 (by omega) hpop
                (by rw [htot1]; simp only; omega),
                popFront_trimFront s c rest n hlt (by omega)]
              have : m - (c.size - n) = n + m - c.size := by omega
              simp only
              rw [this, h2]
            · rw [DiscardBytesUnlocked_cons_pop s c rest (n + m) hl (by omega) (by omega)
                (by omega), h2]
          · -- the second discard trims the front chunk further
            refine ⟨_, trimFront s c rest (n + m), h1, ?_, ?_⟩
            · rw [DiscardBytesUnlocked_cons_stop _ _ rest m hl1 (Or.inr (by simp only; omega)),
                discardRest_cons_trim _ _ rest m hl1 hm (by rw [htot1]; omega),
                trimFront_trimFront]
            · rw [DiscardBytesUnlocked_cons_stop s c rest (n + m) hl (Or.inr (by omega)),
                discardRest_cons_trim s c rest (n + m) hl (by omega) (by omega)]

/-- C3: in a state that satisfies the data-model invariants, for n and m with
n + m at most `m_totalSizeInBytes`, DiscardBytes(n) followed by DiscardBytes(m)
and a single DiscardBytes(n + m) all return normally and leave the same
`m_totalSizeInBytes`, the same chunk sequence (sizes and payload views), the
same turn-relative offset and the same absolute offset. -/
theorem discardBytes_additive (s : PcmAudioBuffer) (n m : Nat) (hinv : DataModelInvariant s)
    (hnm : n + m ≤ s.m_totalSizeInBytes) :
    ∃ s1 s2 s3, DiscardBytes s n = .done s1 ∧ DiscardBytes s1 m = .done s2 ∧
      DiscardBytes s (n + m) = .done s3 ∧
      s2.m_totalSizeInBytes = s3.m_totalSizeInBytes ∧
      s2.m_audioBuffers = s3.m_audioBuffers ∧
      s2.m_bufferStartOffsetInBytesTurnRelative = s3.m_bufferStartOffsetInBytesTurnRelative ∧
      s2.m_bufferStartOffsetInBytesAbsolute = s3.m_bufferStartOffsetInBytesAbsolute := by
  obtain ⟨s1, s2, h1, h2, h3⟩ := DiscardBytesUnlocked_add m s.m_audioBuffers s n rfl hinv.1 hnm
  exact ⟨s1, s2, s2, h1, h2, h3, rfl, rfl, rfl, rfl⟩

/-- The state of the scenario, with 300 and then 400 bytes discarded, is an
instance of `discardBytes_additive`. -/
theorem discardBytes_additive_witness :
    DataModelInvariant scenarioState ∧ 300 + 400 ≤ scenarioState.m_totalSizeInBytes ∧
      ∃ s1 s2 s3, DiscardBytes scenarioState 300 = .done s1 ∧ DiscardBytes s1 400 = .done s2 ∧
        DiscardBytes scenarioState (300 + 400) = .done s3 ∧
        s2.m_totalSizeInBytes = s3.m_totalSizeInBytes ∧
        s2.m_audioBuffers = s3.m_audioBuffers ∧
        s2.m_bufferStartOffsetInBytesTurnRelative = s3.m_bufferStartOffsetInBytesTurnRelative ∧
        s2.m_bufferStartOffsetInBytesAbsolute = s3.m_bufferStartOffsetInBytesAbsolute :=
  ⟨by decide, by decide, discardBytes_additive scenarioState 300 400 (by decide) (by decide)⟩

/-! ## Drop -/

theorem sizeSum_eq_zero (l : List DataChunk) (h : sizeSum l = 0) : ∀ c ∈ l, c.size = 0 := by
  induction l with
  | nil => intro c hc; cases hc
  | cons x l ih =>
    rw [sizeSum_cons] at h
    intro c hc
    rcases List.mem_cons.1 hc with rfl | hc
    · omega
    · exact ih (by omega) c hc

theorem sizeSum_of_all_zero (l : List DataChunk) (h : ∀ c ∈ l, c.size = 0) : sizeSum l = 0 := by
  induction l with
  | nil => rfl
  | cons x l ih =>
    rw [sizeSum_cons, h x (List.mem_cons_self x l), ih (fun c hc => h c (List.mem_cons_of_mem x hc))]

/-- The first discard of `Drop`: with the index behind the chunks `pre`,
discarding their total size pops chunks of `pre` and leaves only zero-size
chunks of `pre` before the index. -/
theorem DiscardBytesUnlocked_handedOut (post : List DataChunk) :
    ∀ (pre : List DataChunk) (s : PcmAudioBuffer), s.m_audioBuffers = pre ++ post →
      s.m_currentChunk = pre.length → TotalIsSum s →
      ∃ z s1, DiscardBytesUnlocked s (sizeSum pre) = .done s1 ∧ s1.m_audioBuffers = z ++ post ∧
        z <:+ pre ∧ (∀ c ∈ z, c.size = 0) ∧ s1.m_currentChunk = z.length ∧ TotalIsSum s1 := by
  intro pre
  induction pre with
  | nil =>
    intro s hl hc ht
    simp only [List.nil_append] at hl
    cases post with
    | nil =>
      have h0 : s.m_totalSizeInBytes = 0 := by rw [ht, hl]; rfl
      refine ⟨[], resetIndex s, ?_, by simpa [resetIndex] using hl, List.suffix_refl _,
        (fun c hc => by cases hc), rfl, ?_⟩
      · rw [DiscardBytesUnlocked_nil s _ hl, discardRest_nil s _ hl h0]
      · unfold TotalIsSum at *; simpa [resetIndex] using ht
    | cons y post =>
      refine ⟨[], s, ?_, by simpa using hl, List.suffix_refl _, (fun c hc => by cases hc),
        by simpa using hc, ht⟩
      have : sizeSum ([] : List DataChunk) = 0 := rfl
      rw [this, DiscardBytesUnlocked_cons_stop s y post 0 hl (Or.inl rfl),
        discardRest_cons_zero s y post hl]
  | cons x pre ih =>
    intro s hl hc ht
    simp only [List.cons_append] at hl
    by_cases hU : sizeSum (x :: pre) = 0
    · refine ⟨x :: pre, s, ?_, by simpa using hl, List.suffix_refl _, sizeSum_eq_zero _ hU, hc, ht⟩
      rw [hU, DiscardBytesUnlocked_cons_stop s x (pre ++ post) 0 hl (Or.inl rfl),
        discardRest_cons_zero s x (pre ++ post) hl]
    · have hx : x.size ≤ sizeSum (x :: pre) := by rw [sizeSum_cons]; omega
      have hle : x.size ≤ s.m_totalSizeInBytes := by
        rw [ht, hl, sizeSum_cons]; omega
      have hc1 : (popFront s x (pre ++ post)).m_currentChunk = pre.length := by
        simp only [popFront, decrementIndex, hc, List.length_cons]
        simp
      obtain ⟨z, s1, hd, hl1, hz, hzero, hc2, ht1⟩ := ih (popFront s x (pre ++ post)) rfl hc1
        (totalIsSum_popFront s x (pre ++ post) ht hl)
      refine ⟨z, s1, ?_, hl1, hz.trans (List.suffix_cons x pre), hzero, hc2, ht1⟩
      rw [DiscardBytesUnlocked_cons_pop s x (pre ++ post) _ hl hU hx hle]
      have : sizeSum (x :: pre) - x.size = sizeSum pre := by rw [sizeSum_cons]; omega
      rw [this, hd]

/-- A discard of the size of a nonzero chunk `y`, when only zero-size chunks
stand before `y` and the index is just behind `y`, pops all of them and `y`. -/
theorem DiscardBytesUnlocked_through (y : DataChunk) (post : List DataChunk) (hy : 0 < y.size) :
    ∀ (z : List DataChunk) (s : PcmAudioBuffer), s.m_audioBuffers = z ++ y :: post →
      (∀ c ∈ z, c.size = 0) → s.m_currentChunk = z.length + 1 → TotalIsSum s →
      ∃ s1, DiscardBytesUnlocked s y.size = .done s1 ∧ s1.m_audioBuffers = post ∧
        s1.m_currentChunk = 0 ∧ TotalIsSum s1 := by
  intro z
  induction z with
  | nil =>
    intro s hl _ hc ht
    simp only [List.nil_append] at hl
    have hle : y.size ≤ s.m_totalSizeInBytes := by
      rw [ht, hl, sizeSum_cons]; omega
    have ht1 := totalIsSum_popFront s y post ht hl
    have hc1 : (popFront s y post).m_currentChunk = 0 := by
      simp only [popFront, decrementIndex, hc]
      simp
    rw [DiscardBytesUnlocked_cons_pop s y post _ hl (by omega) (Nat.le_refl _) hle, Nat.sub_self]
    cases post with
    | nil =>
      have h0 : (popFront s y []).m_totalSizeInBytes = 0 := by rw [ht1]; rfl
      refine ⟨resetIndex (popFront s y []), ?_, rfl, rfl, ?_⟩
      · rw [DiscardBytesUnlocked_nil _ 0 rfl, discardRest_nil _ 0 rfl h0]
      · unfold TotalIsSum at *; simpa [resetIndex] using ht1
    | cons w post =>
      refine ⟨popFront s y (w :: post), ?_, rfl, hc1, ht1⟩
      rw [DiscardBytesUnlocked_cons_stop _ w post 0 rfl (Or.inl rfl),
        discardRest_cons_zero _ w post rfl]
  | cons x z ih =>
    intro s hl hzero hc ht
    simp only [List.cons_append] at hl
    have hx : x.size = 0 := hzero x (List.mem_cons_self x z)
    have hc1 : (popFront s x (z ++ y :: post)).m_currentChunk = z.length + 1 := by
      simp only [popFront, decrementIndex, hc, List.length_cons]
      simp
    obtain ⟨s1, hd, hl1, hc2, ht1⟩ := ih (popFront s x (z ++ y :: post)) rfl
      (fun c hc => hzero c (List.mem_cons_of_mem x hc)) hc1
      (totalIsSum_popFront s x (z ++ y :: post) ht hl)
    refine ⟨s1, ?_, hl1, hc2, ht1⟩
    rw [DiscardBytesUnlocked_cons_pop s x (z ++ y :: post) _ hl (by omega) (by omega) (by omega),
      hx, Nat.sub_zero, hd]

/-- The second loop of `Drop` finishes within one iteration per remaining
chunk and one more, returns normally, and leaves only zero-size chunks. -/
theorem dropRemaining_finishes :
    ∀ (post z : List DataChunk) (s : PcmAudioBuffer) (fuel : Nat),
      s.m_audioBuffers = z ++ post → (∀ c ∈ z, c.size = 0) → s.m_currentChunk = z.length →
      TotalIsSum s → post.length < fuel →
      ∃ s1, dropRemaining fuel s = some (.done s1) ∧ s1.m_totalSizeInBytes = 0 ∧
        s1.m_audioBuffers <:+ z ++ post ∧ (∀ c ∈ s1.m_audioBuffers, c.size = 0) ∧
        s1.m_currentChunk ≤ s1.m_audioBuffers.length := by
  intro post
  induction post with
  | nil =>
    intro z s fuel hl hzero hc ht hf
    obtain ⟨f, rfl⟩ : ∃ f, fuel = f + 1 := ⟨fuel - 1, by omega⟩
    simp only [List.append_nil] at hl
    have hget := GetNextUnlocked_none s (by rw [hl, hc])
    refine ⟨s, ?_, ?_, by rw [hl]; simp, by rw [hl]; exact hzero, by rw [hl, hc]⟩
    · simp only [dropRemaining, hget]
    · rw [ht, hl]; exact sizeSum_of_all_zero z hzero
  | cons y post ih =>
    intro z s fuel hl hzero hc ht hf
    obtain ⟨f, rfl⟩ : ∃ f, fuel = f + 1 := ⟨fuel - 1, by omega⟩
    simp only [List.length_cons] at hf
    have hlt : s.m_currentChunk < s.m_audioBuffers.length := by
      rw [hl, hc]; simp
    have hget := GetNextUnlocked_some s hlt
    have hy : s.m_audioBuffers.get ⟨s.m_currentChunk, hlt⟩ = y := by
      simp only [List.get_eq_getElem, hl, hc]
      rw [List.getElem_append_right (Nat.le_refl _)]
      simp
    rw [hy] at hget
    rcases Nat.eq_zero_or_pos y.size with hy0 | hypos
    · -- a zero-size chunk is handed out and stays in the deque
      have hd : DiscardBytesUnlocked (advanceIndex s) y.size = .done (advanceIndex s) := by
        have hl' : (advanceIndex s).m_audioBuffers = z ++ y :: post := hl
        cases z with
        | nil =>
          rw [hy0, DiscardBytesUnlocked_cons_stop _ y post 0 hl' (Or.inl rfl),
            discardRest_cons_zero _ y post hl']
        | cons x z =>
          rw [hy0, DiscardBytesUnlocked_cons_stop _ x (z ++ y :: post) 0 hl' (Or.inl rfl),
            discardRest_cons_zero _ x (z ++ y :: post) hl']
      obtain ⟨s1, hrun, h0, hsuf, hz1, hc1⟩ := ih (z ++ [y]) (advanceIndex s) f
        (by simpa [advanceIndex] using hl)
        (by
          intro c hc
          rcases List.mem_append.1 hc with h | h
          · exact hzero c h
          · rw [List.mem_singleton.1 h]; exact hy0)
        (by simp [advanceIndex, hc]) (totalIsSum_advanceIndex s ht) (by omega)
      refine ⟨s1, ?_, h0, by simpa using hsuf, hz1, hc1⟩
      simp only [dropRemaining, hget, hd, hrun]
    · -- a nonzero chunk is handed out and popped with everything before it
      obtain ⟨s2, hd, hl2, hc2, ht2⟩ := DiscardBytesUnlocked_through y post hypos z
        (advanceIndex s) hl hzero (by simp [advanceIndex, hc]) (totalIsSum_advanceIndex s ht)
      obtain ⟨s1, hrun, h0, hsuf, hz1, hc1⟩ := ih [] s2 f (by simpa using hl2)
        (fun c hc => by cases hc) (by simpa using hc2) ht2 (by omega)
      refine ⟨s1, ?_, h0, ?_, hz1, hc1⟩
      · simp only [dropRemaining, hget, hd, hrun]
      · simp only [List.nil_append] at hsuf
        exact hsuf.trans ((List.suffix_cons y post).trans (List.suffix_append z (y :: post)))

/-- In a state that satisfies the data-model invariants, the total being a
64-bit value, `Drop` with enough iterations returns normally with total size
zero; what it leaves is a suffix of the deque and holds only zero-size
chunks. -/
theorem DropWithFuel_spec (s : PcmAudioBuffer) (fuel : Nat) (hinv : DataModelInvariant s)
    (htype : s.m_totalSizeInBytes < 18446744073709551616)
    (hf : s.m_audioBuffers.length < fuel) :
    ∃ s1, DropWithFuel fuel s = some (.done s1) ∧ s1.m_totalSizeInBytes = 0 ∧
      s1.m_audioBuffers <:+ s.m_audioBuffers ∧ (∀ c ∈ s1.m_audioBuffers, c.size = 0) ∧
      s1.m_currentChunk ≤ s1.m_audioBuffers.length := by
  obtain ⟨ht, hc⟩ := hinv
  have hsplit : s.m_audioBuffers =
      s.m_audioBuffers.take s.m_currentChunk ++ s.m_audioBuffers.drop s.m_currentChunk :=
    (List.take_append_drop _ _).symm
  have hlen : s.m_currentChunk = (s.m_audioBuffers.take s.m_currentChunk).length := by
    rw [List.length_take]; omega
  obtain ⟨z, s1, hd, hl1, hz, hzero, hc1, ht1⟩ := DiscardBytesUnlocked_handedOut
    (s.m_audioBuffers.drop s.m_currentChunk) (s.m_audioBuffers.take s.m_currentChunk) s hsplit
    hlen ht
  have hpost : (s.m_audioBuffers.drop s.m_currentChunk).length < fuel := by
    rw [List.length_drop]; omega
  obtain ⟨s2, hrun, h0, hsuf, hz2, hc2⟩ := dropRemaining_finishes
    (s.m_audioBuffers.drop s.m_currentChunk) z s1 fuel hl1 hzero hc1 ht1 hpost
  have hsum : s.m_totalSizeInBytes = sizeSum (s.m_audioBuffers.take s.m_currentChunk) +
      sizeSum (s.m_audioBuffers.drop s.m_currentChunk) := by
    rw [ht, ← sizeSum_append, ← hsplit]
    rfl
  have hU : sizeSum (s.m_audioBuffers.take s.m_currentChunk) % 18446744073709551616 =
      sizeSum (s.m_audioBuffers.take s.m_currentChunk) := Nat.mod_eq_of_lt (by omega)
  refine ⟨s2, ?_, h0, ?_, hz2, hc2⟩
  · rw [DropWithFuel_eq fuel s hc, hU, hd]
    exact hrun
  · obtain ⟨t, ht'⟩ := hz
    have : s.m_audioBuffers = t ++ (z ++ s.m_audioBuffers.drop s.m_currentChunk) := by
      rw [← List.append_assoc, ht']
      exact hsplit
    exact hsuf.trans ⟨t, this.symm⟩

/-- The number of chunks at or behind the index does not grow along a
discard. -/
theorem stableUnderDiscard_behindIndex (m : Nat) :
    StableUnderDiscard (fun s => s.m_audioBuffers.length - s.m_currentChunk ≤ m) where
  pop := fun s c rest h hl _ => by
    rw [hl] at h
    simp only [popFront, decrementIndex, SIZE_MAX, List.length_cons] at h ⊢
    split_ifs <;> omega
  trim := fun s c rest bytes h hl _ _ _ => by
    rw [hl] at h
    simp only [trimFront, List.length_cons] at h ⊢
    exact h
  reset := fun s _ hl _ => by
    simp only [resetIndex, hl, List.length_nil]
    omega

/-- The second loop of `Drop` ends within one iteration for each chunk at or
behind the index and one more, in every state. -/
theorem dropRemaining_terminates :
    ∀ (fuel : Nat) (s : PcmAudioBuffer), s.m_audioBuffers.length - s.m_currentChunk < fuel →
      ∃ o, dropRemaining fuel s = some o := by
  intro fuel
  induction fuel with
  | zero => intro s h; omega
  | succ fuel ih =>
    intro s h
    unfold dropRemaining
    by_cases hlt : s.m_currentChunk < s.m_audioBuffers.length
    · rw [GetNextUnlocked_some s hlt]
      simp only
      cases hd : DiscardBytesUnlocked (advanceIndex s)
          (s.m_audioBuffers.get ⟨s.m_currentChunk, hlt⟩).size with
      | done s2 =>
        have hm := DiscardBytesUnlocked_keeps _
          (stableUnderDiscard_behindIndex
            ((advanceIndex s).m_audioBuffers.length - (advanceIndex s).m_currentChunk))
          (advanceIndex s) s2 _ (Nat.le_refl _) hd
        simp only [advanceIndex] at hm
        exact ih s2 (by omega)
      | thrown s2 => exact ⟨_, rfl⟩
      | undefined => exact ⟨_, rfl⟩
    · rw [GetNextUnlocked_none s (by omega)]
      exact ⟨_, rfl⟩

/-- The loop of `Drop` always finishes within its bound: `Drop` has an
outcome in every state. -/
theorem Drop_terminates (s : PcmAudioBuffer) : ∃ o, Drop s = some o := by
  unfold Drop
  by_cases hc : s.m_currentChunk ≤ s.m_audioBuffers.length
  · rw [DropWithFuel_eq _ s hc]
    cases hd : DiscardBytesUnlocked s
        (sizeSum (s.m_audioBuffers.take s.m_currentChunk) % 18446744073709551616) with
    | done s1 =>
      have hm := DiscardBytesUnlocked_keeps _
        (stableUnderDiscard_behindIndex (s.m_audioBuffers.length - s.m_currentChunk))
        s s1 _ (Nat.le_refl _) hd
      exact dropRemaining_terminates _ s1 (by omega)
    | thrown s1 => exact ⟨_, rfl⟩
    | undefined => exact ⟨_, rfl⟩
  · exact ⟨.undefined, DropWithFuel_undefined _ s hc⟩

/-- C4 (as amended): in a state that satisfies the data-model invariants
(`m_totalSizeInBytes`, a 64-bit value, is the sum of the chunk sizes and the
index is at most the number of chunks), with any number of chunks of any
sizes and any index position, Drop terminates without fault and leaves
`m_totalSizeInBytes` zero; the chunks it leaves are a suffix of the sequence
and all have size zero, so the sequence is left empty when it held no chunk
of size zero. -/
theorem drop_leaves_only_zero_size_chunks (s : PcmAudioBuffer) (hinv : DataModelInvariant s)
    (htype : s.m_totalSizeInBytes < 18446744073709551616) :
    ∃ s1, Drop s = some (.done s1) ∧ s1.m_totalSizeInBytes = 0 ∧
      s1.m_audioBuffers <:+ s.m_audioBuffers ∧ (∀ c ∈ s1.m_audioBuffers, c.size = 0) ∧
      ((∀ c ∈ s.m_audioBuffers, c.size ≠ 0) → s1.m_audioBuffers = []) := by
  obtain ⟨s1, h, h0, hsuf, hzero, _⟩ :=
    DropWithFuel_spec s (s.m_audioBuffers.length + 1) hinv htype (by omega)
  refine ⟨s1, h, h0, hsuf, hzero, ?_⟩
  intro hpos
  cases hl : s1.m_audioBuffers with
  | nil => rfl
  | cons c rest =>
    have hmem : c ∈ s1.m_audioBuffers := by rw [hl]; exact List.mem_cons_self c rest
    exact absurd (hzero c hmem) (hpos c (hsuf.subset hmem))

/-- The Drop scenario of the specification (three chunks, index at chunk 1)
is an instance of `drop_leaves_only_zero_size_chunks`. -/
theorem drop_leaves_only_zero_size_chunks_witness :
    DataModelInvariant threeChunkState ∧
      threeChunkState.m_totalSizeInBytes < 18446744073709551616 ∧
      ∃ s1, Drop threeChunkState = some (.done s1) ∧ s1.m_totalSizeInBytes = 0 ∧
        s1.m_audioBuffers <:+ threeChunkState.m_audioBuffers ∧
        (∀ c ∈ s1.m_audioBuffers, c.size = 0) ∧
        ((∀ c ∈ threeChunkState.m_audioBuffers, c.size ≠ 0) → s1.m_audioBuffers = []) :=
  ⟨by decide, by decide,
    drop_leaves_only_zero_size_chunks threeChunkState (by decide) (by decide)⟩

/-- C4 fails as stated: a buffer whose only chunk has size zero satisfies the
data-model invariants, and Drop returns with that chunk still in the
sequence. -/
theorem drop_keeps_zero_size_chunk :
    run [Op.add payloadA 0] (initial scenarioHeader) = some (zeroChunkState, []) ∧
      DataModelInvariant zeroChunkState ∧
      Drop zeroChunkState = some (.done (advanceIndex zeroChunkState)) ∧
      (advanceIndex zeroChunkState).m_audioBuffers = [⟨payloadA, 0, 0⟩] ∧
      ¬ ∃ s1, Drop zeroChunkState = some (.done s1) ∧ s1.m_totalSizeInBytes = 0 ∧
        s1.m_audioBuffers = [] := by
  have hdrop : Drop zeroChunkState = some (.done (advanceIndex zeroChunkState)) := by decide
  refine ⟨by decide, by decide, hdrop, rfl, ?_⟩
  rintro ⟨s1, h, _, hnil⟩
  rw [hdrop] at h
  simp only [Option.some.injEq, Outcome.done.injEq] at h
  rw [← h] at hnil
  exact absurd hnil (by decide)

/-! ## Durations and bytes -/

/-- C5 (as amended): for a buffer whose construction succeeded from a format
with a nonzero channel count, bit depth and sample rate, and every duration t
that is an exact multiple of one millisecond,
BytesToDurationInTicks(DurationToBytes(t)) is defined and equals t, in exact
integer arithmetic. -/
theorem bytesToDuration_durationToBytes (header : WAVEFORMATEX) (b : PcmAudioBuffer) (t : Nat)
    (hb : construct header = .ok b) (hch : 0 < header.nChannels)
    (hbits : 0 < header.wBitsPerSample) (hrate : 0 < header.nSamplesPerSec)
    (ht : t % TicksInMillisecond = 0) :
    b.BytesToDurationInTicks (b.DurationToBytes t) = some t := by
  unfold construct at hb
  split_ifs at hb with h1 h2
  simp only [Except.ok.injEq] at hb
  subst hb
  simp only [MillisecondsInSecond, TicksInMillisecond, ne_eq, Decidable.not_not] at h1 h2 ht
  have hbps : 0 < header.wBitsPerSample / 8 := by omega
  have hspm : 0 < header.nSamplesPerSec / 1000 := by omega
  have hq : 0 < header.nChannels * (header.wBitsPerSample / 8) * (header.nSamplesPerSec / 1000) :=
    Nat.mul_pos (Nat.mul_pos hch hbps) hspm
  simp only [BytesToDurationInTicks, DurationToBytes, initial, MillisecondsInSecond,
    TicksInMillisecond]
  rw [if_neg (by omega)]
  congr 1
  rw [Nat.mul_assoc _ (t / 10000) 10000, Nat.div_mul_cancel (Nat.dvd_of_mod_eq_zero ht)]
  exact Nat.mul_div_cancel_left t hq

/-- The scenario format and a duration of three milliseconds are an instance
of `bytesToDuration_durationToBytes`. -/
theorem bytesToDuration_durationToBytes_witness :
    construct scenarioHeader = .ok (initial scenarioHeader) ∧ 0 < scenarioHeader.nChannels ∧
      0 < scenarioHeader.wBitsPerSample ∧ 0 < scenarioHeader.nSamplesPerSec ∧
      30000 % TicksInMillisecond = 0 ∧
      (initial scenarioHeader).BytesToDurationInTicks
        ((initial scenarioHeader).DurationToBytes 30000) = some 30000 :=
  ⟨rfl, by decide, by decide, by decide, by decide,
    bytesToDuration_durationToBytes scenarioHeader (initial scenarioHeader) 30000 rfl
      (by decide) (by decide) (by decide) (by decide)⟩

/-- C5 fails as stated: the constructor accepts a format with no channels,
and for it the divisor of BytesToDurationInTicks is zero, so the round trip of
one millisecond has no value. -/
theorem bytesToDuration_undefined_without_channels :
    construct zeroChannelHeader = .ok (initial zeroChannelHeader) ∧
      10000 % TicksInMillisecond = 0 ∧
      (initial zeroChannelHeader).DurationToBytes 10000 = 0 ∧
      (initial zeroChannelHeader).BytesToDurationInTicks
        ((initial zeroChannelHeader).DurationToBytes 10000) = none ∧
      (initial zeroChannelHeader).BytesToDurationInTicks
        ((initial zeroChannelHeader).DurationToBytes 10000) ≠ some 10000 := by
  refine ⟨rfl, by decide, by decide, by decide, by decide⟩

/-! ## DiscardTill with a stale offset -/

/-- C6 (as amended): in every state, for every offsetInTicks whose byte
equivalent is below the turn-relative offset by at most 2^63 (so that the
`int64_t` difference is negative), DiscardTill returns normally and leaves
the whole state unchanged: chunk sequence, total size, index and both
offsets. -/
theorem discardTill_stale_offset_noop (s : PcmAudioBuffer) (offsetInTicks : Nat)
    (h : s.DurationToBytes offsetInTicks < s.m_bufferStartOffsetInBytesTurnRelative)
    (hnear : s.m_bufferStartOffsetInBytesTurnRelative - s.DurationToBytes offsetInTicks ≤
      9223372036854775808) :
    s.DiscardTill offsetInTicks = .done s := by
  unfold DiscardTill DiscardTillUnlocked
  simp only
  rw [wrapInt64_of_bounds _ (by omega) (by omega), if_pos (by omega)]

/-- The state of the scenario (500 bytes discarded in the turn) and the
offset zero are an instance of `discardTill_stale_offset_noop`. -/
theorem discardTill_stale_offset_noop_witness :
    scenarioState.DurationToBytes 0 < scenarioState.m_bufferStartOffsetInBytesTurnRelative ∧
      scenarioState.m_bufferStartOffsetInBytesTurnRelative - scenarioState.DurationToBytes 0 ≤
        9223372036854775808 ∧
      scenarioState.DiscardTill 0 = .done scenarioState :=
  ⟨by decide, by decide, discardTill_stale_offset_noop scenarioState 0 (by decide) (by decide)⟩

/-- C6 fails as stated: with a turn-relative offset of 13 * 10^18 bytes and
the offset zero, the unsigned difference 2^64 - 13 * 10^18 is a positive
`int64_t`, so DiscardTill(0) does not return early: it discards the waiting
chunk and moves both offsets. -/
theorem discardTill_stale_offset_discards_when_far :
    run farTurnOps (initial scenarioHeader) =
        some (farTurnState, [⟨payloadA, 13000000000000000000, 0⟩]) ∧
      farTurnState.DurationToBytes 0 < farTurnState.m_bufferStartOffsetInBytesTurnRelative ∧
      farTurnState.DiscardTill 0 = .done farTurnEmptiedState ∧
      farTurnState.DiscardTill 0 ≠ .done farTurnState :=
  ⟨by decide, by decide, by decide, by decide⟩

/-! ## NewTurn -/

/-- C8, evaluated at the failing input: after Add, Add, DiscardBytes of the
first chunk on a fresh buffer, the index is `SIZE_MAX` while one chunk is in
the sequence, so the index exceeds the number of chunks; a Drop in that state
reads the deque out of range. -/
theorem index_exceeds_chunk_count_after_pop_at_zero :
    run [Op.add payloadA 10, Op.add payloadB 10, Op.discardBytes 10] (initial scenarioHeader) =
        some (wrappedIndexState, []) ∧
      wrappedIndexState.m_currentChunk = 18446744073709551615 ∧
      wrappedIndexState.m_audioBuffers.length = 1 ∧
      ¬ wrappedIndexState.m_currentChunk ≤ wrappedIndexState.m_audioBuffers.length ∧
      Drop wrappedIndexState = some .undefined := by
  refine ⟨by decide, rfl, rfl, by decide, by decide⟩

/-- C9, evaluated at the failing input: after Add, Add, DiscardBytes of the
first chunk on a fresh buffer (no GetNext and no NewTurn so far), the second
chunk is in the sequence and was never handed out, yet GetNext returns no
data, and keeps doing so. -/
theorem getNext_skips_resident_chunk_after_pop_at_zero :
    run [Op.add payloadA 10, Op.add payloadB 10, Op.discardBytes 10] (initial scenarioHeader) =
        some (wrappedIndexState, []) ∧
      wrappedIndexState.m_audioBuffers = [⟨payloadB, 10, 1⟩] ∧
      wrappedIndexState.GetNext = (none, wrappedIndexState) ∧
      wrappedIndexState.StashedSizeInBytes = 0 := by
  refine ⟨by decide, rfl, by decide, by decide⟩

/-! ## No chunk is handed out twice -/

theorem notYetOffered_add (s : PcmAudioBuffer) (data : SharedBytes) (dataSize : Nat) (i : Nat)
    (h : NotYetOffered (s.Add data dataSize) i) : NotYetOffered s i := by
  unfold NotYetOffered at *
  simp only [PcmAudioBuffer.Add] at h
  rcases h with h | h
  · rw [List.drop_append_eq_append_drop, List.map_append, List.mem_append] at h
    rcases h with h | h
    · exact Or.inl h
    · obtain ⟨c, hc, rfl⟩ := List.mem_map.1 h
      have := List.mem_of_mem_drop hc
      rw [List.mem_singleton] at this
      subst this
      exact Or.inr (Nat.le_refl _)
  · exact Or.inr (by omega)

theorem notYetOffered_advanceIndex (s : PcmAudioBuffer) (i : Nat)
    (h : NotYetOffered (advanceIndex s) i) : NotYetOffered s i := by
  unfold NotYetOffered at *
  simp only [advanceIndex] at h
  rcases h with h | h
  · obtain ⟨c, hc, rfl⟩ := List.mem_map.1 h
    rw [← List.drop_drop] at hc
    exact Or.inl (List.mem_map_of_mem _ (List.mem_of_mem_drop hc))
  · exact Or.inr h

theorem notYetOffered_popFront (s : PcmAudioBuffer) (c : DataChunk) (rest : List DataChunk)
    (i : Nat) (hl : s.m_audioBuffers = c :: rest) (h : NotYetOffered (popFront s c rest) i) :
    NotYetOffered s i := by
  unfold NotYetOffered at *
  simp only [popFront, decrementIndex] at h
  rcases h with h | h
  · left
    rw [hl]
    cases hk : s.m_currentChunk with
    | zero =>
      obtain ⟨x, hx, rfl⟩ := List.mem_map.1 h
      simp only [List.drop_zero]
      exact List.mem_map_of_mem _ (List.mem_cons_of_mem c (List.mem_of_mem_drop hx))
    | succ k =>
      simpa [hk] using h
  · exact Or.inr h

theorem notYetOffered_trimFront (s : PcmAudioBuffer) (c : DataChunk) (rest : List DataChunk)
    (bytes i : Nat) (hl : s.m_audioBuffers = c :: rest)
    (h : NotYetOffered (trimFront s c rest bytes) i) : NotYetOffered s i := by
  unfold NotYetOffered at *
  simp only [trimFront] at h
  rw [hl]
  cases hk : s.m_currentChunk with
  | zero => simpa [hk] using h
  | succ k => simpa [hk] using h

theorem notYetOffered_resetIndex (s : PcmAudioBuffer) (i : Nat) (hl : s.m_audioBuffers = [])
    (h : NotYetOffered (resetIndex s) i) : NotYetOffered s i := by
  unfold NotYetOffered at *
  simp only [resetIndex, hl] at h
  rcases h with h | h
  · simp at h
  · exact Or.inr h

theorem creationOrdered_add (s : PcmAudioBuffer) (data : SharedBytes) (dataSize : Nat)
    (h : CreationOrdered s) : CreationOrdered (s.Add data dataSize) := by
  obtain ⟨hp, hb⟩ := h
  unfold CreationOrdered chunkIds at *
  simp only [PcmAudioBuffer.Add, List.map_append, List.map_cons, List.map_nil]
  constructor
  · rw [List.pairwise_append]
    refine ⟨hp, List.pairwise_singleton _ _, ?_⟩
    intro a ha b hb'
    rw [List.mem_singleton] at hb'
    subst hb'
    exact hb a ha
  · intro i hi
    rcases List.mem_append.1 hi with h | h
    · exact Nat.lt_succ_of_lt (hb i h)
    · rw [List.mem_singleton] at h
      omega

theorem creationOrdered_popFront (s : PcmAudioBuffer) (c : DataChunk) (rest : List DataChunk)
    (hl : s.m_audioBuffers = c :: rest) (h : CreationOrdered s) :
    CreationOrdered (popFront s c rest) := by
  obtain ⟨hp, hb⟩ := h
  unfold CreationOrdered chunkIds at *
  rw [hl, List.map_cons] at hp hb
  simp only [popFront]
  exact ⟨(List.pairwise_cons.1 hp).2, fun i hi => hb i (List.mem_cons_of_mem _ hi)⟩

theorem creationOrdered_trimFront (s : PcmAudioBuffer) (c : DataChunk) (rest : List DataChunk)
    (bytes : Nat) (hl : s.m_audioBuffers = c :: rest) (h : CreationOrdered s) :
    CreationOrdered (trimFront s c rest bytes) := by
  unfold CreationOrdered chunkIds at *
  rw [hl] at h
  simpa [trimFront] using h

/-- Creation order, together with the fact that nothing becomes available for
handing out that was not available in a given earlier state `s0`, is kept by
every elementary state change. -/
theorem stable_creationOrdered (s0 : PcmAudioBuffer) :
    Stable (fun s => CreationOrdered s ∧ ∀ i, NotYetOffered s i → NotYetOffered s0 i) where
  add := fun s data dataSize hp =>
    ⟨creationOrdered_add s data dataSize hp.1,
      fun i hi => hp.2 i (notYetOffered_add s data dataSize i hi)⟩
  advance := fun s hp _ => ⟨hp.1, fun i hi => hp.2 i (notYetOffered_advanceIndex s i hi)⟩
  pop := fun s c rest hp hl _ =>
    ⟨creationOrdered_popFront s c rest hl hp.1,
      fun i hi => hp.2 i (notYetOffered_popFront s c rest i hl hi)⟩
  trim := fun s c rest bytes hp hl _ _ _ =>
    ⟨creationOrdered_trimFront s c rest bytes hl hp.1,
      fun i hi => hp.2 i (notYetOffered_trimFront s c rest bytes i hl hi)⟩
  reset := fun s hp hl _ => ⟨hp.1, fun i hi => hp.2 i (notYetOffered_resetIndex s i hl hi)⟩

/-- Only `GetNext` hands out a chunk, and the chunk is the one at the index. -/
theorem step_returns (s s1 : PcmAudioBuffer) (op : Op) (c : DataChunk)
    (h : step s op = some (s1, some c)) :
    ∃ hlt : s.m_currentChunk < s.m_audioBuffers.length,
      c = s.m_audioBuffers.get ⟨s.m_currentChunk, hlt⟩ ∧ s1 = advanceIndex s := by
  cases op with
  | getNext =>
    by_cases hlt : s.m_currentChunk < s.m_audioBuffers.length
    · simp only [step, GetNext, GetNextUnlocked_some s hlt, Option.some.injEq, Prod.mk.injEq] at h
      exact ⟨hlt, h.2.symm, h.1.symm⟩
    · simp [step, GetNext, GetNextUnlocked_none s (by omega)] at h
  | add data dataSize => simp [step] at h
  | newTurn => simp [step] at h
  | discardBytes bytes =>
    cases hd : (s.DiscardBytes bytes).state? <;> simp [step, hd] at h
  | discardTill offsetInTicks =>
    cases hd : (s.DiscardTill offsetInTicks).state? <;> simp [step, hd] at h
  | drop =>
    cases hd : s.Drop.bind Outcome.state? <;> simp [step, hd] at h
  | copyTo => simp [step] at h
  | copyFrom source => simp [step] at h

/-- The chunk at the index was created before every chunk behind it, and by
an `Add` call already made: it is not among what stays available once the
index has moved past it. -/
theorem not_notYetOffered_advanceIndex (s : PcmAudioBuffer) (h : CreationOrdered s)
    (hlt : s.m_currentChunk < s.m_audioBuffers.length) :
    ¬ NotYetOffered (advanceIndex s) (s.m_audioBuffers.get ⟨s.m_currentChunk, hlt⟩).createdBy := by
  obtain ⟨hp, hb⟩ := h
  unfold chunkIds at hp hb
  have hsplit : s.m_audioBuffers.drop s.m_currentChunk =
      s.m_audioBuffers.get ⟨s.m_currentChunk, hlt⟩ :: s.m_audioBuffers.drop (s.m_currentChunk + 1) :=
    List.drop_eq_getElem_cons hlt
  have hsub : ((s.m_audioBuffers.drop s.m_currentChunk).map DataChunk.createdBy).Pairwise (· < ·) :=
    hp.sublist ((List.drop_sublist _ _).map _)
  rw [hsplit, List.map_cons, List.pairwise_cons] at hsub
  have hmem : (s.m_audioBuffers.get ⟨s.m_currentChunk, hlt⟩).createdBy ∈
      s.m_audioBuffers.map DataChunk.createdBy :=
    List.mem_map_of_mem _ (List.get_mem _ _ _)
  intro hn
  rcases hn with hn | hn
  · simp only [advanceIndex] at hn
    exact Nat.lt_irrefl _ (hsub.1 _ hn)
  · simp only [advanceIndex] at hn
    exact Nat.lt_irrefl _ (Nat.lt_of_lt_of_le (hb _ hmem) hn)

/-- Along a sequence of calls without `NewTurn`, the chunks handed out are
pairwise distinct objects, and each was still available at the start. -/
theorem run_returns_nodup :
    ∀ (ops : List Op) (s s1 : PcmAudioBuffer) (rs : List DataChunk),
      CreationOrdered s → Op.newTurn ∉ ops → run ops s = some (s1, rs) →
      (rs.map DataChunk.createdBy).Nodup ∧ ∀ r ∈ rs, NotYetOffered s r.createdBy := by
  intro ops
  induction ops with
  | nil =>
    intro s s1 rs _ _ h
    simp only [run, Option.some.injEq, Prod.mk.injEq] at h
    rw [← h.2]
    exact ⟨List.nodup_nil, fun r hr => by cases hr⟩
  | cons op ops ih =>
    intro s s1 rs ho hnt h
    have hop : op ≠ .newTurn := fun e => hnt (by rw [e]; exact List.mem_cons_self _ _)
    have hnt' : Op.newTurn ∉ ops := fun e => hnt (List.mem_cons_of_mem _ e)
    unfold run at h
    cases hstep : step s op with
    | none => simp [hstep] at h
    | some x =>
      obtain ⟨s2, r⟩ := x
      simp only [hstep] at h
      cases hrun : run ops s2 with
      | none => simp [hrun] at h
      | some y =>
        obtain ⟨s3, rs3⟩ := y
        simp only [hrun, Option.some.injEq, Prod.mk.injEq] at h
        obtain ⟨_, hrs⟩ := h
        have hst := step_stable _ (stable_creationOrdered s) s s2 op r
          ⟨ho, fun _ hi => hi⟩ (fun e => absurd e hop) hstep
        obtain ⟨ho2, hmono⟩ := hst
        obtain ⟨hnd, hav⟩ := ih s2 s3 rs3 ho2 hnt' hrun
        rw [← hrs]
        cases r with
        | none =>
          simp only [Option.toList, List.nil_append]
          exact ⟨hnd, fun r hr => hmono _ (hav r hr)⟩
        | some c =>
          obtain ⟨hlt, hc, hs2⟩ := step_returns s s2 op c hstep
          subst hs2
          have hfresh := not_notYetOffered_advanceIndex s ho hlt
          rw [← hc] at hfresh
          simp only [Option.toList, List.singleton_append, List.map_cons, List.nodup_cons]
          refine ⟨⟨?_, hnd⟩, ?_⟩
          · intro hmem
            obtain ⟨r, hr, hre⟩ := List.mem_map.1 hmem
            exact hfresh (hre ▸ hav r hr)
          · intro r hr
            rcases List.mem_cons.1 hr with rfl | hr
            · left
              rw [hc, List.drop_eq_getElem_cons hlt]
              exact List.mem_map_of_mem _ (List.mem_cons_self _ _)
            · exact hmono _ (hav r hr)

theorem creationOrdered_initial (header : WAVEFORMATEX) : CreationOrdered (initial header) :=
  ⟨List.Pairwise.nil, fun i hi => by cases hi⟩

/-- C10: for every finite sequence of Add, GetNext, DiscardBytes,
DiscardTill and Drop calls (copies allowed as well) that contains no NewTurn,
run on a freshly constructed buffer, no chunk, identified by the Add call
that created it, is returned by GetNext more than once. -/
theorem getNext_never_returns_a_chunk_twice (header : WAVEFORMATEX) (b : PcmAudioBuffer)
    (ops : List Op) (s : PcmAudioBuffer) (rs : List DataChunk) (hb : construct header = .ok b)
    (hnt : Op.newTurn ∉ ops) (hrun : run ops b = some (s, rs)) :
    (rs.map DataChunk.createdBy).Nodup := by
  have hinit := construct_eq_initial header b hb
  subst hinit
  exact (run_returns_nodup ops (initial header) s rs (creationOrdered_initial header) hnt
    hrun).1

/-- Two reads around a discard are an instance of
`getNext_never_returns_a_chunk_twice`. -/
theorem getNext_never_returns_a_chunk_twice_witness :
    construct scenarioHeader = .ok (initial scenarioHeader) ∧ Op.newTurn ∉ twoReadsOps ∧
      run twoReadsOps (initial scenarioHeader) =
        some (twoReadsState, [⟨payloadA, 1000, 0⟩, ⟨payloadB, 1000, 1⟩]) ∧
      (([⟨payloadA, 1000, 0⟩, ⟨payloadB, 1000, 1⟩] : List DataChunk).map
        DataChunk.createdBy).Nodup :=
  ⟨rfl, by decide, by decide,
    getNext_never_returns_a_chunk_twice scenarioHeader (initial scenarioHeader) twoReadsOps
      twoReadsState [⟨payloadA, 1000, 0⟩, ⟨payloadB, 1000, 1⟩] rfl (by decide) (by decide)⟩

/-! ## What a discard removes -/

/-- When the total is the sum of the sizes, `DiscardBytesUnlocked` returns
normally; it lowers the total by `bytes`, stopping at zero, advances both
offsets by what it removed, in 64-bit arithmetic, and leaves the format and
the ghost counter. -/
theorem DiscardBytesUnlocked_accounts :
    ∀ (l : List DataChunk) (s : PcmAudioBuffer) (bytes : Nat), s.m_audioBuffers = l →
      TotalIsSum s →
      ∃ s1, DiscardBytesUnlocked s bytes = .done s1 ∧ TotalIsSum s1 ∧
        s1.m_totalSizeInBytes = s.m_totalSizeInBytes - bytes ∧
        (s.m_bufferStartOffsetInBytesTurnRelative < 18446744073709551616 →
          s1.m_bufferStartOffsetInBytesTurnRelative =
            (s.m_bufferStartOffsetInBytesTurnRelative + min bytes s.m_totalSizeInBytes) %
              18446744073709551616) ∧
        (s.m_bufferStartOffsetInBytesAbsolute < 18446744073709551616 →
          s1.m_bufferStartOffsetInBytesAbsolute =
            (s.m_bufferStartOffsetInBytesAbsolute + min bytes s.m_totalSizeInBytes) %
              18446744073709551616) ∧
        s1.m_header = s.m_header ∧ s1.m_bytesPerSample = s.m_bytesPerSample ∧
        s1.m_samplesPerMillisecond = s.m_samplesPerMillisecond ∧ s1.addCalls = s.addCalls ∧
        s1.m_bufferStartOffsetInBytesTurnRelative % 18446744073709551616 =
          (s.m_bufferStartOffsetInBytesTurnRelative + min bytes s.m_totalSizeInBytes) %
            18446744073709551616 := by
  intro l
  induction l with
  | nil =>
    intro s bytes hl ht
    have h0 : s.m_totalSizeInBytes = 0 := by rw [ht, hl]; rfl
    refine ⟨resetIndex s, ?_, ?_, ?_, ?_, ?_, rfl, rfl, rfl, rfl, ?_⟩
    · rw [DiscardBytesUnlocked_nil s bytes hl, discardRest_nil s bytes hl h0]
    · unfold TotalIsSum at *; simpa [resetIndex] using ht
    · simp only [resetIndex]; omega
    · simp only [resetIndex]; omega
    · simp only [resetIndex]; omega
    · simp only [resetIndex]; omega
  | cons c rest ih =>
    intro s bytes hl ht
    have hsum : s.m_totalSizeInBytes = c.size + sizeSum rest := by rw [ht, hl, sizeSum_cons]
    by_cases hcond : bytes ≠ 0 ∧ c.size ≤ bytes
    · obtain ⟨s1, hd, ht1, htot, hrel, habs, hh, hb, hm, ha, hmod⟩ :=
        ih (popFront s c rest) (bytes - c.size) rfl (totalIsSum_popFront s c rest ht hl)
      simp only [popFront] at htot hrel habs hh hb hm ha hmod
      refine ⟨s1, ?_, ht1, by omega, by omega, by omega, hh, hb, hm, ha, by omega⟩
      rw [DiscardBytesUnlocked_cons_pop s c rest bytes hl hcond.1 hcond.2 (by omega), hd]
    · rcases Nat.eq_zero_or_pos bytes with hb | hb
      · subst hb
        refine ⟨s, ?_, ht, by omega, by omega, by omega, rfl, rfl, rfl, rfl, by omega⟩
        rw [DiscardBytesUnlocked_cons_stop s c rest 0 hl (Or.inl rfl),
          discardRest_cons_zero s c rest hl]
      · have hlt : bytes < c.size := by omega
        refine ⟨trimFront s c rest bytes, ?_, totalIsSum_trimFront s c rest bytes ht hl hlt,
          rfl, ?_, ?_, rfl, rfl, rfl, rfl, ?_⟩
        · rw [DiscardBytesUnlocked_cons_stop s c rest bytes hl (Or.inr hlt),
            discardRest_cons_trim s c rest bytes hl hb (by omega)]
        · simp only [trimFront]; omega
        · simp only [trimFront]; omega
        · simp only [trimFront]; omega

/-- A discard of more than the total pops every chunk. -/
theorem DiscardBytesUnlocked_beyond_total :
    ∀ (l : List DataChunk) (s : PcmAudioBuffer) (bytes : Nat), s.m_audioBuffers = l →
      TotalIsSum s → s.m_totalSizeInBytes < bytes →
      ∃ s1, DiscardBytesUnlocked s bytes = .done s1 ∧ s1.m_audioBuffers = [] ∧
        s1.m_currentChunk = 0 := by
  intro l
  induction l with
  | nil =>
    intro s bytes hl ht _
    have h0 : s.m_totalSizeInBytes = 0 := by rw [ht, hl]; rfl
    refine ⟨resetIndex s, ?_, hl, rfl⟩
    rw [DiscardBytesUnlocked_nil s bytes hl, discardRest_nil s bytes hl h0]
  | cons c rest ih =>
    intro s bytes hl ht hlt
    have hsum : s.m_totalSizeInBytes = c.size + sizeSum rest := by rw [ht, hl, sizeSum_cons]
    obtain ⟨s1, hd, hnil, hc⟩ := ih (popFront s c rest) (bytes - c.size) rfl
      (totalIsSum_popFront s c rest ht hl) (by simp only [popFront]; omega)
    refine ⟨s1, ?_, hnil, hc⟩
    rw [DiscardBytesUnlocked_cons_pop s c rest bytes hl (by omega) (by omega) (by omega), hd]

/-- C14: in a state that satisfies the data-model invariants, DiscardBytes(n)
with n above `m_totalSizeInBytes` raises no error and discards everything:
the chunk sequence is empty, the total size and the index are zero, and both
offsets have advanced by the old total size, not by n.  The offsets are
`uint64_t` values, so the advance is modulo 2^64; where the sum stays below
2^64 it is the plain sum. -/
theorem discardBytes_beyond_total_discards_everything (s : PcmAudioBuffer) (n : Nat)
    (hinv : DataModelInvariant s)
    (hrel64 : s.m_bufferStartOffsetInBytesTurnRelative < 18446744073709551616)
    (habs64 : s.m_bufferStartOffsetInBytesAbsolute < 18446744073709551616)
    (hn : s.m_totalSizeInBytes < n) :
    ∃ s1, s.DiscardBytes n = .done s1 ∧ s1.m_audioBuffers = [] ∧ s1.m_totalSizeInBytes = 0 ∧
      s1.m_currentChunk = 0 ∧
      s1.m_bufferStartOffsetInBytesTurnRelative =
        (s.m_bufferStartOffsetInBytesTurnRelative + s.m_totalSizeInBytes) %
          18446744073709551616 ∧
      s1.m_bufferStartOffsetInBytesAbsolute =
        (s.m_bufferStartOffsetInBytesAbsolute + s.m_totalSizeInBytes) %
          18446744073709551616 ∧
      (s.m_bufferStartOffsetInBytesTurnRelative + s.m_totalSizeInBytes < 18446744073709551616 →
        s1.m_bufferStartOffsetInBytesTurnRelative =
          s.m_bufferStartOffsetInBytesTurnRelative + s.m_totalSizeInBytes) ∧
      (s.m_bufferStartOffsetInBytesAbsolute + s.m_totalSizeInBytes < 18446744073709551616 →
        s1.m_bufferStartOffsetInBytesAbsolute =
          s.m_bufferStartOffsetInBytesAbsolute + s.m_totalSizeInBytes) := by
  obtain ⟨s1, hd, hnil, hc⟩ := DiscardBytesUnlocked_beyond_total s.m_audioBuffers s n rfl hinv.1 hn
  obtain ⟨s2, hd2, _, htot, hrel, habs, _⟩ :=
    DiscardBytesUnlocked_accounts s.m_audioBuffers s n rfl hinv.1
  rw [hd] at hd2
  simp only [Outcome.done.injEq] at hd2
  subst hd2
  exact ⟨s1, hd, hnil, by omega, hc, by omega, by omega, by omega, by omega⟩

/-- The state of the scenario (1500 bytes) and a discard of 2000 bytes are an
instance of `discardBytes_beyond_total_discards_everything`. -/
theorem discardBytes_beyond_total_discards_everything_witness :
    DataModelInvariant scenarioState ∧
      scenarioState.m_bufferStartOffsetInBytesTurnRelative < 18446744073709551616 ∧
      scenarioState.m_bufferStartOffsetInBytesAbsolute < 18446744073709551616 ∧
      scenarioState.m_totalSizeInBytes < 2000 ∧
      ∃ s1, scenarioState.DiscardBytes 2000 = .done s1 ∧ s1.m_audioBuffers = [] ∧
        s1.m_totalSizeInBytes = 0 ∧ s1.m_currentChunk = 0 ∧
        s1.m_bufferStartOffsetInBytesTurnRelative =
          (scenarioState.m_bufferStartOffsetInBytesTurnRelative +
            scenarioState.m_totalSizeInBytes) % 18446744073709551616 ∧
        s1.m_bufferStartOffsetInBytesAbsolute =
          (scenarioState.m_bufferStartOffsetInBytesAbsolute +
            scenarioState.m_totalSizeInBytes) % 18446744073709551616 ∧
        (scenarioState.m_bufferStartOffsetInBytesTurnRelative +
            scenarioState.m_totalSizeInBytes < 18446744073709551616 →
          s1.m_bufferStartOffsetInBytesTurnRelative =
            scenarioState.m_bufferStartOffsetInBytesTurnRelative +
              scenarioState.m_totalSizeInBytes) ∧
        (scenarioState.m_bufferStartOffsetInBytesAbsolute +
            scenarioState.m_totalSizeInBytes < 18446744073709551616 →
          s1.m_bufferStartOffsetInBytesAbsolute =
            scenarioState.m_bufferStartOffsetInBytesAbsolute +
              scenarioState.m_totalSizeInBytes) :=
  ⟨by decide, by decide, by decide, by decide,
    discardBytes_beyond_total_discards_everything scenarioState 2000 (by decide) (by decide)
      (by decide) (by decide)⟩

/-! ## DiscardTill within the buffered range -/

/-- C12 (as amended): in a state that satisfies the data-model invariants,
when the byte equivalent of offsetInTicks lies between the turn-relative
offset and that offset plus the total size, is below 2^64, and exceeds the
turn-relative offset by less than 2^63 (so that the `int64_t` difference is
not negative), DiscardTill returns normally, the turn-relative offset becomes
the byte equivalent and the total size drops by the byte equivalent minus the
old turn-relative offset.  Right after NewTurn, when the byte equivalent is
below 2^63, DiscardTill(t) is DiscardBytes(DurationToBytes(t)) and, when that
many bytes are buffered, removes exactly DurationToBytes(t) bytes. -/
theorem discardTill_discards_up_to_offset (s : PcmAudioBuffer) (offsetInTicks : Nat)
    (hinv : DataModelInvariant s) :
    (s.m_bufferStartOffsetInBytesTurnRelative ≤ s.DurationToBytes offsetInTicks →
      s.DurationToBytes offsetInTicks ≤
        s.m_bufferStartOffsetInBytesTurnRelative + s.m_totalSizeInBytes →
      s.DurationToBytes offsetInTicks < 18446744073709551616 →
      s.DurationToBytes offsetInTicks - s.m_bufferStartOffsetInBytesTurnRelative <
        9223372036854775808 →
      ∃ s1, s.DiscardTill offsetInTicks = .done s1 ∧
        s1.m_bufferStartOffsetInBytesTurnRelative = s.DurationToBytes offsetInTicks ∧
        s1.DurationToBytes offsetInTicks = s.DurationToBytes offsetInTicks ∧
        s1.m_totalSizeInBytes +
            (s.DurationToBytes offsetInTicks - s.m_bufferStartOffsetInBytesTurnRelative) =
          s.m_totalSizeInBytes) ∧
      (s.NewTurn.DurationToBytes offsetInTicks < 9223372036854775808 →
        s.NewTurn.DiscardTill offsetInTicks =
          s.NewTurn.DiscardBytes (s.NewTurn.DurationToBytes offsetInTicks)) ∧
      (s.NewTurn.DurationToBytes offsetInTicks < 9223372036854775808 →
        s.NewTurn.DurationToBytes offsetInTicks ≤ s.NewTurn.m_totalSizeInBytes →
        ∃ s2, s.NewTurn.DiscardTill offsetInTicks = .done s2 ∧
          s2.m_totalSizeInBytes + s.NewTurn.DurationToBytes offsetInTicks =
            s.m_totalSizeInBytes ∧
          s2.m_bufferStartOffsetInBytesTurnRelative = s.NewTurn.DurationToBytes offsetInTicks) := by
  have hnew : s.NewTurn.DurationToBytes offsetInTicks < 9223372036854775808 →
      s.NewTurn.DiscardTill offsetInTicks =
        s.NewTurn.DiscardBytes (s.NewTurn.DurationToBytes offsetInTicks) := by
    intro hsmall
    have h0 : s.NewTurn.m_bufferStartOffsetInBytesTurnRelative = 0 := rfl
    simp only [DiscardTill, DiscardTillUnlocked, DiscardBytes]
    rw [h0, wrapInt64_of_bounds _ (by omega) (by omega), if_neg (by omega)]
    simp
  refine ⟨?_, hnew, ?_⟩
  · intro hlo hhi h64 h63
    obtain ⟨s1, hd, _, htot, hrel, _, hh, hb, hm, _⟩ := DiscardBytesUnlocked_accounts
      s.m_audioBuffers s
      (s.DurationToBytes offsetInTicks - s.m_bufferStartOffsetInBytesTurnRelative) rfl hinv.1
    have hrel1 := hrel (by omega)
    have hconv : ((s.DurationToBytes offsetInTicks : Int) -
        (s.m_bufferStartOffsetInBytesTurnRelative : Int)).toNat =
        s.DurationToBytes offsetInTicks - s.m_bufferStartOffsetInBytesTurnRelative := by omega
    refine ⟨s1, ?_, by omega, ?_, by omega⟩
    · simp only [DiscardTill, DiscardTillUnlocked]
      rw [wrapInt64_of_bounds _ (by omega) (by omega), if_neg (by omega), hconv, hd]
    · simp only [DurationToBytes, hh, hb, hm]
  · intro hsmall hle
    obtain ⟨s2, hd, _, htot, hrel, _⟩ := DiscardBytesUnlocked_accounts
      s.NewTurn.m_audioBuffers s.NewTurn (s.NewTurn.DurationToBytes offsetInTicks) rfl
      (totalIsSum_newTurn s hinv.1)
    have h0 : s.NewTurn.m_bufferStartOffsetInBytesTurnRelative = 0 := rfl
    have ht : s.NewTurn.m_totalSizeInBytes = s.m_totalSizeInBytes := rfl
    have hrel1 := hrel (by omega)
    refine ⟨s2, ?_, by omega, by omega⟩
    rw [hnew hsmall]
    exact hd

/-- The state of the scenario (500 bytes discarded, 1500 buffered) and an
offset of 20 ms (640 bytes) are an instance of
`discardTill_discards_up_to_offset`. -/
theorem discardTill_discards_up_to_offset_witness :
    DataModelInvariant scenarioState ∧ scenarioState.DurationToBytes 200000 = 640 ∧
      (∃ s1, scenarioState.DiscardTill 200000 = .done s1 ∧
        s1.m_bufferStartOffsetInBytesTurnRelative = scenarioState.DurationToBytes 200000 ∧
        s1.DurationToBytes 200000 = scenarioState.DurationToBytes 200000 ∧
        s1.m_totalSizeInBytes +
            (scenarioState.DurationToBytes 200000 -
              scenarioState.m_bufferStartOffsetInBytesTurnRelative) =
          scenarioState.m_totalSizeInBytes) :=
  ⟨by decide, by decide,
    (discardTill_discards_up_to_offset scenarioState 200000 (by decide)).1 (by decide)
      (by decide) (by decide) (by decide)⟩

/-- C12 fails as stated: with 12288 bytes per millisecond and 13 * 10^18
bytes buffered at turn-relative offset zero, the byte equivalent of 10^19
ticks, 12288 * 10^15, lies within the buffered range but is a negative
`int64_t`, so DiscardTill returns without discarding anything and the
turn-relative offset stays zero. -/
theorem discardTill_within_range_ignored_above_int64 :
    run [.add payloadA 13000000000000000000] (initial wideHeader) = some (wideFormatState, []) ∧
      DataModelInvariant wideFormatState ∧
      wideFormatState.DurationToBytes 10000000000000000000 = 12288000000000000000 ∧
      wideFormatState.m_bufferStartOffsetInBytesTurnRelative ≤
        wideFormatState.DurationToBytes 10000000000000000000 ∧
      wideFormatState.DurationToBytes 10000000000000000000 ≤
        wideFormatState.m_bufferStartOffsetInBytesTurnRelative +
          wideFormatState.m_totalSizeInBytes ∧
      wideFormatState.DiscardTill 10000000000000000000 = .done wideFormatState ∧
      wideFormatState.m_bufferStartOffsetInBytesTurnRelative ≠
        wideFormatState.DurationToBytes 10000000000000000000 :=
  ⟨by decide, by decide, by decide, by decide, by decide, by decide, by decide⟩

/-! ## Construction -/

/-- C13: construction fails exactly when the sample rate is not a whole
multiple of 1000 or the bit depth is not a whole multiple of 8; when it
succeeds, bytes-per-sample is the bit depth divided by 8,
samples-per-millisecond is the rate divided by 1000, and the buffer has no
chunks, total size zero, index zero and both offsets zero. -/
theorem construct_fails_iff_not_divisible (header : WAVEFORMATEX) :
    ((∃ e, construct header = .error e) ↔
        (header.nSamplesPerSec % 1000 ≠ 0 ∨ header.wBitsPerSample % 8 ≠ 0)) ∧
      ∀ b, construct header = .ok b →
        b.m_bytesPerSample = header.wBitsPerSample / 8 ∧
        b.m_samplesPerMillisecond = header.nSamplesPerSec / 1000 ∧
        b.m_audioBuffers = [] ∧ b.m_totalSizeInBytes = 0 ∧ b.m_currentChunk = 0 ∧
        b.m_bufferStartOffsetInBytesTurnRelative = 0 ∧
        b.m_bufferStartOffsetInBytesAbsolute = 0 := by
  constructor
  · unfold construct
    simp only [MillisecondsInSecond]
    constructor
    · rintro ⟨e, he⟩
      split_ifs at he with h1 h2
      · exact Or.inl h1
      · exact Or.inr h2
    · rintro (h | h)
      · exact ⟨.sampleRateNotSupported, by rw [if_pos h]⟩
      · by_cases h1 : header.nSamplesPerSec % 1000 ≠ 0
        · exact ⟨.sampleRateNotSupported, by rw [if_pos h1]⟩
        · exact ⟨.bitsPerSampleNotSupported, by rw [if_neg h1, if_pos h]⟩
  · intro b hb
    have hinit := construct_eq_initial header b hb
    subst hinit
    exact ⟨rfl, rfl, rfl, rfl, rfl, rfl, rfl⟩

/-- The scenario format is an instance of the success half of
`construct_fails_iff_not_divisible`. -/
theorem construct_fails_iff_not_divisible_witness :
    construct scenarioHeader = .ok (initial scenarioHeader) ∧
      (initial scenarioHeader).m_bytesPerSample = 2 ∧
      (initial scenarioHeader).m_samplesPerMillisecond = 16 ∧
      (initial scenarioHeader).m_audioBuffers = [] ∧
      (initial scenarioHeader).m_totalSizeInBytes = 0 ∧
      (initial scenarioHeader).m_currentChunk = 0 ∧
      (initial scenarioHeader).m_bufferStartOffsetInBytesTurnRelative = 0 ∧
      (initial scenarioHeader).m_bufferStartOffsetInBytesAbsolute = 0 :=
  ⟨rfl, (construct_fails_iff_not_divisible scenarioHeader).2 (initial scenarioHeader) rfl⟩

/-! ## Sequences of calls that add fewer than 2^64 bytes -/

/-- The loop of `CopyNonAcknowledgedDataTo` appends one new chunk for each
chunk of the source, with its payload and size, and adds the sizes to the
64-bit total; index and offsets of the target stay. -/
theorem copy_loop_spec :
    ∀ (l : List DataChunk) (t : PcmAudioBuffer),
      (l.foldl (fun target c => PcmAudioBuffer.Add target c.data c.size) t).m_audioBuffers =
          t.m_audioBuffers ++ chunksOf (l.map (fun c => (c.data, c.size))) t.addCalls ∧
        (t.m_totalSizeInBytes < 18446744073709551616 →
          (l.foldl (fun target c => PcmAudioBuffer.Add target c.data c.size)
              t).m_totalSizeInBytes =
            (t.m_totalSizeInBytes + sizeSum l) % 18446744073709551616) ∧
        (l.foldl (fun target c => PcmAudioBuffer.Add target c.data c.size) t).m_currentChunk =
          t.m_currentChunk ∧
        (l.foldl (fun target c => PcmAudioBuffer.Add target c.data c.size)
            t).m_bufferStartOffsetInBytesTurnRelative =
          t.m_bufferStartOffsetInBytesTurnRelative ∧
        (l.foldl (fun target c => PcmAudioBuffer.Add target c.data c.size)
            t).m_bufferStartOffsetInBytesAbsolute =
          t.m_bufferStartOffsetInBytesAbsolute := by
  intro l
  induction l with
  | nil =>
    intro t
    refine ⟨by simp [chunksOf], fun h => ?_, rfl, rfl, rfl⟩
    have h0 : sizeSum ([] : List DataChunk) = 0 := rfl
    simp only [List.foldl_nil, h0]
    omega
  | cons c rest ih =>
    intro t
    obtain ⟨h1, h2, h3, h4, h5⟩ := ih (t.Add c.data c.size)
    simp only [List.foldl_cons]
    refine ⟨?_, fun h => ?_, h3, h4, h5⟩
    · rw [h1]
      simp [PcmAudioBuffer.Add, chunksOf]
    · have h2a := h2 (by simp only [PcmAudioBuffer.Add]; omega)
      rw [h2a, sizeSum_cons]
      simp only [PcmAudioBuffer.Add]
      omega

theorem sizeSum_chunksOf (l : List DataChunk) :
    ∀ n, sizeSum (chunksOf (l.map (fun c => (c.data, c.size))) n) = sizeSum l := by
  induction l with
  | nil => intro n; rfl
  | cons c l ih =>
    intro n
    simp only [List.map_cons, chunksOf, sizeSum_cons, ih]

/-- A discard in a state whose total is the sum of the sizes and whose
absolute offset plus total is below 2^64: no counter wraps. -/
theorem DiscardBytesUnlocked_exact (s : PcmAudioBuffer) (bytes : Nat) (ht : TotalIsSum s)
    (hord : s.m_bufferStartOffsetInBytesTurnRelative ≤ s.m_bufferStartOffsetInBytesAbsolute)
    (hbud : s.m_bufferStartOffsetInBytesAbsolute + s.m_totalSizeInBytes < 18446744073709551616) :
    ∃ s1, DiscardBytesUnlocked s bytes = .done s1 ∧ TotalIsSum s1 ∧
      s1.m_totalSizeInBytes + min bytes s.m_totalSizeInBytes = s.m_totalSizeInBytes ∧
      s1.m_bufferStartOffsetInBytesTurnRelative =
        s.m_bufferStartOffsetInBytesTurnRelative + min bytes s.m_totalSizeInBytes ∧
      s1.m_bufferStartOffsetInBytesAbsolute =
        s.m_bufferStartOffsetInBytesAbsolute + min bytes s.m_totalSizeInBytes := by
  obtain ⟨s1, hd, ht1, htot, hrel, habs, _⟩ :=
    DiscardBytesUnlocked_accounts s.m_audioBuffers s bytes rfl ht
  have hrel1 := hrel (by omega)
  have habs1 := habs (by omega)
  exact ⟨s1, hd, ht1, by omega, by omega, by omega⟩

/-- The second loop of `Drop`, in a state whose absolute offset plus total is
below 2^64, keeps that sum and the order of the offsets, and lowers neither
offset. -/
theorem dropRemaining_exact :
    ∀ (fuel : Nat) (s : PcmAudioBuffer) (o : Outcome), TotalIsSum s →
      s.m_bufferStartOffsetInBytesTurnRelative ≤ s.m_bufferStartOffsetInBytesAbsolute →
      s.m_bufferStartOffsetInBytesAbsolute + s.m_totalSizeInBytes < 18446744073709551616 →
      dropRemaining fuel s = some o →
      ∃ s1, o = .done s1 ∧ TotalIsSum s1 ∧
        s1.m_bufferStartOffsetInBytesTurnRelative ≤ s1.m_bufferStartOffsetInBytesAbsolute ∧
        s1.m_bufferStartOffsetInBytesAbsolute + s1.m_totalSizeInBytes =
          s.m_bufferStartOffsetInBytesAbsolute + s.m_totalSizeInBytes ∧
        s.m_bufferStartOffsetInBytesAbsolute ≤ s1.m_bufferStartOffsetInBytesAbsolute ∧
        s.m_bufferStartOffsetInBytesTurnRelative ≤ s1.m_bufferStartOffsetInBytesTurnRelative := by
  intro fuel
  induction fuel with
  | zero => intro s o _ _ _ h; simp [dropRemaining] at h
  | succ fuel ih =>
    intro s o ht hord hbud h
    unfold dropRemaining at h
    by_cases hlt : s.m_currentChunk < s.m_audioBuffers.length
    · rw [GetNextUnlocked_some s hlt] at h
      simp only at h
      obtain ⟨s2, hd, ht2, htot, hrel, habs⟩ := DiscardBytesUnlocked_exact (advanceIndex s)
        (s.m_audioBuffers.get ⟨s.m_currentChunk, hlt⟩).size (totalIsSum_advanceIndex s ht)
        hord hbud
      simp only [hd] at h
      simp only [advanceIndex] at htot hrel habs
      obtain ⟨s1, ho, ht1, hord1, hsum, hma, hmr⟩ := ih s2 o ht2 (by omega) (by omega) h
      exact ⟨s1, ho, ht1, hord1, by omega, by omega, by omega⟩
    · rw [GetNextUnlocked_none s (by omega)] at h
      simp only [Option.some.injEq] at h
      exact ⟨s, h.symm, ht, hord, rfl, Nat.le_refl _, Nat.le_refl _⟩

/-- One call in a state whose total is the sum of the sizes, when the
absolute offset, the total and the bytes the call adds sum to less than 2^64:
no counter wraps.  The sum of the absolute offset and the total grows by the
bytes added, the turn-relative offset stays at most the absolute one, the
absolute offset does not go down, and the turn-relative one goes down only
by `NewTurn`. -/
theorem step_exact (s s1 : PcmAudioBuffer) (op : Op) (r : Option DataChunk) (ht : TotalIsSum s)
    (hord : s.m_bufferStartOffsetInBytesTurnRelative ≤ s.m_bufferStartOffsetInBytesAbsolute)
    (hbud : s.m_bufferStartOffsetInBytesAbsolute + s.m_totalSizeInBytes + addedBytes [op] <
      18446744073709551616)
    (h : step s op = some (s1, r)) :
    TotalIsSum s1 ∧
      s1.m_bufferStartOffsetInBytesTurnRelative ≤ s1.m_bufferStartOffsetInBytesAbsolute ∧
      s1.m_bufferStartOffsetInBytesAbsolute + s1.m_totalSizeInBytes =
        s.m_bufferStartOffsetInBytesAbsolute + s.m_totalSizeInBytes + addedBytes [op] ∧
      s.m_bufferStartOffsetInBytesAbsolute ≤ s1.m_bufferStartOffsetInBytesAbsolute ∧
      (op ≠ .newTurn → s.m_bufferStartOffsetInBytesTurnRelative ≤
        s1.m_bufferStartOffsetInBytesTurnRelative) := by
  cases op with
  | add data dataSize =>
    simp only [step, Option.some.injEq, Prod.mk.injEq] at h
    rw [← h.1]
    simp only [addedBytes] at hbud
    have hts : TotalIsSum (s.Add data dataSize) := by
      unfold TotalIsSum at *
      simp only [PcmAudioBuffer.Add]
      rw [sizeSum_append, sizeSum_cons]
      have h0 : sizeSum ([] : List DataChunk) = 0 := rfl
      rw [h0]
      simp only
      omega
    refine ⟨hts, hord, ?_, Nat.le_refl _, fun _ => Nat.le_refl _⟩
    simp only [PcmAudioBuffer.Add, addedBytes]
    omega
  | getNext =>
    simp only [step, GetNext, Option.some.injEq, Prod.mk.injEq] at h
    rw [← h.1]
    by_cases hlt : s.m_currentChunk < s.m_audioBuffers.length
    · rw [GetNextUnlocked_some s hlt]
      exact ⟨totalIsSum_advanceIndex s ht, hord, rfl, Nat.le_refl _, fun _ => Nat.le_refl _⟩
    · rw [GetNextUnlocked_none s (by omega)]
      exact ⟨ht, hord, rfl, Nat.le_refl _, fun _ => Nat.le_refl _⟩
  | newTurn =>
    simp only [step, Option.some.injEq, Prod.mk.injEq] at h
    rw [← h.1]
    exact ⟨totalIsSum_newTurn s ht, Nat.zero_le _, rfl, Nat.le_refl _, fun e => absurd rfl e⟩
  | discardBytes bytes =>
    simp only [addedBytes] at hbud
    obtain ⟨s2, hd, ht2, htot, hrel, habs⟩ := DiscardBytesUnlocked_exact s bytes ht hord hbud
    simp only [step, DiscardBytes, hd, Outcome.state?, Option.map_some', Option.some.injEq,
      Prod.mk.injEq] at h
    rw [← h.1]
    simp only [addedBytes]
    exact ⟨ht2, by omega, by omega, by omega, fun _ => by omega⟩
  | discardTill offsetInTicks =>
    simp only [addedBytes] at hbud
    simp only [step, DiscardTill, DiscardTillUnlocked] at h
    split_ifs at h with hneg
    · simp only [Outcome.state?, Option.map_some', Option.some.injEq, Prod.mk.injEq] at h
      rw [← h.1]
      exact ⟨ht, hord, rfl, Nat.le_refl _, fun _ => Nat.le_refl _⟩
    · obtain ⟨s2, hd, ht2, htot, hrel, habs⟩ := DiscardBytesUnlocked_exact s
        (wrapInt64 ((s.DurationToBytes offsetInTicks : Int) -
          (s.m_bufferStartOffsetInBytesTurnRelative : Int))).toNat ht hord hbud
      simp only [hd, Outcome.state?, Option.map_some', Option.some.injEq, Prod.mk.injEq] at h
      rw [← h.1]
      simp only [addedBytes]
      exact ⟨ht2, by omega, by omega, by omega, fun _ => by omega⟩
  | drop =>
    simp only [addedBytes] at hbud
    by_cases hc : s.m_currentChunk ≤ s.m_audioBuffers.length
    · simp only [step, Drop] at h
      rw [DropWithFuel_eq _ s hc] at h
      obtain ⟨s2, hd, ht2, htot, hrel, habs⟩ := DiscardBytesUnlocked_exact s
        (sizeSum (s.m_audioBuffers.take s.m_currentChunk) % 18446744073709551616) ht hord hbud
      simp only [hd] at h
      cases hloop : dropRemaining (s.m_audioBuffers.length + 1) s2 with
      | none => simp [hloop] at h
      | some o =>
        obtain ⟨s3, ho, ht3, hord3, hsum, hma, hmr⟩ :=
          dropRemaining_exact _ s2 o ht2 (by omega) (by omega) hloop
        simp only [hloop, ho, Option.some_bind, Outcome.state?, Option.map_some',
          Option.some.injEq, Prod.mk.injEq] at h
        rw [← h.1]
        simp only [addedBytes]
        exact ⟨ht3, hord3, by omega, by omega, fun _ => by omega⟩
    · simp only [step, Drop] at h
      rw [DropWithFuel_undefined _ s hc] at h
      simp [Outcome.state?] at h
  | copyTo =>
    simp only [step, Option.some.injEq, Prod.mk.injEq] at h
    rw [← h.1]
    exact ⟨ht, hord, rfl, Nat.le_refl _, fun _ => Nat.le_refl _⟩
  | copyFrom source =>
    simp only [addedBytes] at hbud
    simp only [step, CopyNonAcknowledgedDataTo, Bool.false_eq_true, if_false, Option.some.injEq,
      Prod.mk.injEq] at h
    rw [← h.1]
    obtain ⟨h1, h2, _, h4, h5⟩ := copy_loop_spec source.m_audioBuffers s
    have h2a := h2 (by omega)
    refine ⟨?_, by rw [h4, h5]; exact hord, ?_, by rw [h5], fun _ => by rw [h4]⟩
    · unfold TotalIsSum at *
      rw [h2a, h1, sizeSum_append, sizeSum_chunksOf, ← ht]
      omega
    · rw [h2a, h5]
      simp only [addedBytes]
      omega

theorem addedBytes_cons (op : Op) (ops : List Op) :
    addedBytes (op :: ops) = addedBytes [op] + addedBytes ops := by
  cases op <;> simp [addedBytes]

/-- A sequence of calls from a state whose total is the sum of the sizes,
when the absolute offset, the total and the bytes the calls add sum to less
than 2^64: the sum of the absolute offset and the total grows by the bytes
added, and the turn-relative offset stays at most the absolute one. -/
theorem run_exact :
    ∀ (ops : List Op) (s s1 : PcmAudioBuffer) (rs : List DataChunk), TotalIsSum s →
      s.m_bufferStartOffsetInBytesTurnRelative ≤ s.m_bufferStartOffsetInBytesAbsolute →
      s.m_bufferStartOffsetInBytesAbsolute + s.m_totalSizeInBytes + addedBytes ops <
        18446744073709551616 →
      run ops s = some (s1, rs) →
      TotalIsSum s1 ∧
        s1.m_bufferStartOffsetInBytesTurnRelative ≤ s1.m_bufferStartOffsetInBytesAbsolute ∧
        s1.m_bufferStartOffsetInBytesAbsolute + s1.m_totalSizeInBytes =
          s.m_bufferStartOffsetInBytesAbsolute + s.m_totalSizeInBytes + addedBytes ops := by
  intro ops
  induction ops with
  | nil =>
    intro s s1 rs ht hord _ h
    simp only [run, Option.some.injEq, Prod.mk.injEq] at h
    rw [← h.1]
    exact ⟨ht, hord, rfl⟩
  | cons op ops ih =>
    intro s s1 rs ht hord hbud h
    rw [addedBytes_cons] at hbud
    unfold run at h
    cases hstep : step s op with
    | none => simp [hstep] at h
    | some x =>
      obtain ⟨s2, r⟩ := x
      simp only [hstep] at h
      cases hrun : run ops s2 with
      | none => simp [hrun] at h
      | some y =>
        obtain ⟨s3, rs3⟩ := y
        simp only [hrun, Option.some.injEq, Prod.mk.injEq] at h
        rw [← h.1]
        obtain ⟨ht2, hord2, hsum2, _, _⟩ := step_exact s s2 op r ht hord (by omega) hstep
        obtain ⟨ht3, hord3, hsum3⟩ := ih s2 s3 rs3 ht2 hord2 (by omega) hrun
        refine ⟨ht3, hord3, ?_⟩
        rw [addedBytes_cons]
        omega

/-- The state at the end of a sequence of calls on the initial state that add
fewer than 2^64 bytes. -/
theorem run_exact_initial (header : WAVEFORMATEX) (ops : List Op) (s : PcmAudioBuffer)
    (rs : List DataChunk) (hadd : addedBytes ops < 18446744073709551616)
    (hrun : run ops (initial header) = some (s, rs)) :
    TotalIsSum s ∧
      s.m_bufferStartOffsetInBytesTurnRelative ≤ s.m_bufferStartOffsetInBytesAbsolute ∧
      s.m_bufferStartOffsetInBytesAbsolute + s.m_totalSizeInBytes = addedBytes ops := by
  obtain ⟨ht, hord, hsum⟩ := run_exact ops (initial header) s rs (totalIsSum_initial header)
    (Nat.le_refl 0) (by simp only [initial]; omega) hrun
  refine ⟨ht, hord, ?_⟩
  rw [hsum]
  simp [initial]

/-! ## The runtime fault and the offsets -/

/-- C20 (as amended): for every state reached from a freshly constructed
buffer by calls that add, together with the call that follows, fewer than
2^64 bytes, and every single call on it, the absolute offset does not
decrease, the turn-relative offset does not decrease unless the call is
NewTurn, and the turn-relative offset is at most the absolute offset before
and after the call. -/
theorem offsets_never_decrease (header : WAVEFORMATEX) (b : PcmAudioBuffer) (ops : List Op)
    (s : PcmAudioBuffer) (rs : List DataChunk) (op : Op) (s1 : PcmAudioBuffer)
    (r : Option DataChunk) (hb : construct header = .ok b) (hrun : run ops b = some (s, rs))
    (hadd : addedBytes ops + addedBytes [op] < 18446744073709551616)
    (hstep : step s op = some (s1, r)) :
    s.m_bufferStartOffsetInBytesAbsolute ≤ s1.m_bufferStartOffsetInBytesAbsolute ∧
      (op ≠ .newTurn → s.m_bufferStartOffsetInBytesTurnRelative ≤
        s1.m_bufferStartOffsetInBytesTurnRelative) ∧
      s.m_bufferStartOffsetInBytesTurnRelative ≤ s.m_bufferStartOffsetInBytesAbsolute ∧
      s1.m_bufferStartOffsetInBytesTurnRelative ≤ s1.m_bufferStartOffsetInBytesAbsolute := by
  have hinit := construct_eq_initial header b hb
  subst hinit
  obtain ⟨ht, hord, hsum⟩ := run_exact_initial header ops s rs (by omega) hrun
  obtain ⟨_, hord1, _, hma, hmr⟩ := step_exact s s1 op r ht hord (by omega) hstep
  exact ⟨hma, hmr, hord, hord1⟩

/-- The scenario of the specification followed by NewTurn is an instance of
`offsets_never_decrease`. -/
theorem offsets_never_decrease_witness :
    construct scenarioHeader = .ok (initial scenarioHeader) ∧
      run scenarioOps (initial scenarioHeader) = some (scenarioState, [⟨payloadA, 1000, 0⟩]) ∧
      addedBytes scenarioOps + addedBytes [Op.newTurn] < 18446744073709551616 ∧
      step scenarioState .newTurn = some (scenarioState.NewTurn, none) ∧
      scenarioState.m_bufferStartOffsetInBytesAbsolute ≤
        scenarioState.NewTurn.m_bufferStartOffsetInBytesAbsolute ∧
      (Op.newTurn ≠ .newTurn → scenarioState.m_bufferStartOffsetInBytesTurnRelative ≤
        scenarioState.NewTurn.m_bufferStartOffsetInBytesTurnRelative) ∧
      scenarioState.m_bufferStartOffsetInBytesTurnRelative ≤
        scenarioState.m_bufferStartOffsetInBytesAbsolute ∧
      scenarioState.NewTurn.m_bufferStartOffsetInBytesTurnRelative ≤
        scenarioState.NewTurn.m_bufferStartOffsetInBytesAbsolute :=
  ⟨rfl, by decide, by decide, by decide,
    offsets_never_decrease scenarioHeader (initial scenarioHeader) scenarioOps scenarioState
      [⟨payloadA, 1000, 0⟩] .newTurn scenarioState.NewTurn none rfl (by decide) (by decide)
      (by decide)⟩

/-- C20 fails as stated: after 2^63 bytes were added and discarded and 2^63
more were added, both offsets are 2^63; DiscardBytes(2^63) then returns
normally and both 64-bit offsets wrap to zero, so both decrease. -/
theorem offsets_decrease_when_they_wrap :
    construct scenarioHeader = .ok (initial scenarioHeader) ∧
      run halfAddedOps (initial scenarioHeader) =
        some (halfAddedState,
          [⟨payloadA, 9223372036854775808, 0⟩, ⟨payloadB, 9223372036854775808, 1⟩]) ∧
      step halfAddedState (.discardBytes 9223372036854775808) =
        some (halfAddedDiscardedState, none) ∧
      ¬ halfAddedState.m_bufferStartOffsetInBytesAbsolute ≤
        halfAddedDiscardedState.m_bufferStartOffsetInBytesAbsolute ∧
      ¬ halfAddedState.m_bufferStartOffsetInBytesTurnRelative ≤
        halfAddedDiscardedState.m_bufferStartOffsetInBytesTurnRelative :=
  ⟨rfl, by decide, by decide, by decide, by decide⟩

/-! ## ToAbsolute -/

/-- C16 (as amended): in every state reached from a freshly constructed
buffer by calls that add fewer than 2^64 bytes, for a turn-relative duration
whose byte equivalent, like both offsets, fits in 63 bits, the integer
absolute + DurationToBytes(t) - turnRelative is not negative, also when the
byte delta is, and ToAbsolute(t) is BytesToDurationInTicks of that integer. -/
theorem toAbsolute_eq_integer_formula (header : WAVEFORMATEX) (b : PcmAudioBuffer)
    (ops : List Op) (s : PcmAudioBuffer) (rs : List DataChunk) (t : Nat)
    (hb : construct header = .ok b) (hrun : run ops b = some (s, rs))
    (hadd : addedBytes ops < 18446744073709551616)
    (hd : s.DurationToBytes t < 9223372036854775808)
    (habs : s.m_bufferStartOffsetInBytesAbsolute < 9223372036854775808) :
    (0 : Int) ≤ (s.m_bufferStartOffsetInBytesAbsolute : Int) + (s.DurationToBytes t : Int) -
        (s.m_bufferStartOffsetInBytesTurnRelative : Int) ∧
      s.ToAbsolute t = s.BytesToDurationInTicks
        ((s.m_bufferStartOffsetInBytesAbsolute : Int) + (s.DurationToBytes t : Int) -
          (s.m_bufferStartOffsetInBytesTurnRelative : Int)).toNat := by
  have hinit := construct_eq_initial header b hb
  subst hinit
  obtain ⟨_, hord, _⟩ := run_exact_initial header ops s rs hadd hrun
  refine ⟨by omega, ?_⟩
  unfold ToAbsolute
  simp only
  rw [wrapInt64_of_bounds _ (by omega) (by omega), wrapUInt64_of_bounds _ (by omega) (by omega)]
  congr 2
  omega

/-- The scenario of the specification and the duration zero, whose byte
delta is negative (0 - 500), are an instance of
`toAbsolute_eq_integer_formula`. -/
theorem toAbsolute_eq_integer_formula_witness :
    construct scenarioHeader = .ok (initial scenarioHeader) ∧
      run scenarioOps (initial scenarioHeader) = some (scenarioState, [⟨payloadA, 1000, 0⟩]) ∧
      addedBytes scenarioOps < 18446744073709551616 ∧
      scenarioState.DurationToBytes 0 < 9223372036854775808 ∧
      scenarioState.m_bufferStartOffsetInBytesAbsolute < 9223372036854775808 ∧
      scenarioState.ToAbsolute 0 = some 0 ∧
      (0 : Int) ≤ (scenarioState.m_bufferStartOffsetInBytesAbsolute : Int) +
          (scenarioState.DurationToBytes 0 : Int) -
          (scenarioState.m_bufferStartOffsetInBytesTurnRelative : Int) ∧
      scenarioState.ToAbsolute 0 = scenarioState.BytesToDurationInTicks
        ((scenarioState.m_bufferStartOffsetInBytesAbsolute : Int) +
          (scenarioState.DurationToBytes 0 : Int) -
          (scenarioState.m_bufferStartOffsetInBytesTurnRelative : Int)).toNat :=
  ⟨rfl, by decide, by decide, by decide, by decide, by decide,
    toAbsolute_eq_integer_formula scenarioHeader (initial scenarioHeader) scenarioOps
      scenarioState [⟨payloadA, 1000, 0⟩] 0 rfl (by decide) (by decide) (by decide)
      (by decide)⟩

/-- C16 fails as stated: after 2^64 + 5 bytes were added and discarded, the
last 2^62 + 5 of them in a new turn, the absolute offset has wrapped to 5
while the turn-relative offset is 2^62 + 5.  All values fit in 63 bits, yet
for the duration zero the integer absolute + DurationToBytes(0) -
turnRelative is -2^62, and ToAbsolute(0) is the duration of 2^64 - 2^62
bytes, not BytesToDurationInTicks of that integer. -/
theorem toAbsolute_argument_negative_after_wrap :
    construct scenarioHeader = .ok (initial scenarioHeader) ∧
      run wrappedAbsoluteOps (initial scenarioHeader) = some (wrappedAbsoluteState, []) ∧
      wrappedAbsoluteState.DurationToBytes 0 < 9223372036854775808 ∧
      wrappedAbsoluteState.m_bufferStartOffsetInBytesAbsolute < 9223372036854775808 ∧
      wrappedAbsoluteState.m_bufferStartOffsetInBytesTurnRelative < 9223372036854775808 ∧
      (wrappedAbsoluteState.m_bufferStartOffsetInBytesAbsolute : Int) +
          (wrappedAbsoluteState.DurationToBytes 0 : Int) -
          (wrappedAbsoluteState.m_bufferStartOffsetInBytesTurnRelative : Int) =
        -4611686018427387904 ∧
      wrappedAbsoluteState.ToAbsolute 0 =
        wrappedAbsoluteState.BytesToDurationInTicks 13835058055282163712 ∧
      wrappedAbsoluteState.ToAbsolute 0 ≠ wrappedAbsoluteState.BytesToDurationInTicks
        ((wrappedAbsoluteState.m_bufferStartOffsetInBytesAbsolute : Int) +
          (wrappedAbsoluteState.DurationToBytes 0 : Int) -
          (wrappedAbsoluteState.m_bufferStartOffsetInBytesTurnRelative : Int)).toNat :=
  ⟨rfl, by decide, by decide, by decide, by decide, by decide, by decide, by decide⟩

/-! ## A discard within the chunks already handed out -/

/-- A discard of no more than the sizes of the chunks `pre` before the index
removes chunks of `pre` only, and the index keeps pointing at the first chunk
behind them. -/
theorem DiscardBytesUnlocked_within_handedOut (post : List DataChunk) :
    ∀ (pre : List DataChunk) (s : PcmAudioBuffer) (bytes : Nat),
      s.m_audioBuffers = pre ++ post → s.m_currentChunk = pre.length → TotalIsSum s →
      bytes ≤ sizeSum pre →
      ∃ s1 left, DiscardBytesUnlocked s bytes = .done s1 ∧ s1.m_audioBuffers = left ++ post ∧
        s1.m_currentChunk = left.length := by
  intro pre
  induction pre with
  | nil =>
    intro s bytes hl hc ht hb
    simp only [List.nil_append] at hl
    have hb0 : bytes = 0 := by simpa [sizeSum] using hb
    subst hb0
    cases post with
    | nil =>
      have h0 : s.m_totalSizeInBytes = 0 := by rw [ht, hl]; rfl
      refine ⟨resetIndex s, [], ?_, by simpa [resetIndex] using hl, rfl⟩
      rw [DiscardBytesUnlocked_nil s 0 hl, discardRest_nil s 0 hl h0]
    | cons y post =>
      refine ⟨s, [], ?_, by simpa using hl, by simpa using hc⟩
      rw [DiscardBytesUnlocked_cons_stop s y post 0 hl (Or.inl rfl),
        discardRest_cons_zero s y post hl]
  | cons x pre ih =>
    intro s bytes hl hc ht hb
    simp only [List.cons_append] at hl
    rw [sizeSum_cons] at hb
    have hsum : s.m_totalSizeInBytes = x.size + sizeSum (pre ++ post) := by
      rw [ht, hl, sizeSum_cons]
    by_cases hcond : bytes ≠ 0 ∧ x.size ≤ bytes
    · have hc1 : (popFront s x (pre ++ post)).m_currentChunk = pre.length := by
        simp only [popFront, decrementIndex, hc, List.length_cons]
        simp
      obtain ⟨s1, left, hd, hl1, hc2⟩ := ih (popFront s x (pre ++ post)) (bytes - x.size) rfl hc1
        (totalIsSum_popFront s x (pre ++ post) ht hl) (by omega)
      refine ⟨s1, left, ?_, hl1, hc2⟩
      rw [DiscardBytesUnlocked_cons_pop s x (pre ++ post) bytes hl hcond.1 hcond.2 (by omega), hd]
    · rcases Nat.eq_zero_or_pos bytes with hb0 | hpos
      · subst hb0
        refine ⟨s, x :: pre, ?_, by simpa using hl, hc⟩
        rw [DiscardBytesUnlocked_cons_stop s x (pre ++ post) 0 hl (Or.inl rfl),
          discardRest_cons_zero s x (pre ++ post) hl]
      · refine ⟨trimFront s x (pre ++ post) bytes, trimmedChunk x bytes :: pre, ?_, rfl,
          by simpa [trimFront] using hc⟩
        rw [DiscardBytesUnlocked_cons_stop s x (pre ++ post) bytes hl (Or.inr (by omega)),
          discardRest_cons_trim s x (pre ++ post) bytes hl hpos (by omega)]

/-- A discard whose boundary falls inside the chunk `c` pops the chunks
before `c` and trims `c` by the residual. -/
theorem DiscardBytesUnlocked_boundary_inside (c : DataChunk) (rest : List DataChunk) :
    ∀ (pre : List DataChunk) (s : PcmAudioBuffer) (bytes : Nat),
      s.m_audioBuffers = pre ++ c :: rest → TotalIsSum s → sizeSum pre < bytes →
      bytes < sizeSum pre + c.size →
      ∃ s1, DiscardBytesUnlocked s bytes = .done s1 ∧
        s1.m_audioBuffers = trimmedChunk c (bytes - sizeSum pre) :: rest := by
  intro pre
  induction pre with
  | nil =>
    intro s bytes hl ht hlo hhi
    simp only [List.nil_append] at hl
    have h0 : sizeSum ([] : List DataChunk) = 0 := rfl
    rw [h0] at hlo hhi ⊢
    have hsum : s.m_totalSizeInBytes = c.size + sizeSum rest := by rw [ht, hl, sizeSum_cons]
    refine ⟨trimFront s c rest bytes, ?_, rfl⟩
    rw [DiscardBytesUnlocked_cons_stop s c rest bytes hl (Or.inr (by omega)),
      discardRest_cons_trim s c rest bytes hl hlo (by omega)]
  | cons x pre ih =>
    intro s bytes hl ht hlo hhi
    simp only [List.cons_append] at hl
    rw [sizeSum_cons] at hlo hhi
    have hsum : s.m_totalSizeInBytes = x.size + sizeSum (pre ++ c :: rest) := by
      rw [ht, hl, sizeSum_cons]
    obtain ⟨s1, hd, hl1⟩ := ih (popFront s x (pre ++ c :: rest)) (bytes - x.size) rfl
      (totalIsSum_popFront s x (pre ++ c :: rest) ht hl) (by omega) (by omega)
    refine ⟨s1, ?_, ?_⟩
    · rw [DiscardBytesUnlocked_cons_pop s x (pre ++ c :: rest) bytes hl (by omega) (by omega)
        (by omega), hd]
    · rw [hl1, sizeSum_cons]
      congr 2
      omega

/-- C11: in a state that satisfies the data-model invariants, DiscardBytes(n)
with n at most the total size of the chunks below the index lowers
`m_totalSizeInBytes` by exactly n, leaves the stashed size and the chunk that
the next GetNext returns unchanged; when the boundary falls inside a chunk,
that chunk follows the popped ones with its size reduced by the residual and
its payload view starting that many bytes later. -/
theorem discardBytes_of_handed_out_bytes (s : PcmAudioBuffer) (n : Nat)
    (hinv : DataModelInvariant s)
    (hn : n ≤ ((s.m_audioBuffers.take s.m_currentChunk).map DataChunk.size).sum) :
    ∃ s1, s.DiscardBytes n = .done s1 ∧ s1.m_totalSizeInBytes + n = s.m_totalSizeInBytes ∧
      s1.StashedSizeInBytes = s.StashedSizeInBytes ∧ s1.GetNext.1 = s.GetNext.1 ∧
      ∀ pre c rest, s.m_audioBuffers = pre ++ c :: rest →
        (pre.map DataChunk.size).sum < n → n < (pre.map DataChunk.size).sum + c.size →
        s1.m_audioBuffers =
          ⟨⟨c.data.block, c.data.offset + (n - (pre.map DataChunk.size).sum)⟩,
            c.size - (n - (pre.map DataChunk.size).sum), c.createdBy⟩ :: rest := by
  obtain ⟨ht, hc⟩ := hinv
  have hsplit : s.m_audioBuffers =
      s.m_audioBuffers.take s.m_currentChunk ++ s.m_audioBuffers.drop s.m_currentChunk :=
    (List.take_append_drop _ _).symm
  have hlen : s.m_currentChunk = (s.m_audioBuffers.take s.m_currentChunk).length := by
    rw [List.length_take]; omega
  obtain ⟨s1, left, hd, hl1, hc1⟩ := DiscardBytesUnlocked_within_handedOut
    (s.m_audioBuffers.drop s.m_currentChunk) (s.m_audioBuffers.take s.m_currentChunk) s n hsplit
    hlen ht hn
  obtain ⟨s2, hd2, _, htot, _⟩ := DiscardBytesUnlocked_accounts s.m_audioBuffers s n rfl ht
  rw [hd] at hd2
  simp only [Outcome.done.injEq] at hd2
  subst hd2
  have hle : n ≤ s.m_totalSizeInBytes := by
    have h1 : s.m_totalSizeInBytes = sizeSum (s.m_audioBuffers.take s.m_currentChunk) +
        sizeSum (s.m_audioBuffers.drop s.m_currentChunk) := by
      rw [ht, ← sizeSum_append, ← hsplit]
      rfl
    have h2 : n ≤ sizeSum (s.m_audioBuffers.take s.m_currentChunk) := hn
    omega
  refine ⟨s1, hd, by omega, ?_, ?_, ?_⟩
  · simp only [StashedSizeInBytes, hl1, hc1, List.drop_left]
  · simp only [GetNext, GetNextUnlocked, hl1, hc1, List.length_append, ge_iff_le]
    have hget : (left ++ s.m_audioBuffers.drop s.m_currentChunk)[left.length]? =
        s.m_audioBuffers[s.m_currentChunk]? := by
      rw [List.getElem?_append_right (Nat.le_refl _), Nat.sub_self, List.getElem?_drop]
      simp
    by_cases hend : s.m_audioBuffers.length ≤ s.m_currentChunk
    · have hdrop : (s.m_audioBuffers.drop s.m_currentChunk).length = 0 := by
        rw [List.length_drop]; omega
      rw [if_pos (by omega), if_pos hend]
    · have hdrop : 0 < (s.m_audioBuffers.drop s.m_currentChunk).length := by
        rw [List.length_drop]; omega
      rw [if_neg (by omega), if_neg hend]
      exact hget
  · intro pre c rest hl hlo hhi
    obtain ⟨s3, hd3, hl3⟩ := DiscardBytesUnlocked_boundary_inside c rest pre s n hl ht hlo hhi
    rw [hd] at hd3
    simp only [Outcome.done.injEq] at hd3
    subst hd3
    exact hl3

/-- The scenario of the specification (two chunks of 1000 bytes, one GetNext,
DiscardBytes(500)) is an instance of `discardBytes_of_handed_out_bytes`: the
first chunk is left with 500 bytes, the total is 1500 and the stash 1000. -/
theorem discardBytes_of_handed_out_bytes_witness :
    DataModelInvariant afterFirstReadState ∧
      500 ≤ ((afterFirstReadState.m_audioBuffers.take
        afterFirstReadState.m_currentChunk).map DataChunk.size).sum ∧
      afterFirstReadState.DiscardBytes 500 = .done scenarioState ∧
      scenarioState.m_totalSizeInBytes = 1500 ∧ scenarioState.StashedSizeInBytes = 1000 ∧
      ∃ s1, afterFirstReadState.DiscardBytes 500 = .done s1 ∧
        s1.m_totalSizeInBytes + 500 = afterFirstReadState.m_totalSizeInBytes ∧
        s1.StashedSizeInBytes = afterFirstReadState.StashedSizeInBytes ∧
        s1.GetNext.1 = afterFirstReadState.GetNext.1 ∧
        ∀ pre c rest, afterFirstReadState.m_audioBuffers = pre ++ c :: rest →
          (pre.map DataChunk.size).sum < 500 → 500 < (pre.map DataChunk.size).sum + c.size →
          s1.m_audioBuffers =
            ⟨⟨c.data.block, c.data.offset + (500 - (pre.map DataChunk.size).sum)⟩,
              c.size - (500 - (pre.map DataChunk.size).sum), c.createdBy⟩ :: rest :=
  ⟨by decide, by decide, by decide, by decide, by decide,
    discardBytes_of_handed_out_bytes afterFirstReadState 500 (by decide) (by decide)⟩

/-! ## CopyNonAcknowledgedDataTo -/

theorem withIndex_self (s : PcmAudioBuffer) : withIndex s s.m_currentChunk = s := rfl

/-- The loop of the source and step 1 of the specification, run side by
side on states that agree up to the index: when the count never reaches zero
in front of a chunk of size zero and no offset passes 2^64, they pop the same
chunks, and the indices agree as long as no chunk at or behind the index is
popped. -/
theorem discardWhole_simulates_spec :
    ∀ (l : List DataChunk) (n : Nat) (s : PcmAudioBuffer) (k : Nat), s.m_audioBuffers = l →
      TotalIsSum s →
      (∀ pre c rest, l = pre ++ c :: rest → sizeSum pre = n → c.size ≠ 0) →
      s.m_bufferStartOffsetInBytesTurnRelative + min n s.m_totalSizeInBytes <
        18446744073709551616 →
      s.m_bufferStartOffsetInBytesAbsolute + min n s.m_totalSizeInBytes <
        18446744073709551616 →
      ∃ s1 b1 k1, discardWhole l n s = .ok (s1, b1) ∧
        specPopWhole l n (withIndex s k) = (withIndex s1 k1, b1) ∧ TotalIsSum s1 ∧
        (∀ c rest, s1.m_audioBuffers = c :: rest →
          (b1 = 0 ∧ c.size ≠ 0) ∨ (0 < b1 ∧ b1 < c.size)) ∧
        b1 ≤ n ∧ s1.m_totalSizeInBytes + (n - b1) = s.m_totalSizeInBytes ∧
        s1.m_bufferStartOffsetInBytesTurnRelative + min b1 s1.m_totalSizeInBytes <
          18446744073709551616 ∧
        s1.m_bufferStartOffsetInBytesAbsolute + min b1 s1.m_totalSizeInBytes <
          18446744073709551616 ∧
        (n < sizeSum (l.take (s.m_currentChunk + 1)) → k = s.m_currentChunk →
          k1 = s1.m_currentChunk) := by
  intro l
  induction l with
  | nil =>
    intro n s k hl ht _ hr ha
    refine ⟨s, n, k, rfl, rfl, ht, ?_, Nat.le_refl _, by omega, hr, ha, fun _ h => h⟩
    intro c rest h; rw [hl] at h; cases h
  | cons c rest ih =>
    intro n s k hl ht hzero hr ha
    have hsum : s.m_totalSizeInBytes = c.size + sizeSum rest := by rw [ht, hl, sizeSum_cons]
    have hfront : 0 = n → c.size ≠ 0 := fun h0 => hzero [] c rest rfl h0
    by_cases hle : c.size ≤ n
    · have hn0 : n ≠ 0 := by
        intro h0
        have := hfront h0.symm
        omega
      have hr1 : (s.m_bufferStartOffsetInBytesTurnRelative + c.size) % 18446744073709551616 =
          s.m_bufferStartOffsetInBytesTurnRelative + c.size := Nat.mod_eq_of_lt (by omega)
      have ha1 : (s.m_bufferStartOffsetInBytesAbsolute + c.size) % 18446744073709551616 =
          s.m_bufferStartOffsetInBytesAbsolute + c.size := Nat.mod_eq_of_lt (by omega)
      obtain ⟨s1, b1, k1, hd, hs, ht1, hexit, hb, hacc, hr2, ha2, hcur⟩ :=
        ih (n - c.size) (popFront s c rest) (k - 1) rfl (totalIsSum_popFront s c rest ht hl)
          (fun pre x post hsplit hpre => hzero (c :: pre) x post (by rw [hsplit]; rfl)
            (by rw [sizeSum_cons]; omega))
          (by simp only [popFront]; omega) (by simp only [popFront]; omega)
      have hacc' : s1.m_totalSizeInBytes + (n - c.size - b1) = s.m_totalSizeInBytes - c.size :=
        hacc
      refine ⟨s1, b1, k1, ?_, ?_, ht1, hexit, by omega, by omega, hr2, ha2, ?_⟩
      · rw [discardWhole_cons_pop c rest n s hn0 hle (by omega), hd]
      · rw [← hs]
        simp only [specPopWhole, if_pos hle]
        congr 1
        simp only [withIndex, popFront, hr1, ha1]
      · intro hn hk
        have hne : s.m_currentChunk ≠ 0 := by
          intro h0
          rw [h0] at hn
          simp only [Nat.zero_add, List.take_succ_cons, List.take_zero, sizeSum_cons] at hn
          have : sizeSum ([] : List DataChunk) = 0 := rfl
          omega
        obtain ⟨j, hj⟩ : ∃ j, s.m_currentChunk = j + 1 := ⟨s.m_currentChunk - 1, by omega⟩
        have hpc : (popFront s c rest).m_currentChunk = j := by
          simp only [popFront, decrementIndex, hj]
          simp
        apply hcur
        · rw [hpc]
          rw [hj, List.take_succ_cons, sizeSum_cons] at hn
          omega
        · rw [hpc, hk, hj]
          rfl
    · refine ⟨s, n, k, ?_, ?_, ht, ?_, Nat.le_refl _, by omega, hr, ha, fun _ h => h⟩
      · rw [discardWhole_cons_stop c rest n s (Or.inr (by omega))]
      · simp only [specPopWhole, if_neg hle]
      · intro c1 rest1 h
        rw [hl] at h
        cases h
        omega

/-- C18 (as amended): in a state that satisfies the data-model invariants,
for every n such that no chunk of size zero lies exactly n bytes into the
sequence, that pops no chunk at or behind the index (n is below the total
size of the chunks up to and including the one at the index) or is at least
the total size, and that takes neither offset to 2^64 or beyond,
DiscardBytesUnlocked(n) returns normally in the state that the three-step
algorithm of the specification produces: same chunk sequence, total size,
index and offsets. -/
theorem DiscardBytesUnlocked_refines_spec (s : PcmAudioBuffer) (n : Nat)
    (hinv : DataModelInvariant s)
    (hzero : ∀ pre c rest, s.m_audioBuffers = pre ++ c :: rest → sizeSum pre = n → c.size ≠ 0)
    (hn : n < ((s.m_audioBuffers.take (s.m_currentChunk + 1)).map DataChunk.size).sum ∨
      s.m_totalSizeInBytes ≤ n)
    (hrel : s.m_bufferStartOffsetInBytesTurnRelative + min n s.m_totalSizeInBytes <
      18446744073709551616)
    (habs : s.m_bufferStartOffsetInBytesAbsolute + min n s.m_totalSizeInBytes <
      18446744073709551616) :
    s.DiscardBytesUnlocked n = .done (specDiscardBytes s n) := by
  obtain ⟨s1, b1, k1, hd, hs, ht1, hexit, hb, hacc, hr1, ha1, hcur⟩ :=
    discardWhole_simulates_spec s.m_audioBuffers n s s.m_currentChunk rfl hinv.1 hzero hrel habs
  rw [withIndex_self] at hs
  unfold DiscardBytesUnlocked specDiscardBytes
  rw [hd, hs]
  simp only
  cases hl : s1.m_audioBuffers with
  | nil =>
    have h0 : s1.m_totalSizeInBytes = 0 := by rw [ht1, hl]; rfl
    rw [discardRest_nil s1 b1 hl h0]
    simp only [withIndex, resetIndex, hl]
  | cons c rest =>
    have hsum : s1.m_totalSizeInBytes = c.size + sizeSum rest := by rw [ht1, hl, sizeSum_cons]
    have hk : k1 = s1.m_currentChunk := by
      rcases hn with hn | hn
      · exact hcur hn rfl
      · rcases hexit c rest hl with h | h <;> omega
    subst hk
    rw [withIndex_self]
    simp only [hl]
    rcases Nat.eq_zero_or_pos b1 with hb0 | hbpos
    · subst hb0
      rw [discardRest_cons_zero s1 c rest hl]
      simp
    · have hlt : b1 < c.size := by
        rcases hexit c rest hl with h | h <;> omega
      have hr2 : (s1.m_bufferStartOffsetInBytesTurnRelative + b1) % 18446744073709551616 =
          s1.m_bufferStartOffsetInBytesTurnRelative + b1 := Nat.mod_eq_of_lt (by omega)
      have ha2 : (s1.m_bufferStartOffsetInBytesAbsolute + b1) % 18446744073709551616 =
          s1.m_bufferStartOffsetInBytesAbsolute + b1 := Nat.mod_eq_of_lt (by omega)
      rw [discardRest_cons_trim s1 c rest b1 hl hbpos (by omega), if_pos hbpos]
      simp only [trimFront, hr2, ha2]

/-- The state with a chunk of size zero between two chunks of 5 bytes and a
discard of 7 bytes (which pops the chunk of size zero and trims the third
chunk) are an instance of `DiscardBytesUnlocked_refines_spec`. -/
theorem DiscardBytesUnlocked_refines_spec_witness :
    DataModelInvariant zeroMiddleState ∧
      (∀ pre c rest, zeroMiddleState.m_audioBuffers = pre ++ c :: rest → sizeSum pre = 7 →
        c.size ≠ 0) ∧
      7 < ((zeroMiddleState.m_audioBuffers.take
        (zeroMiddleState.m_currentChunk + 1)).map DataChunk.size).sum ∧
      zeroMiddleState.m_bufferStartOffsetInBytesTurnRelative +
          min 7 zeroMiddleState.m_totalSizeInBytes < 18446744073709551616 ∧
      zeroMiddleState.m_bufferStartOffsetInBytesAbsolute +
          min 7 zeroMiddleState.m_totalSizeInBytes < 18446744073709551616 ∧
      (specDiscardBytes zeroMiddleState 7).m_audioBuffers = [⟨⟨1, 2⟩, 3, 2⟩] ∧
      zeroMiddleState.DiscardBytesUnlocked 7 = .done (specDiscardBytes zeroMiddleState 7) := by
  have hzero : ∀ pre c rest, zeroMiddleState.m_audioBuffers = pre ++ c :: rest →
      sizeSum pre = 7 → c.size ≠ 0 := by
    intro pre c rest h hs
    rcases pre with _ | ⟨a, _ | ⟨b, _ | ⟨d, pre⟩⟩⟩
    · simp [sizeSum] at hs
    · simp only [zeroMiddleState, List.cons_append, List.nil_append, List.cons.injEq] at h
      rw [← h.1] at hs
      simp [sizeSum] at hs
    · simp only [zeroMiddleState, List.cons_append, List.nil_append, List.cons.injEq] at h
      rw [← h.1, ← h.2.1] at hs
      simp [sizeSum] at hs
    · simp [zeroMiddleState] at h
  exact ⟨by decide, hzero, by decide, by decide, by decide, by decide,
    DiscardBytesUnlocked_refines_spec zeroMiddleState 7 (by decide) hzero (Or.inl (by decide))
      (by decide) (by decide)⟩

/-- C18 fails as stated.  With a chunk of size zero at the front and nothing
to discard, the source pops nothing (its loop also requires `bytes` to be
nonzero) while the algorithm of the specification pops the chunk; likewise
when the count reaches zero in front of a chunk of size zero further in.  In
a state whose total is below the size of the front chunk the source raises
the runtime fault.  With the index at zero and the first of two chunks
popped, the index of the source wraps to `SIZE_MAX`.  With offsets 5 below
2^64 and 10 bytes discarded, the 64-bit offsets of the source wrap to 5. -/
theorem DiscardBytesUnlocked_differs_from_spec :
    (zeroChunkState.DiscardBytesUnlocked 0 = .done zeroChunkState ∧
        (specDiscardBytes zeroChunkState 0).m_audioBuffers = [] ∧
        zeroChunkState.DiscardBytesUnlocked 0 ≠ .done (specDiscardBytes zeroChunkState 0)) ∧
      zeroMiddleState.DiscardBytesUnlocked 5 ≠ .done (specDiscardBytes zeroMiddleState 5) ∧
      inconsistentState.DiscardBytesUnlocked 5 ≠
        .done (specDiscardBytes inconsistentState 5) ∧
      (run [Op.add payloadA 10, Op.add payloadB 10] (initial scenarioHeader)).map
          (fun x => (x.1.DiscardBytesUnlocked 10, (specDiscardBytes x.1 10).m_currentChunk)) =
        some (.done wrappedIndexState, 0) ∧
      (nearWrapState.DiscardBytesUnlocked 10).state?.map
          (fun x => x.m_bufferStartOffsetInBytesAbsolute) = some 5 ∧
      (specDiscardBytes nearWrapState 10).m_bufferStartOffsetInBytesAbsolute =
        18446744073709551621 := by
  refine ⟨⟨by decide, by decide, by decide⟩, by decide, by decide, by decide, by decide,
    by decide⟩

/-! ## Byte conservation -/

/-- C21 (as amended): in every state reached from a freshly constructed
buffer by a sequence of calls that add fewer than 2^64 bytes, the absolute
offset plus `m_totalSizeInBytes` is the sum of `dataSize` over the Add calls
made so far; and each DiscardBytes(n) returns normally, advances both offsets
by min(n, old total size) and lowers the total size by the same amount. -/
theorem bytes_are_conserved (header : WAVEFORMATEX) (b : PcmAudioBuffer) (ops : List Op)
    (s : PcmAudioBuffer) (rs : List DataChunk) (hb : construct header = .ok b)
    (hrun : run ops b = some (s, rs)) (hadd : addedBytes ops < 18446744073709551616) :
    s.m_bufferStartOffsetInBytesAbsolute + s.m_totalSizeInBytes = addedBytes ops ∧
      ∀ n, ∃ s1, s.DiscardBytes n = .done s1 ∧
        s1.m_bufferStartOffsetInBytesTurnRelative =
          s.m_bufferStartOffsetInBytesTurnRelative + min n s.m_totalSizeInBytes ∧
        s1.m_bufferStartOffsetInBytesAbsolute =
          s.m_bufferStartOffsetInBytesAbsolute + min n s.m_totalSizeInBytes ∧
        s1.m_totalSizeInBytes + min n s.m_totalSizeInBytes = s.m_totalSizeInBytes := by
  have hinit := construct_eq_initial header b hb
  subst hinit
  obtain ⟨ht, hord, hsum⟩ := run_exact_initial header ops s rs hadd hrun
  refine ⟨hsum, fun n => ?_⟩
  obtain ⟨s1, hd, _, htot, hrel, habs⟩ := DiscardBytesUnlocked_exact s n ht hord (by omega)
  exact ⟨s1, hd, hrel, habs, htot⟩

/-- The scenario of the specification (2000 bytes added, 500 discarded, 1500
buffered) is an instance of `bytes_are_conserved`. -/
theorem bytes_are_conserved_witness :
    construct scenarioHeader = .ok (initial scenarioHeader) ∧
      run scenarioOps (initial scenarioHeader) = some (scenarioState, [⟨payloadA, 1000, 0⟩]) ∧
      addedBytes scenarioOps < 18446744073709551616 ∧
      addedBytes scenarioOps = 2000 ∧
      scenarioState.m_bufferStartOffsetInBytesAbsolute + scenarioState.m_totalSizeInBytes =
        addedBytes scenarioOps ∧
      ∀ n, ∃ s1, scenarioState.DiscardBytes n = .done s1 ∧
        s1.m_bufferStartOffsetInBytesTurnRelative =
          scenarioState.m_bufferStartOffsetInBytesTurnRelative +
            min n scenarioState.m_totalSizeInBytes ∧
        s1.m_bufferStartOffsetInBytesAbsolute =
          scenarioState.m_bufferStartOffsetInBytesAbsolute +
            min n scenarioState.m_totalSizeInBytes ∧
        s1.m_totalSizeInBytes + min n scenarioState.m_totalSizeInBytes =
          scenarioState.m_totalSizeInBytes :=
  ⟨rfl, by decide, by decide, by decide,
    bytes_are_conserved scenarioHeader (initial scenarioHeader) scenarioOps scenarioState
      [⟨payloadA, 1000, 0⟩] rfl (by decide) (by decide)⟩

/-- C21 fails as stated: after Add(2^64 - 1 bytes) and Add(2 bytes) on a
fresh buffer, 2^64 + 1 bytes have been added, while the absolute offset is
zero and the 64-bit total has wrapped to 1. -/
theorem bytes_are_not_conserved_after_overflow :
    construct scenarioHeader = .ok (initial scenarioHeader) ∧
      run overflowOps (initial scenarioHeader) = some (overflowedState, []) ∧
      addedBytes overflowOps = 18446744073709551617 ∧
      overflowedState.m_bufferStartOffsetInBytesAbsolute + overflowedState.m_totalSizeInBytes =
        1 ∧
      overflowedState.m_bufferStartOffsetInBytesAbsolute + overflowedState.m_totalSizeInBytes ≠
        addedBytes overflowOps :=
  ⟨rfl, by decide, by decide, by decide, by decide⟩

/-! ## DiscardTill twice -/

theorem resetIndex_of_index_zero (s : PcmAudioBuffer) (h : s.m_currentChunk = 0) :
    resetIndex s = s := by
  cases s
  simp only [resetIndex] at h ⊢
  subst h
  rfl

/-- When `DiscardBytesUnlocked` returns with an empty deque, the index is
zero. -/
theorem DiscardBytesUnlocked_empty_index (s s1 : PcmAudioBuffer) (bytes : Nat) (ht : TotalIsSum s)
    (hd : DiscardBytesUnlocked s bytes = .done s1) (hl : s1.m_audioBuffers = []) :
    s1.m_currentChunk = 0 := by
  obtain ⟨s2, b2, hloop, ht2, _, hexit⟩ :=
    discardWhole_stable (fun _ => True) stableUnderDiscard_true s.m_audioBuffers bytes s rfl ht trivial
  unfold DiscardBytesUnlocked at hd
  rw [hloop] at hd
  simp only at hd
  cases hl2 : s2.m_audioBuffers with
  | nil =>
    have h0 : s2.m_totalSizeInBytes = 0 := by rw [ht2, hl2]; rfl
    rw [discardRest_nil s2 b2 hl2 h0] at hd
    simp only [Outcome.done.injEq] at hd
    rw [← hd]
    rfl
  | cons c rest =>
    have hsum : s2.m_totalSizeInBytes = c.size + sizeSum rest := by rw [ht2, hl2, sizeSum_cons]
    rcases Nat.eq_zero_or_pos b2 with hb | hb
    · subst hb
      rw [discardRest_cons_zero s2 c rest hl2] at hd
      simp only [Outcome.done.injEq] at hd
      rw [← hd, hl2] at hl
      cases hl
    · have hlt : b2 < c.size := by
        rcases hexit c rest hl2 with h | h <;> omega
      rw [discardRest_cons_trim s2 c rest b2 hl2 hb (by omega)] at hd
      simp only [Outcome.done.injEq] at hd
      rw [← hd] at hl
      simp [trimFront] at hl

/-- A discard on an empty deque with index zero, and a discard of nothing on
a deque with chunks, change nothing. -/
theorem DiscardBytesUnlocked_noop (s : PcmAudioBuffer) (bytes : Nat) (ht : TotalIsSum s)
    (hidx : s.m_audioBuffers = [] → s.m_currentChunk = 0)
    (h : s.m_audioBuffers = [] ∨ bytes = 0) : DiscardBytesUnlocked s bytes = .done s := by
  cases hl : s.m_audioBuffers with
  | nil =>
    have h0 : s.m_totalSizeInBytes = 0 := by rw [ht, hl]; rfl
    rw [DiscardBytesUnlocked_nil s bytes hl, discardRest_nil s bytes hl h0,
      resetIndex_of_index_zero s (hidx hl)]
  | cons c rest =>
    have hb : bytes = 0 := by
      rcases h with h | h
      · rw [hl] at h; cases h
      · exact h
    subst hb
    rw [DiscardBytesUnlocked_cons_stop s c rest 0 hl (Or.inl rfl),
      discardRest_cons_zero s c rest hl]

/-- C22: in a state that satisfies the data-model invariants, DiscardTill
with the same offsetInTicks twice in a row returns normally both times and
the second call leaves the state of the first (chunk sequence, total size,
index and both offsets): a re-delivered acknowledgment discards nothing. -/
theorem discardTill_idempotent (s : PcmAudioBuffer) (offsetInTicks : Nat)
    (hinv : DataModelInvariant s) :
    ∃ s1, s.DiscardTill offsetInTicks = .done s1 ∧ s1.DiscardTill offsetInTicks = .done s1 := by
  by_cases hstale : wrapInt64 ((s.DurationToBytes offsetInTicks : Int) -
      (s.m_bufferStartOffsetInBytesTurnRelative : Int)) < 0
  · have h : s.DiscardTill offsetInTicks = .done s := by
      unfold DiscardTill DiscardTillUnlocked
      simp only
      rw [if_pos hstale]
    exact ⟨s, h, h⟩
  · obtain ⟨s1, hd, ht1, htot, _, _, hh, hb, hm, _, hmod⟩ := DiscardBytesUnlocked_accounts
      s.m_audioBuffers s
      (wrapInt64 ((s.DurationToBytes offsetInTicks : Int) -
        (s.m_bufferStartOffsetInBytesTurnRelative : Int))).toNat rfl hinv.1
    have hfirst : s.DiscardTill offsetInTicks = .done s1 := by
      simp only [DiscardTill, DiscardTillUnlocked]
      rw [if_neg hstale, hd]
    have hsame : s1.DurationToBytes offsetInTicks = s.DurationToBytes offsetInTicks := by
      simp only [DurationToBytes, hh, hb, hm]
    have hidx : s1.m_audioBuffers = [] → s1.m_currentChunk = 0 :=
      DiscardBytesUnlocked_empty_index s s1 _ hinv.1 hd
    refine ⟨s1, hfirst, ?_⟩
    simp only [DiscardTill, DiscardTillUnlocked]
    rw [hsame]
    by_cases hstale2 : wrapInt64 ((s.DurationToBytes offsetInTicks : Int) -
        (s1.m_bufferStartOffsetInBytesTurnRelative : Int)) < 0
    · rw [if_pos hstale2]
    rw [if_neg hstale2]
    apply DiscardBytesUnlocked_noop s1 _ ht1 hidx
    by_cases hle : (wrapInt64 ((s.DurationToBytes offsetInTicks : Int) -
        (s.m_bufferStartOffsetInBytesTurnRelative : Int))).toNat ≤ s.m_totalSizeInBytes
    · right
      have h1 := wrapInt64_emod ((s.DurationToBytes offsetInTicks : Int) -
        (s.m_bufferStartOffsetInBytesTurnRelative : Int))
      have h2 := wrapInt64_emod ((s.DurationToBytes offsetInTicks : Int) -
        (s1.m_bufferStartOffsetInBytesTurnRelative : Int))
      have h3 : wrapInt64 ((s.DurationToBytes offsetInTicks : Int) -
          (s1.m_bufferStartOffsetInBytesTurnRelative : Int)) < 9223372036854775808 := by
        unfold wrapInt64
        split_ifs <;> omega
      omega
    · left
      obtain ⟨s2, hd2, hnil, _⟩ := DiscardBytesUnlocked_beyond_total s.m_audioBuffers s
        (wrapInt64 ((s.DurationToBytes offsetInTicks : Int) -
          (s.m_bufferStartOffsetInBytesTurnRelative : Int))).toNat rfl hinv.1 (by omega)
      rw [hd] at hd2
      simp only [Outcome.done.injEq] at hd2
      rw [hd2]
      exact hnil

/-- The state of the scenario and an offset of 20 ms (640 bytes, 140 beyond
the 500 already discarded) are an instance of `discardTill_idempotent`. -/
theorem discardTill_idempotent_witness :
    DataModelInvariant scenarioState ∧
      (scenarioState.DiscardTill 200000).state?.map
          (fun s1 => s1.m_bufferStartOffsetInBytesTurnRelative) = some 640 ∧
      ∃ s1, scenarioState.DiscardTill 200000 = .done s1 ∧ s1.DiscardTill 200000 = .done s1 :=
  ⟨by decide, by decide, discardTill_idempotent scenarioState 200000 (by decide)⟩

end AudioBuffer
